import Mathlib

/-!
# A shallow embedding of the DICOM decoder

The development follows the Go packages `dicom`, `dcmerr`, `tag`, `uid` and `vr`.

Modelling conventions.

* A Go `string` and a Go `[]byte` are both sequences of bytes; they are lists of
  naturals here (`GoString`), every entry standing for one byte `0..255`.
  `ascii "CS"` is the byte string of an ASCII literal.
* The input stream is a finite list of bytes.  The `bufio.Reader` inside `reader`
  is represented by the bytes it has not delivered yet (`input`); the underlying
  source hands over everything it has when asked (a regular file, a
  `bytes.Reader`).
* Go functions that mutate the reader return the new reader next to their result.
* Go functions returning `(v, error)` return `Except GoError v`; a function
  returning only `error` returns `Option GoError` (`none` is `nil`).
* The recursive descent `parseAll -> readElement -> readValue -> readSequence ->
  parseAll` is defined by recursion on a fuel argument; `none` means that the
  fuel ran out before the Go call returned.  Entry points supply
  `length of the stream + 3`.
* A Go run-time panic is the outcome `Outcome.panics`.
* `float32`/`float64` payloads are kept as their IEEE-754 bit patterns.
* The `uint64` byte counter `nRead` is a natural number (a stream is shorter
  than `2^64` bytes).
-/

namespace Dicom

/-- A Go string or byte slice: its bytes in order. -/
abbrev GoString := List Nat

/-- The bytes of an ASCII literal. -/
def ascii (s : String) : GoString := s.data.map Char.toNat

/-- Rendering of an unsigned integer by the verb `%v`. -/
def fmtV (n : Nat) : GoString := (Nat.toDigits 10 n).map Char.toNat

/-- Rendering of an unsigned integer by the verb `%08x`. -/
def fmt08x (n : Nat) : GoString :=
  let d := (Nat.toDigits 16 n).map Char.toNat
  List.replicate (8 - d.length) 48 ++ d

/-- Rendering of a byte slice by the verb `%v`, for example `[68 73 67 77]`. -/
def fmtBytes (b : List Nat) : GoString :=
  [91] ++ (List.intercalate [32] (b.map fmtV)) ++ [93]

/-! ## Package `dcmerr` -/

namespace dcmerr

def ErrNotFound : Nat := 0
def ErrNotConvertible : Nat := 1
def ErrTagNotFound : Nat := 2
def ErrUIDNotFound : Nat := 3
def ErrEOF : Nat := 4
def ErrBadMagic : Nat := 5
def ErrIO : Nat := 6
def ErrSQItemFound : Nat := 7
def ErrSQItemDelimFound : Nat := 8
def ErrSQDelimFound : Nat := 9
def ErrUnexpectedEOF : Nat := 10
def ErrIterInvalid : Nat := 11
def ErrUnsupported : Nat := 12
def ErrNotImplemented : Nat := 13

end dcmerr

/-- A Go `error` value met in this code: the two sentinel errors of package `io`
and the `dicomError` of package `dcmerr`. -/
inductive GoError where
  | ioEOF
  | ioErrUnexpectedEOF
  | dicomError (msg : GoString) (code : Nat)
  deriving DecidableEq, Repr

/-- The method `Error()`. -/
def GoError.Error : GoError → GoString
  | .ioEOF => ascii "EOF"
  | .ioErrUnexpectedEOF => ascii "unexpected EOF"
  | .dicomError msg _ => msg

namespace dcmerr

def NewDicomError (code : Nat) (msg : GoString) : GoError := .dicomError msg code

/-- The call `Errorf(code, format, a...)` with the formatted message `msg`. -/
def Errorf (code : Nat) (msg : GoString) : GoError := NewDicomError code msg

def NewErrEOF : GoError := .dicomError (ascii "EOF") ErrEOF

def NewErrIterInvalid : GoError := .dicomError (ascii "IterInvalid") ErrIterInvalid

/-- The code of a `DicomError`; `none` for any other error. -/
def code? : GoError → Option Nat
  | .dicomError _ code => some code
  | _ => none

def IsErrNotFound (err : GoError) : Bool := code? err == some ErrNotFound

def IsErrNotConvertible (err : GoError) : Bool := code? err == some ErrNotConvertible

def IsErrEOF (err : GoError) : Bool := code? err == some ErrEOF

def IsErrBadMagic (err : GoError) : Bool := code? err == some ErrBadMagic

/-- The message `"error near byte %v (%08x) - %v"` used throughout reader and parser. -/
def nearByteMsg (pos : Nat) (detail : GoString) : GoString :=
  ascii "error near byte " ++ fmtV pos ++ ascii " (" ++ fmt08x pos ++ ascii ") - " ++ detail

end dcmerr

/-- The outcome of a Go call that may panic. -/
inductive Outcome (α : Type) where
  | returns (a : α)
  | panics
  deriving DecidableEq, Repr

/-! ## The byte reader (`reader.go`) -/

inductive ByteOrder where
  | LittleEndian
  | BigEndian
  deriving DecidableEq, Repr

/-- The call `order.Uint16(b)` of `encoding/binary`. -/
def ByteOrder.Uint16 : ByteOrder → List Nat → Nat
  | .LittleEndian, [b0, b1] => b0 + b1 * 256
  | .BigEndian, [b0, b1] => b1 + b0 * 256
  | _, _ => 0

/-- The call `order.Uint32(b)` of `encoding/binary`. -/
def ByteOrder.Uint32 : ByteOrder → List Nat → Nat
  | .LittleEndian, [b0, b1, b2, b3] => b0 + b1 * 256 + b2 * 65536 + b3 * 16777216
  | .BigEndian, [b0, b1, b2, b3] => b3 + b2 * 256 + b1 * 65536 + b0 * 16777216
  | _, _ => 0

/-- The call `order.Uint64(b)` of `encoding/binary`. -/
def ByteOrder.Uint64 : ByteOrder → List Nat → Nat
  | .LittleEndian, b => ByteOrder.Uint32 .LittleEndian (b.take 4)
      + ByteOrder.Uint32 .LittleEndian (b.drop 4) * 4294967296
  | .BigEndian, b => ByteOrder.Uint32 .BigEndian (b.drop 4)
      + ByteOrder.Uint32 .BigEndian (b.take 4) * 4294967296

/-- The conversion `int16(u)` of a `uint16`. -/
def toInt16 (u : Nat) : Int := if u < 32768 then (u : Int) else (u : Int) - 65536

/-- The conversion `int32(u)` of a `uint32`. -/
def toInt32 (u : Nat) : Int := if u < 2147483648 then (u : Int) else (u : Int) - 4294967296

structure reader where
  explicit : Bool
  input : List Nat
  nRead : Nat
  order : ByteOrder
  deriving DecidableEq, Repr

def NewReader (r : List Nat) (order : ByteOrder) (explicit : Bool) : reader :=
  { explicit := explicit, input := r, nRead := 0, order := order }

namespace reader

def ByteOrder (r : reader) : Dicom.ByteOrder := r.order

def BytesRead (r : reader) : Nat := r.nRead

def IsExplicit (r : reader) : Bool := r.explicit

/-- The method `Peek(n)`: the next `n` bytes, not consumed; a stream that ends
earlier gives what is left together with `io.EOF`. -/
def Peek (r : reader) (n : Nat) : List Nat × Option GoError :=
  if n ≤ r.input.length then (r.input.take n, none) else (r.input, some .ioEOF)

/-- The method `Read(buf)` with `len(buf) = len`: the bytes delivered (their
number is Go's `n`), the error, and the reader with `nRead` advanced by `n`.
`bufio.Reader.Read` copies what is buffered, at most `len` bytes, with a nil
error, and reports `io.EOF` with no bytes once the stream is exhausted. -/
def Read (r : reader) (len : Nat) : (List Nat × Option GoError) × reader :=
  if len = 0 then (([], none), r)
  else if r.input.isEmpty then (([], some .ioEOF), r)
  else
    let got := r.input.take len
    ((got, none), { r with input := r.input.drop len, nRead := r.nRead + got.length })

end reader

/-- The call `io.ReadFull(r, buf)` with `len(buf) = len`: it calls `r.Read` until
the buffer is full or an error occurs; no byte at all gives `io.EOF`, some but
not all give `io.ErrUnexpectedEOF`. -/
def ioReadFull (r : reader) (len : Nat) : (List Nat × Option GoError) × reader :=
  if len = 0 then (([], none), r)
  else
    match r.Read len with
    | ((_, some err), r1) => (([], some err), r1)
    | ((got, none), r1) =>
      if got.length = len then ((got, none), r1)
      else ((got, some .ioErrUnexpectedEOF), r1)

/-- The error mapping shared by all scalar reads, after `binary.Read` failed with
`err` and left the reader at `r1`. -/
def scalarReadError (r1 : reader) (err : GoError) : GoError :=
  if err = .ioEOF then dcmerr.NewErrEOF
  else if err = .ioErrUnexpectedEOF then
    dcmerr.Errorf dcmerr.ErrUnexpectedEOF (dcmerr.nearByteMsg r1.nRead err.Error)
  else dcmerr.Errorf dcmerr.ErrIO (dcmerr.nearByteMsg r1.nRead err.Error)

/-- The call `binary.Read(r, order, &v)` for a fixed-size `v` of `size` bytes,
followed by the error mapping; `dec` decodes the bytes. -/
def readScalar {α : Type} (r : reader) (size : Nat) (dec : List Nat → α) :
    Except GoError α × reader :=
  match ioReadFull r size with
  | ((_, some err), r1) => (.error (scalarReadError r1 err), r1)
  | ((bs, none), r1) => (.ok (dec bs), r1)

namespace reader

/-- The method `ReadFloat32`; the value is its IEEE-754 bit pattern. -/
def ReadFloat32 (r : reader) : Except GoError Nat × reader :=
  readScalar r 4 (r.order.Uint32 ·)

/-- The method `ReadFloat64`; the value is its IEEE-754 bit pattern. -/
def ReadFloat64 (r : reader) : Except GoError Nat × reader :=
  readScalar r 8 (r.order.Uint64 ·)

def ReadInt16 (r : reader) : Except GoError Int × reader :=
  readScalar r 2 (fun bs => toInt16 (r.order.Uint16 bs))

def ReadInt32 (r : reader) : Except GoError Int × reader :=
  readScalar r 4 (fun bs => toInt32 (r.order.Uint32 bs))

def ReadString (r : reader) (len : Nat) : Except GoError GoString × reader :=
  match ioReadFull r len with
  | ((b, err), r1) =>
    if b.length ≠ len then
      (.error (dcmerr.Errorf dcmerr.ErrIO
        (dcmerr.nearByteMsg r1.nRead (ascii "string not fully read"))), r1)
    else
      match err with
      | some e => (.error (dcmerr.Errorf dcmerr.ErrIO (dcmerr.nearByteMsg r1.nRead e.Error)), r1)
      | none => (.ok b, r1)

def ReadUint16 (r : reader) : Except GoError Nat × reader :=
  readScalar r 2 (r.order.Uint16 ·)

def ReadUint16LE (r : reader) : Except GoError Nat × reader :=
  readScalar r 2 (Dicom.ByteOrder.LittleEndian.Uint16 ·)

def ReadUint32 (r : reader) : Except GoError Nat × reader :=
  readScalar r 4 (r.order.Uint32 ·)

def ReadUint32LE (r : reader) : Except GoError Nat × reader :=
  readScalar r 4 (Dicom.ByteOrder.LittleEndian.Uint32 ·)

def SetExplicit (r : reader) (explicit : Bool) : reader :=
  { r with explicit := explicit }

/-- The method `Skip(n)`: `io.CopyN` discards up to `n` bytes through `Read`; its
error is formatted and dropped, the method returns nil in every case. -/
def Skip (r : reader) (n : Nat) : Option GoError × reader :=
  (none, { r with input := r.input.drop n, nRead := r.nRead + (r.input.take n).length })

end reader

/-! ## Package `strings`: `TrimSpace` -/

/-- The six ASCII white-space bytes: tab, line feed, vertical tab, form feed,
carriage return and blank. -/
def isSpace1 (b : Nat) : Bool :=
  b == 9 || b == 10 || b == 11 || b == 12 || b == 13 || b == 32

/-- The two-byte UTF-8 encodings of white space: U+0085 and U+00A0. -/
def isSpace2 (b0 b1 : Nat) : Bool :=
  b0 == 0xC2 && (b1 == 0x85 || b1 == 0xA0)

/-- The three-byte UTF-8 encodings of white space: U+1680, U+2000..U+200A,
U+2028, U+2029, U+202F, U+205F and U+3000. -/
def isSpace3 (b0 b1 b2 : Nat) : Bool :=
  (b0 == 0xE1 && b1 == 0x9A && b2 == 0x80)
  || (b0 == 0xE2 && b1 == 0x80
      && ((0x80 ≤ b2 && b2 ≤ 0x8A) || b2 == 0xA8 || b2 == 0xA9 || b2 == 0xAF))
  || (b0 == 0xE2 && b1 == 0x81 && b2 == 0x9F)
  || (b0 == 0xE3 && b1 == 0x80 && b2 == 0x80)

/-- Removal of leading white space (`strings.TrimLeftFunc(s, unicode.IsSpace)`). -/
def trimLeftSpace : GoString → GoString
  | [] => []
  | b0 :: t =>
    if isSpace1 b0 then trimLeftSpace t
    else
      match t with
      | [] => [b0]
      | b1 :: t1 =>
        if isSpace2 b0 b1 then trimLeftSpace t1
        else
          match t1 with
          | [] => [b0, b1]
          | b2 :: t2 => if isSpace3 b0 b1 b2 then trimLeftSpace t2 else b0 :: b1 :: b2 :: t2

/-- Removal of trailing white space, on the reversed string. -/
def trimRightSpaceRev : GoString → GoString
  | [] => []
  | b0 :: t =>
    if isSpace1 b0 then trimRightSpaceRev t
    else
      match t with
      | [] => [b0]
      | b1 :: t1 =>
        if isSpace2 b1 b0 then trimRightSpaceRev t1
        else
          match t1 with
          | [] => [b0, b1]
          | b2 :: t2 => if isSpace3 b2 b1 b0 then trimRightSpaceRev t2 else b0 :: b1 :: b2 :: t2

/-- The call `strings.TrimSpace(s)`: leading and trailing Unicode white space
removed. -/
def TrimSpace (s : GoString) : GoString :=
  (trimRightSpaceRev (trimLeftSpace s).reverse).reverse

/-! ## Values, elements and datasets (`value.go`, `element.go`, `dataset.go`) -/

mutual
/-- The implementations of the interface `Value`. -/
inductive Value where
  | bytesValue (value : List Nat)
  | emptyValue
  | float32Value (value : List Nat)
  | float64Value (value : List Nat)
  | int16Value (value : List Int)
  | int32Value (value : List Int)
  | stringValue (value : GoString)
  | sqValue (value : List Dataset)
  | uint16Value (value : List Nat)
  | uint32Value (value : List Nat)
/-- The struct `Element`. -/
inductive Element where
  | mk (Tag : Nat) (VR : GoString) (VL : Nat) (Value : Value)
/-- The struct `Dataset`; the Go map `elems` is the list of its entries, one
per key. -/
inductive Dataset where
  | mk (elems : List (Nat × Element))
end

def Element.Tag : Element → Nat
  | .mk t _ _ _ => t

def Element.VR : Element → GoString
  | .mk _ vr _ _ => vr

def Element.VL : Element → Nat
  | .mk _ _ vl _ => vl

def Element.Value : Element → Dicom.Value
  | .mk _ _ _ v => v

def Dataset.elems : Dataset → List (Nat × Element)
  | .mk m => m

def NewElement (tg : Nat) (vr : GoString) (vl : Nat) (value : Value) : Element :=
  .mk tg vr vl value

/-- The dynamic value handed to `NewValue(raw interface{})`. -/
inductive Raw where
  | nil
  | string (s : GoString)
  | uint32s (v : List Nat)
  | uint16s (v : List Nat)
  | int32s (v : List Int)
  | int16s (v : List Int)
  | bytes (v : List Nat)
  | float32s (v : List Nat)
  | float64s (v : List Nat)
  | datasets (v : List Dataset)
  | other (typeName : GoString)

def nullStrip (s : GoString) : GoString :=
  if s.length < 2 then s
  else if s.drop (s.length - 1) ≠ [0] then s
  else s.take (s.length - 1)

def NewValue : Raw → Except GoError Value
  | .nil => .ok .emptyValue
  | .string raw => .ok (.stringValue (nullStrip raw))
  | .uint32s raw => .ok (.uint32Value raw)
  | .uint16s raw => .ok (.uint16Value raw)
  | .int32s raw => .ok (.int32Value raw)
  | .int16s raw => .ok (.int16Value raw)
  | .bytes raw => .ok (.bytesValue raw)
  | .float32s raw => .ok (.float32Value raw)
  | .float64s raw => .ok (.float64Value raw)
  | .datasets raw => .ok (.sqValue raw)
  | .other typeName =>
    .error (dcmerr.Errorf dcmerr.ErrUnsupported (ascii "unknown or unsupported type: " ++ typeName))

/-- The dynamic values returned by `Get()` and `GetAll()`. -/
inductive Any where
  | nil
  | bytes (v : List Nat)
  | float32 (v : Nat)
  | float32s (v : List Nat)
  | float64 (v : Nat)
  | float64s (v : List Nat)
  | int16 (v : Int)
  | int16s (v : List Int)
  | int32 (v : Int)
  | int32s (v : List Int)
  | string (v : GoString)
  | dataset (v : Dataset)
  | datasets (v : List Dataset)
  | uint16 (v : Nat)
  | uint16s (v : List Nat)
  | uint32 (v : Nat)
  | uint32s (v : List Nat)

/-- The index expression `v.value[0]`, which panics on an empty slice. -/
def first {α β : Type} (wrap : α → β) : List α → Outcome β
  | [] => .panics
  | x :: _ => .returns (wrap x)

/-- The method `Get()`. -/
def Value.Get : Value → Outcome Any
  | .bytesValue v => .returns (.bytes v)
  | .emptyValue => .returns .nil
  | .float32Value v => first Any.float32 v
  | .float64Value v => first Any.float64 v
  | .int16Value v => first Any.int16 v
  | .int32Value v => first Any.int32 v
  | .stringValue v => .returns (.string (TrimSpace v))
  | .sqValue v => first Any.dataset v
  | .uint16Value v => first Any.uint16 v
  | .uint32Value v => first Any.uint32 v

/-- The method `GetAll()`. -/
def Value.GetAll : Value → Any
  | .bytesValue v => .bytes v
  | .emptyValue => .nil
  | .float32Value v => .float32s v
  | .float64Value v => .float64s v
  | .int16Value v => .int16s v
  | .int32Value v => .int32s v
  | .stringValue v => .string (TrimSpace v)
  | .sqValue v => .datasets v
  | .uint16Value v => .uint16s v
  | .uint32Value v => .uint32s v

/-! ## Packages `tag`, `uid` and `vr` -/

namespace tag

structure TagInfo where
  tag : Nat
  vr : GoString
  name : GoString
  vm : GoString

/-- The dictionary `tagMap`; its entries are not part of the sources at hand, so
it is a parameter of everything that consults it. -/
abbrev TagMap := Nat → Option TagInfo

def Name (tagMap : TagMap) (tg : Nat) : GoString :=
  match tagMap tg with
  | none => ascii "UNKNOWN"
  | some info => info.name

def VR (tagMap : TagMap) (tg : Nat) : GoString :=
  match tagMap tg with
  | none => ascii "UN"
  | some info => info.vr

/-- Modelled from the spec: the constant `tag.TransferSyntaxUID`, declared in a
file that is not among the sources; the spec gives tag `0x00020010`. -/
def TransferSyntaxUID : Nat := 0x00020010

end tag

namespace uid

/-- Modelled from the spec: the constant `uid.ImplicitVRLittleEndian`, declared
in a file that is not among the sources; the spec gives `1.2.840.10008.1.2`. -/
def ImplicitVRLittleEndian : GoString := ascii "1.2.840.10008.1.2"

end uid

namespace vr

/-- The set `strVRs` as filled by `initStrVRs`. -/
def strVRs : List GoString :=
  [ascii "AE", ascii "AS", ascii "CS", ascii "DA", ascii "DS", ascii "DT", ascii "IS",
   ascii "LO", ascii "LT", ascii "PN", ascii "SH", ascii "ST", ascii "TM", ascii "UC",
   ascii "UI", ascii "UR", ascii "UT"]

def IsStringVR (value : GoString) : Bool := decide (value ∈ strVRs)

end vr

/-! ## Dataset operations -/

/-- The map assignment `m[k] = v`: replace the entry of key `k`, or add one. -/
def mapSet (m : List (Nat × Element)) (k : Nat) (v : Element) : List (Nat × Element) :=
  match m with
  | [] => [(k, v)]
  | (k1, v1) :: rest => if k1 = k then (k, v) :: rest else (k1, v1) :: mapSet rest k v

def NewDataset : Dataset := .mk []

namespace Dataset

def notFoundMsg (tg : Nat) : GoString :=
  ascii "Element 0x" ++ fmt08x tg ++ ascii " not found"

def Get (ds : Dataset) (tg : Nat) : Except GoError Element :=
  match ds.elems.lookup tg with
  | none => .error (dcmerr.Errorf dcmerr.ErrNotFound (notFoundMsg tg))
  | some elem => .ok elem

def GetString (ds : Dataset) (tg : Nat) : Outcome (Except GoError GoString) :=
  match ds.elems.lookup tg with
  | none => .returns (.error (dcmerr.Errorf dcmerr.ErrNotFound (notFoundMsg tg)))
  | some elem =>
    match elem.Value.Get with
    | .panics => .panics
    | .returns (.string value) => .returns (.ok value)
    | .returns _ =>
      .returns (.error (dcmerr.Errorf dcmerr.ErrNotFound
        (ascii "Cannot convert element 0x" ++ fmt08x tg ++ ascii " to string")))

/-- The method `Put(elem)`; `none` is the nil pointer. -/
def Put (ds : Dataset) (elem : Option Element) : Dataset :=
  match elem with
  | none => ds
  | some e => .mk (mapSet ds.elems e.Tag e)

def PutString (ds : Dataset) (tg : Nat) (vrStr str : GoString) : Option GoError × Dataset :=
  if !vr.IsStringVR vrStr then
    (some (dcmerr.Errorf dcmerr.ErrNotConvertible
      (ascii "VR " ++ vrStr ++ ascii " is not a string VR")), ds)
  else
    match NewValue (.string str) with
    | .error err => (some err, ds)
    | .ok value =>
      let elem := NewElement tg vrStr (str.length % 2 ^ 32) value
      (none, .mk (mapSet ds.elems elem.Tag elem))

def Size (ds : Dataset) : Nat := ds.elems.length

end Dataset

/-! ## The parser (`parser.go`) -/

def magic : GoString := ascii "DICM"

def UndefinedLength : Nat := 0xffffffff

def SQItem : Nat := 0xfffee000

def SQItemDelim : Nat := 0xfffee00d

def SQDelim : Nat := 0xfffee0dd

/-- The wrapped error `Errorf(ErrIO, "error near byte %v (%08x) - %v", ...)` built
by the parser at reader state `r`. -/
def nearByteError (r : reader) (err : GoError) : GoError :=
  dcmerr.Errorf dcmerr.ErrIO (dcmerr.nearByteMsg r.BytesRead err.Error)

def checkHeader (r : reader) : Option GoError × reader :=
  match r.Read 128 with
  | ((preamble, err), r1) =>
    if preamble.length ≠ 128 then
      (some (dcmerr.Errorf dcmerr.ErrIO
        (ascii "error reading preamble at byte " ++ fmtV r1.BytesRead ++ ascii " ("
          ++ fmt08x r1.BytesRead ++ ascii ")")), r1)
    else
      match err with
      | some e => (some e, r1)
      | none =>
        match r1.Read 4 with
        | ((magicBytes, err2), r2) =>
          if magicBytes.length ≠ 4 ∨ err2 ≠ none then (err2, r2)
          else if magicBytes ≠ magic then
            (some (dcmerr.Errorf dcmerr.ErrIO
              (ascii "bad magic " ++ fmtBytes magicBytes ++ ascii " at byte "
                ++ fmtV r2.BytesRead ++ ascii " (" ++ fmt08x r2.BytesRead ++ ascii ")")), r2)
          else (none, r2)

/-- The function `checkSQMarker`; `ok none` is the result `(nil, nil)`. -/
def checkSQMarker (tg : Nat) : Except GoError (Option Element) :=
  match NewValue .nil with
  | .error err => .error err
  | .ok value =>
    if tg = SQItem then .ok (some (NewElement tg [] UndefinedLength value))
    else if tg = SQItemDelim then .ok (some (NewElement tg [] UndefinedLength value))
    else if tg = SQDelim then .ok (some (NewElement tg [] UndefinedLength value))
    else .ok none

def checkXferSyntax (ds : Dataset) (r : reader) : Outcome (Option GoError × reader) :=
  match ds.GetString tag.TransferSyntaxUID with
  | .panics => .panics
  | .returns (.error err) => .returns (some err, r)
  | .returns (.ok tsuid) =>
    if tsuid = uid.ImplicitVRLittleEndian then .returns (none, r.SetExplicit false)
    else .returns (none, r)

/-- The function `readBytesValue`; `io.ReadFull` returns a nil error only with a
full buffer, so the test `uint32(n) < vl` is made where the error is not nil. -/
def readBytesValue (r : reader) (vl : Nat) : Except GoError Value × reader :=
  match ioReadFull r vl with
  | ((buf, some err), r1) =>
    if buf.length < vl then (.error err, r1) else (NewValue (.bytes buf), r1)
  | ((buf, none), r1) => (NewValue (.bytes buf), r1)

/-- The loop `for i := range data { v, err := read(); ...; data[i] = v }` over a
slice of `n` entries. -/
def readN {α : Type} (read : reader → Except GoError α × reader) :
    Nat → reader → Except GoError (List α) × reader
  | 0, r => (.ok [], r)
  | n + 1, r =>
    match read r with
    | (.error err, r1) => (.error err, r1)
    | (.ok v, r1) =>
      match readN read n r1 with
      | (.error err, r2) => (.error err, r2)
      | (.ok vs, r2) => (.ok (v :: vs), r2)

def readFloat32Value (r : reader) (vl : Nat) : Except GoError Value × reader :=
  match readN reader.ReadFloat32 (vl / 4) r with
  | (.error err, r1) => (.error err, r1)
  | (.ok data, r1) => (NewValue (.float32s data), r1)

def readFloat64Value (r : reader) (vl : Nat) : Except GoError Value × reader :=
  match readN reader.ReadFloat64 (vl / 8) r with
  | (.error err, r1) => (.error err, r1)
  | (.ok data, r1) => (NewValue (.float64s data), r1)

def readInt16Value (r : reader) (vl : Nat) : Except GoError Value × reader :=
  match readN reader.ReadInt16 (vl / 2) r with
  | (.error err, r1) => (.error err, r1)
  | (.ok data, r1) => (NewValue (.int16s data), r1)

def readInt32Value (r : reader) (vl : Nat) : Except GoError Value × reader :=
  match readN reader.ReadInt32 (vl / 4) r with
  | (.error err, r1) => (.error err, r1)
  | (.ok data, r1) => (NewValue (.int32s data), r1)

def readLETag (r : reader) : Except GoError Nat × reader :=
  match r.ReadUint16LE with
  | (.error err, r1) => (.error err, r1)
  | (.ok g, r1) =>
    match r1.ReadUint16LE with
    | (.error err, r2) =>
      if dcmerr.IsErrEOF err then
        (.error (dcmerr.Errorf dcmerr.ErrUnexpectedEOF
          (dcmerr.nearByteMsg r2.BytesRead err.Error)), r2)
      else (.error err, r2)
    | (.ok e, r2) => (.ok (((g <<< 16) % 2 ^ 32) ||| e), r2)

def readLETagBytes (b : List Nat) : Nat :=
  match b with
  | b0 :: b1 :: b2 :: b3 :: _ => (b0 <<< 16) ||| (b1 <<< 24) ||| b2 ||| (b3 <<< 8)
  | _ => 0

def readStringValue (r : reader) (vl : Nat) : Except GoError Value × reader :=
  match r.ReadString vl with
  | (.error err, r1) => (.error err, r1)
  | (.ok s, r1) => (NewValue (.string s), r1)

def readUint16Value (r : reader) (vl : Nat) : Except GoError Value × reader :=
  match readN reader.ReadUint16 (vl / 2) r with
  | (.error err, r1) => (.error err, r1)
  | (.ok data, r1) => (NewValue (.uint16s data), r1)

def readUint32Value (r : reader) (vl : Nat) : Except GoError Value × reader :=
  match readN reader.ReadUint32 (vl / 4) r with
  | (.error err, r1) => (.error err, r1)
  | (.ok data, r1) => (NewValue (.uint32s data), r1)

/-- The VRs whose length field is 16 bits wide in explicit mode (`readVL`). -/
def shortVLs : List GoString :=
  [ascii "AE", ascii "AS", ascii "AT", ascii "CS", ascii "DA", ascii "DS", ascii "DT",
   ascii "FL", ascii "FD", ascii "IS", ascii "LO", ascii "LT", ascii "PN", ascii "SH",
   ascii "SL", ascii "SS", ascii "ST", ascii "TM", ascii "UI", ascii "UL", ascii "US"]

def readVL (r : reader) (vr : GoString) : Except GoError Nat × reader :=
  if !r.IsExplicit then r.ReadUint32
  else
    let use16 : Bool := decide (vr ∈ shortVLs)
    if use16 then
      match r.ReadUint16 with
      | (.error err, r1) => (.error err, r1)
      | (.ok vl16, r1) => (.ok vl16, r1)
    else
      match r.ReadUint16 with
      | (.error err, r1) => (.error err, r1)
      | (.ok _, r1) =>
        match r1.ReadUint32 with
        | (.error err, r2) => (.error err, r2)
        | (.ok vl, r2) => (.ok vl, r2)

def readVR (tagMap : tag.TagMap) (r : reader) (tag32 : Nat) : Except GoError GoString × reader :=
  if !r.IsExplicit then (.ok (tag.VR tagMap tag32), r)
  else r.ReadString 2

/-- The VRs decoded as text by `readValue`. -/
def textVRs : List GoString :=
  [ascii "AE", ascii "AS", ascii "CS", ascii "DA", ascii "DS", ascii "DT", ascii "IS",
   ascii "LO", ascii "LT", ascii "PN", ascii "SH", ascii "ST", ascii "TM", ascii "UI"]

mutual
/-- The loop of `parseAll`; the dataset is returned in its final state. -/
def parseAll (tagMap : tag.TagMap) : Nat → Dataset → reader →
    Option (Option GoError × Dataset × reader)
  | 0, _, _ => none
  | fuel + 1, ds, r =>
    match readElement tagMap fuel r with
    | none => none
    | some (.error err, r1) =>
      if dcmerr.IsErrEOF err then some (none, ds, r1) else some (some err, ds, r1)
    | some (.ok elem, r1) =>
      if elem.Tag = SQItemDelim then some (none, ds, r1)
      else parseAll tagMap fuel (ds.Put (some elem)) r1
def readElement (tagMap : tag.TagMap) : Nat → reader → Option (Except GoError Element × reader)
  | 0, _ => none
  | fuel + 1, r =>
    match readLETag r with
    | (.error err, r1) => some (.error err, r1)
    | (.ok tg, r1) =>
      match checkSQMarker tg with
      | .error err => some (.error (nearByteError r1 err), r1)
      | .ok (some sqMarker) =>
        match r1.Skip 4 with
        | (some err, r2) => some (.error err, r2)
        | (none, r2) => some (.ok sqMarker, r2)
      | .ok none =>
        match readVR tagMap r1 tg with
        | (.error err, r2) => some (.error err, r2)
        | (.ok vr, r2) =>
          match readVL r2 vr with
          | (.error err, r3) => some (.error (nearByteError r3 err), r3)
          | (.ok vl, r3) =>
            match readValue tagMap fuel r3 vr vl with
            | none => none
            | some (.error err, r4) => some (.error (nearByteError r4 err), r4)
            | some (.ok value, r4) => some (.ok (NewElement tg vr vl value), r4)
def readImpLEElement (tagMap : tag.TagMap) : Nat → reader →
    Option (Except GoError Element × reader)
  | 0, _ => none
  | fuel + 1, r =>
    match readLETag r with
    | (.error err, r1) => some (.error err, r1)
    | (.ok tag32, r1) =>
      match r1.ReadUint32LE with
      | (.error err, r2) => some (.error (nearByteError r2 err), r2)
      | (.ok vl, r2) =>
        match checkSQMarker tag32 with
        | .error err => some (.error (nearByteError r2 err), r2)
        | .ok (some sqMarker) => some (.ok sqMarker, r2)
        | .ok none =>
          let vr := tag.VR tagMap tag32
          match readValue tagMap fuel r2 vr vl with
          | none => none
          | some (.error err, r3) => some (.error (nearByteError r3 err), r3)
          | some (.ok value, r3) => some (.ok (NewElement tag32 vr vl value), r3)
/-- The loop of `readSequence`, entered with the items gathered so far. -/
def readSequenceLoop (tagMap : tag.TagMap) : Nat → List Dataset → reader →
    Option (Except GoError Value × reader)
  | 0, _, _ => none
  | fuel + 1, items, r =>
    let pos := r.BytesRead
    match readImpLEElement tagMap fuel r with
    | none => none
    | some (.error err, r1) => some (.error err, r1)
    | some (.ok elem, r1) =>
      if elem.Tag = SQDelim then some (NewValue (.datasets items), r1)
      else if elem.Tag ≠ SQItem then
        some (.error (dcmerr.Errorf dcmerr.ErrIO
          (ascii "SQItem tag expected at " ++ fmtV pos ++ ascii " (" ++ fmt08x pos
            ++ ascii "), found " ++ fmt08x elem.Tag)), r1)
      else
        match parseAll tagMap fuel NewDataset r1 with
        | none => none
        | some (some err, _, r2) => some (.error err, r2)
        | some (none, ds, r2) => readSequenceLoop tagMap fuel (items ++ [ds]) r2
def readSequence (tagMap : tag.TagMap) : Nat → reader → Option (Except GoError Value × reader)
  | 0, _ => none
  | fuel + 1, r => readSequenceLoop tagMap fuel [] r
def readUndefLenValue (tagMap : tag.TagMap) : Nat → reader → GoString →
    Option (Except GoError Value × reader)
  | 0, _, _ => none
  | fuel + 1, r, vr =>
    if vr = ascii "SQ" then readSequence tagMap fuel r
    else some (.error (dcmerr.Errorf dcmerr.ErrIO (ascii "undefined length for VR " ++ vr)), r)
def readValue (tagMap : tag.TagMap) : Nat → reader → GoString → Nat →
    Option (Except GoError Value × reader)
  | 0, _, _, _ => none
  | fuel + 1, r, vr, vl =>
    if vl = UndefinedLength then readUndefLenValue tagMap fuel r vr
    else if vr ∈ textVRs then some (readStringValue r vl)
    else if vr = ascii "UL" then some (readUint32Value r vl)
    else if vr = ascii "US" ∨ vr = ascii "xs" then some (readUint16Value r vl)
    else if vr = ascii "OB" ∨ vr = ascii "UN" ∨ vr = ascii "ox" ∨ vr = ascii "px" then
      some (readBytesValue r vl)
    else if vr = ascii "FL" then some (readFloat32Value r vl)
    else if vr = ascii "FD" then some (readFloat64Value r vl)
    else if vr = ascii "SL" then some (readInt32Value r vl)
    else if vr = ascii "SS" ∨ vr = ascii "OW" then some (readInt16Value r vl)
    else some (.error (dcmerr.Errorf dcmerr.ErrIO (ascii "unsupported VR: " ++ vr)), r)
end

def readElementPeek (tagMap : tag.TagMap) (fuel : Nat) (r : reader) (maxTag : Nat) :
    Option (Except GoError Element × reader) :=
  match r.Peek 4 with
  | (_, some err) =>
    if err = .ioEOF then some (.error dcmerr.NewErrEOF, r)
    else some (.error (dcmerr.Errorf dcmerr.ErrIO
      (ascii "error peeking at byte " ++ fmtV r.BytesRead ++ ascii " (" ++ fmt08x r.BytesRead
        ++ ascii ") - " ++ err.Error)), r)
  | (peek, none) =>
    let tg := readLETagBytes (peek.take 4)
    if tg > maxTag then some (.error dcmerr.NewErrEOF, r)
    else
      match checkSQMarker tg with
      | .error err => some (.error (nearByteError r err), r)
      | .ok (some sqMarker) =>
        match r.Skip 8 with
        | (some err, r1) =>
          some (.error (dcmerr.Errorf dcmerr.ErrIO
            (ascii "error skipping ahead at byte " ++ fmtV r1.BytesRead ++ ascii " ("
              ++ fmt08x r1.BytesRead ++ ascii ") - " ++ err.Error)), r1)
        | (none, r1) => some (.ok sqMarker, r1)
      | .ok none =>
        match r.Skip 4 with
        | (some err, r1) =>
          some (.error (dcmerr.Errorf dcmerr.ErrIO
            (ascii "error skipping ahead at byte " ++ fmtV r1.BytesRead ++ ascii " ("
              ++ fmt08x r1.BytesRead ++ ascii ") - " ++ err.Error)), r1)
        | (none, r1) =>
          match readVR tagMap r1 tg with
          | (.error err, r2) => some (.error err, r2)
          | (.ok vr, r2) =>
            match readVL r2 vr with
            | (.error err, r3) => some (.error (nearByteError r3 err), r3)
            | (.ok vl, r3) =>
              match readValue tagMap fuel r3 vr vl with
              | none => none
              | some (.error err, r4) => some (.error (nearByteError r4 err), r4)
              | some (.ok value, r4) => some (.ok (NewElement tg vr vl value), r4)

/-- The loop `for r.BytesRead() < maxRead { ... }` of `parseFileMeta`. -/
def parseFileMetaLoop (tagMap : tag.TagMap) (maxRead : Nat) : Nat → Dataset → reader →
    Option (Option GoError × Dataset × reader)
  | 0, _, _ => none
  | fuel + 1, ds, r =>
    if r.BytesRead < maxRead then
      match readElement tagMap fuel r with
      | none => none
      | some (.error err, r1) => some (some err, ds, r1)
      | some (.ok elem, r1) => parseFileMetaLoop tagMap maxRead fuel (ds.Put (some elem)) r1
    else some (none, ds, r)

/-- The function `parseFileMeta`; the type assertion `.(uint32)` on the first
value of the first element panics unless that value is a `uint32`. -/
def parseFileMeta (tagMap : tag.TagMap) (fuel : Nat) (ds : Dataset) (r : reader) :
    Option (Outcome (Option GoError × Dataset × reader)) :=
  let start := r.BytesRead
  match readElement tagMap fuel r with
  | none => none
  | some (.error err, r1) => some (.returns (some err, ds, r1))
  | some (.ok metaLen, r1) =>
    let ds1 := ds.Put (some metaLen)
    match metaLen.Value.Get with
    | .returns (.uint32 v) =>
      let maxRead := start + v
      match parseFileMetaLoop tagMap maxRead fuel ds1 r1 with
      | none => none
      | some res => some (.returns res)
    | _ => some .panics

/-- The loop of `parseUntil`. -/
def parseUntil (tagMap : tag.TagMap) (maxTag : Nat) : Nat → Dataset → reader →
    Option (Option GoError × Dataset × reader)
  | 0, _, _ => none
  | fuel + 1, ds, r =>
    match readElementPeek tagMap fuel r maxTag with
    | none => none
    | some (.error err, r1) =>
      if dcmerr.IsErrEOF err then some (none, ds, r1) else some (some err, ds, r1)
    | some (.ok elem, r1) =>
      if elem.Tag = SQItemDelim then some (none, ds, r1)
      else
        let ds1 := ds.Put (some elem)
        if elem.Tag = maxTag then some (none, ds1, r1)
        else parseUntil tagMap maxTag fuel ds1 r1

/-- The fuel the entry points give to the decoding loops. -/
def fuelFor (stream : List Nat) : Nat := stream.length + 3

/-- The method `Parse(r, explicit)` on the stream `stream`. -/
def Parse (tagMap : tag.TagMap) (stream : List Nat) (explicit : Bool) :
    Option (Except GoError Dataset) :=
  let ds := NewDataset
  let rd := NewReader stream .LittleEndian explicit
  match parseAll tagMap (fuelFor stream) ds rd with
  | none => none
  | some (some err, _, _) => some (.error err)
  | some (none, ds1, _) => some (.ok ds1)

/-- The method `ParseFile(filename)` for a file that opens and has the content
`file`. -/
def ParseFile (tagMap : tag.TagMap) (file : List Nat) : Option (Outcome (Except GoError Dataset)) :=
  let rd := NewReader file .LittleEndian true
  match checkHeader rd with
  | (some err, _) => some (.returns (.error err))
  | (none, r1) =>
    let ds := NewDataset
    match parseFileMeta tagMap (fuelFor file) ds r1 with
    | none => none
    | some .panics => some .panics
    | some (.returns (some err, _, _)) => some (.returns (.error err))
    | some (.returns (none, ds1, r2)) =>
      match checkXferSyntax ds1 r2 with
      | .panics => some .panics
      | .returns (some err, _) => some (.returns (.error err))
      | .returns (none, r3) =>
        match parseAll tagMap (fuelFor file) ds1 r3 with
        | none => none
        | some (some err, _, _) => some (.returns (.error err))
        | some (none, ds2, _) => some (.returns (.ok ds2))

/-- The method `ParseFileUntil(filename, maxTag)` for a file that opens and has
the content `file`. -/
def ParseFileUntil (tagMap : tag.TagMap) (file : List Nat) (maxTag : Nat) :
    Option (Outcome (Except GoError Dataset)) :=
  let rd := NewReader file .LittleEndian true
  match checkHeader rd with
  | (some err, _) => some (.returns (.error err))
  | (none, r1) =>
    let ds := NewDataset
    match parseFileMeta tagMap (fuelFor file) ds r1 with
    | none => none
    | some .panics => some .panics
    | some (.returns (some err, _, _)) => some (.returns (.error err))
    | some (.returns (none, ds1, r2)) =>
      match checkXferSyntax ds1 r2 with
      | .panics => some .panics
      | .returns (some err, _) => some (.returns (.error err))
      | .returns (none, r3) =>
        match parseUntil tagMap maxTag (fuelFor file) ds1 r3 with
        | none => none
        | some (some err, _, _) => some (.returns (.error err))
        | some (none, ds2, _) => some (.returns (.ok ds2))

/-- The method `ParseUntil(r, explicit, maxTag)` on the stream `stream`. -/
def ParseUntil (tagMap : tag.TagMap) (stream : List Nat) (explicit : Bool) (maxTag : Nat) :
    Option (Except GoError Dataset) :=
  let ds := NewDataset
  let rd := NewReader stream .LittleEndian explicit
  match parseUntil tagMap maxTag (fuelFor stream) ds rd with
  | none => none
  | some (some err, _, _) => some (.error err)
  | some (none, ds1, _) => some (.ok ds1)

/-! ## Wire encodings, used to state the properties -/

/-- The two bytes of a 16-bit word, little-endian. -/
def le16 (n : Nat) : List Nat := [n % 256, n / 256 % 256]

/-- The four bytes of a 32-bit word, little-endian. -/
def le32 (n : Nat) : List Nat := [n % 256, n / 256 % 256, n / 65536 % 256, n / 16777216 % 256]

/-- The four bytes of a tag on the wire: group word, then element word. -/
def tagBytes (t : Nat) : List Nat := le16 (t / 65536) ++ le16 (t % 65536)

/-- The header of an SQ element of undefined length with tag `t`: in explicit
mode tag, `SQ`, two reserved bytes and the length `FF FF FF FF`; in implicit mode
tag and length. -/
def sqHeader (ex : Bool) (t : Nat) (reserved : List Nat) : List Nat :=
  if ex then tagBytes t ++ ascii "SQ" ++ reserved ++ [0xFF, 0xFF, 0xFF, 0xFF]
  else tagBytes t ++ [0xFF, 0xFF, 0xFF, 0xFF]

/-- The bytes `bs` are one complete element: `readElement`, given enough fuel,
decodes them to `e` and stops right behind them, whatever follows and wherever
the reader stands. -/
def DecodesTo (tagMap : tag.TagMap) (ex : Bool) (bs : List Nat) (e : Element) : Prop :=
  ∃ fuel, ∀ rest k, readElement tagMap fuel ⟨ex, bs ++ rest, k, .LittleEndian⟩
    = some (.ok e, ⟨ex, rest, k + bs.length, .LittleEndian⟩)

/-- An element that is none of the three SQ markers. -/
def NonMarker (e : Element) : Prop :=
  e.Tag ≠ SQItem ∧ e.Tag ≠ SQItemDelim ∧ e.Tag ≠ SQDelim

/-- One item of a sequence on the wire: the four bytes of the length field of
its `SQ_ITEM` marker, the elements of its body, each with its encoding, and the
four bytes of the length field of its `SQ_ITEM_DELIM` marker. -/
structure WireItem where
  lenField : List Nat
  body : List (List Nat × Element)
  delimLenField : List Nat

/-- The concatenated encodings of a body. -/
def bodyBytes (body : List (List Nat × Element)) : List Nat :=
  (body.map (·.1)).flatten

/-- The dataset obtained by putting the elements of a body, in order, into `ds`. -/
def putAll (ds : Dataset) (body : List (List Nat × Element)) : Dataset :=
  body.foldl (fun d p => d.Put (some p.2)) ds

namespace WireItem

def bytes (it : WireItem) : List Nat :=
  tagBytes SQItem ++ it.lenField ++ bodyBytes it.body ++ tagBytes SQItemDelim ++ it.delimLenField

def dataset (it : WireItem) : Dataset := putAll NewDataset it.body

/-- Both length fields have four bytes and the body consists of complete
non-marker elements. -/
def WellFormed (tagMap : tag.TagMap) (ex : Bool) (it : WireItem) : Prop :=
  it.lenField.length = 4 ∧ it.delimLenField.length = 4
    ∧ ∀ p ∈ it.body, DecodesTo tagMap ex p.1 p.2 ∧ NonMarker p.2

end WireItem

/-- The concatenated encodings of the items of a sequence. -/
def itemsBytes (items : List WireItem) : List Nat :=
  (items.map WireItem.bytes).flatten
/-- A dictionary knowing `(0008,1140)` as `SQ` and `(0010,0010)` as `PN`, used
in examples. -/
def exampleTags : tag.TagMap := fun t =>
  if t = 0x00081140 then some ⟨t, ascii "SQ", ascii "ReferencedImageSequence", ascii "1"⟩
  else if t = 0x00100010 then some ⟨t, ascii "PN", ascii "PatientName", ascii "1"⟩
  else none

/-- The explicit-VR encoding of `(0010,0010) PN "AB^C"`. -/
def examplePNBytes : List Nat :=
  [0x10, 0x00, 0x10, 0x00, 0x50, 0x4E, 0x04, 0x00] ++ ascii "AB^C"

/-- The element `(0010,0010) PN "AB^C"`. -/
def examplePN : Element := NewElement 0x00100010 (ascii "PN") 4 (.stringValue (ascii "AB^C"))

/-- An item holding `examplePN`, its length field left undefined. -/
def exampleItem : WireItem :=
  { lenField := [0xFF, 0xFF, 0xFF, 0xFF], body := [(examplePNBytes, examplePN)],
    delimLenField := [0, 0, 0, 0] }

/-- An explicit-VR sequence `(0008,1140)` of undefined length with two items of
one `PN` element each. -/
def exampleSequence : List Nat :=
  [0x08, 0x00, 0x40, 0x11, 0x53, 0x51, 0x00, 0x00, 0xFF, 0xFF, 0xFF, 0xFF]
  ++ [0xFE, 0xFF, 0x00, 0xE0, 0xFF, 0xFF, 0xFF, 0xFF] ++ examplePNBytes
  ++ [0xFE, 0xFF, 0x0D, 0xE0, 0x00, 0x00, 0x00, 0x00]
  ++ [0xFE, 0xFF, 0x00, 0xE0, 0xFF, 0xFF, 0xFF, 0xFF] ++ examplePNBytes
  ++ [0xFE, 0xFF, 0x0D, 0xE0, 0x00, 0x00, 0x00, 0x00]
  ++ [0xFE, 0xFF, 0xDD, 0xE0, 0x00, 0x00, 0x00, 0x00]

/-- The content of a sequence whose only item declares the length 12, holds
`examplePN` in these 12 bytes and has no `SQ_ITEM_DELIM` marker; the `SQ_DELIM`
marker follows. -/
def definedLengthItemStream : List Nat :=
  [0xFE, 0xFF, 0x00, 0xE0, 0x0C, 0x00, 0x00, 0x00] ++ examplePNBytes
  ++ [0xFE, 0xFF, 0xDD, 0xE0, 0x00, 0x00, 0x00, 0x00]

deriving instance DecidableEq for Except

/-- The Go call returned with a non-nil error. -/
def returnedError {α : Type} : Option (Except GoError α × reader) → Bool
  | some (.error _, _) => true
  | _ => false

/-! ## Decidable equality of values, elements and datasets -/

mutual
def Value.beq : Value → Value → Bool
  | .bytesValue a, .bytesValue b => a == b
  | .emptyValue, .emptyValue => true
  | .float32Value a, .float32Value b => a == b
  | .float64Value a, .float64Value b => a == b
  | .int16Value a, .int16Value b => a == b
  | .int32Value a, .int32Value b => a == b
  | .stringValue a, .stringValue b => a == b
  | .sqValue a, .sqValue b => beqDatasets a b
  | .uint16Value a, .uint16Value b => a == b
  | .uint32Value a, .uint32Value b => a == b
  | _, _ => false
termination_by structural x => x
def Element.beq : Element → Element → Bool
  | .mk t vr vl v, .mk t' vr' vl' v' => t == t' && vr == vr' && vl == vl' && Value.beq v v'
termination_by structural x => x
def Dataset.beq : Dataset → Dataset → Bool
  | .mk a, .mk b => beqEntries a b
termination_by structural x => x
def beqEntry : Nat × Element → Nat × Element → Bool
  | (k, e), (k', e') => k == k' && Element.beq e e'
termination_by structural x => x
def beqEntries : List (Nat × Element) → List (Nat × Element) → Bool
  | [], [] => true
  | p :: a, p' :: b => beqEntry p p' && beqEntries a b
  | _, _ => false
termination_by structural x => x
def beqDatasets : List Dataset → List Dataset → Bool
  | [], [] => true
  | d :: a, d' :: b => Dataset.beq d d' && beqDatasets a b
  | _, _ => false
termination_by structural x => x
end

mutual
theorem valueBeq_eq : ∀ a b : Value, Value.beq a b = true → a = b
  | .bytesValue a, b, h => by cases b <;> simp [Value.beq] at h; rw [h]
  | .emptyValue, b, h => by cases b <;> simp [Value.beq] at h; rfl
  | .float32Value a, b, h => by cases b <;> simp [Value.beq] at h; rw [h]
  | .float64Value a, b, h => by cases b <;> simp [Value.beq] at h; rw [h]
  | .int16Value a, b, h => by cases b <;> simp [Value.beq] at h; rw [h]
  | .int32Value a, b, h => by cases b <;> simp [Value.beq] at h; rw [h]
  | .stringValue a, b, h => by cases b <;> simp [Value.beq] at h; rw [h]
  | .sqValue a, .sqValue b, h => by
    simp only [Value.beq] at h
    rw [beqDatasets_eq a b h]
  | .sqValue a, .bytesValue b, h => by simp [Value.beq] at h
  | .sqValue a, .emptyValue, h => by simp [Value.beq] at h
  | .sqValue a, .float32Value b, h => by simp [Value.beq] at h
  | .sqValue a, .float64Value b, h => by simp [Value.beq] at h
  | .sqValue a, .int16Value b, h => by simp [Value.beq] at h
  | .sqValue a, .int32Value b, h => by simp [Value.beq] at h
  | .sqValue a, .stringValue b, h => by simp [Value.beq] at h
  | .sqValue a, .uint16Value b, h => by simp [Value.beq] at h
  | .sqValue a, .uint32Value b, h => by simp [Value.beq] at h
  | .uint16Value a, b, h => by cases b <;> simp [Value.beq] at h; rw [h]
  | .uint32Value a, b, h => by cases b <;> simp [Value.beq] at h; rw [h]
theorem elementBeq_eq : ∀ a b : Element, Element.beq a b = true → a = b
  | .mk t vr vl v, .mk t' vr' vl' v', h => by
    simp only [Element.beq, Bool.and_eq_true, beq_iff_eq] at h
    obtain ⟨⟨⟨h1, h2⟩, h3⟩, h4⟩ := h
    rw [h1, h2, h3, valueBeq_eq v v' h4]
theorem datasetBeq_eq : ∀ a b : Dataset, Dataset.beq a b = true → a = b
  | .mk a, .mk b, h => by
    simp only [Dataset.beq] at h
    rw [beqEntries_eq a b h]
theorem beqEntry_eq : ∀ a b : Nat × Element, beqEntry a b = true → a = b
  | (k, e), (k', e'), h => by
    simp only [beqEntry, Bool.and_eq_true, beq_iff_eq] at h
    rw [h.1, elementBeq_eq e e' h.2]
theorem beqEntries_eq : ∀ a b : List (Nat × Element), beqEntries a b = true → a = b
  | [], [], _ => rfl
  | [], _ :: _, h => by simp [beqEntries] at h
  | _ :: _, [], h => by simp [beqEntries] at h
  | p :: a, p' :: b, h => by
    simp only [beqEntries, Bool.and_eq_true] at h
    rw [beqEntry_eq p p' h.1, beqEntries_eq a b h.2]
theorem beqDatasets_eq : ∀ a b : List Dataset, beqDatasets a b = true → a = b
  | [], [], _ => rfl
  | [], _ :: _, h => by simp [beqDatasets] at h
  | _ :: _, [], h => by simp [beqDatasets] at h
  | d :: a, d' :: b, h => by
    simp only [beqDatasets, Bool.and_eq_true] at h
    rw [datasetBeq_eq d d' h.1, beqDatasets_eq a b h.2]
end

mutual
theorem valueBeq_refl : ∀ a : Value, Value.beq a a = true
  | .bytesValue a => by simp [Value.beq]
  | .emptyValue => by simp [Value.beq]
  | .float32Value a => by simp [Value.beq]
  | .float64Value a => by simp [Value.beq]
  | .int16Value a => by simp [Value.beq]
  | .int32Value a => by simp [Value.beq]
  | .stringValue a => by simp [Value.beq]
  | .sqValue a => by simp only [Value.beq]; exact beqDatasets_refl a
  | .uint16Value a => by simp [Value.beq]
  | .uint32Value a => by simp [Value.beq]
theorem elementBeq_refl : ∀ a : Element, Element.beq a a = true
  | .mk t vr vl v => by simp [Element.beq, valueBeq_refl v]
theorem datasetBeq_refl : ∀ a : Dataset, Dataset.beq a a = true
  | .mk a => by simp only [Dataset.beq]; exact beqEntries_refl a
theorem beqEntry_refl : ∀ a : Nat × Element, beqEntry a a = true
  | (k, e) => by simp [beqEntry, elementBeq_refl e]
theorem beqEntries_refl : ∀ a : List (Nat × Element), beqEntries a a = true
  | [] => rfl
  | p :: a => by simp [beqEntries, beqEntry_refl p, beqEntries_refl a]
theorem beqDatasets_refl : ∀ a : List Dataset, beqDatasets a a = true
  | [] => rfl
  | d :: a => by simp [beqDatasets, datasetBeq_refl d, beqDatasets_refl a]
end

instance : DecidableEq Value := fun a b =>
  if h : Value.beq a b = true then isTrue (valueBeq_eq a b h)
  else isFalse (fun e => h (e ▸ valueBeq_refl a))

instance : DecidableEq Element := fun a b =>
  if h : Element.beq a b = true then isTrue (elementBeq_eq a b h)
  else isFalse (fun e => h (e ▸ elementBeq_refl a))

instance : DecidableEq Dataset := fun a b =>
  if h : Dataset.beq a b = true then isTrue (datasetBeq_eq a b h)
  else isFalse (fun e => h (e ▸ datasetBeq_refl a))

/-- The file of the spec's first scenario: 128 zero bytes, `DICM`, and the meta
element `(0002,0000) UL 4 [00 00 00 00]`. -/
def minimalFile : List Nat :=
  List.replicate 128 0 ++ ascii "DICM"
    ++ [0x02, 0x00, 0x00, 0x00, 0x55, 0x4C, 0x04, 0x00, 0x00, 0x00, 0x00, 0x00]

deriving instance DecidableEq for Any

deriving instance DecidableEq for Raw

/-- A dataset holding only `TransferSyntaxUID = "1.2.840.10008.1.2"`. -/
def implicitSyntaxDataset : Dataset :=
  NewDataset.Put (some (NewElement tag.TransferSyntaxUID (ascii "UI") 18
    (.stringValue (ascii "1.2.840.10008.1.2"))))

/-- A file-meta group in explicit VR: `(0002,0000) UL 4 [36]`, followed by the 36
bytes of `(0002,0010) UI 18 "1.2.840.10008.1.2\0"` and `(0002,0013) SH 2 "AB"`. -/
def metaGroupExample : List Nat :=
  [0x02, 0x00, 0x00, 0x00, 0x55, 0x4C, 0x04, 0x00, 0x24, 0x00, 0x00, 0x00]
  ++ [0x02, 0x00, 0x10, 0x00, 0x55, 0x49, 0x12, 0x00] ++ ascii "1.2.840.10008.1.2" ++ [0x00]
  ++ [0x02, 0x00, 0x13, 0x00, 0x53, 0x48, 0x02, 0x00] ++ ascii "AB"

/-- The implicit-VR encoding of `(0010,0010)` with the 12-byte payload
`"DOE^JOHN\0\0\0\0"`. -/
def paddedPNBytes : List Nat :=
  [0x10, 0x00, 0x10, 0x00, 0x0C, 0x00, 0x00, 0x00] ++ ascii "DOE^JOHN" ++ [0, 0, 0, 0]

/-- The bytes `[i * size, (i + 1) * size)` of a payload. -/
def chunk (payload : List Nat) (size i : Nat) : List Nat :=
  (payload.drop (i * size)).take size

/-- The explicit-VR encoding of `(0002,0000) UL` with the length 6: one `u32`
and two further bytes. -/
def oddULBytes : List Nat :=
  [0x02, 0x00, 0x00, 0x00, 0x55, 0x4C, 0x06, 0x00, 0x01, 0x00, 0x00, 0x00, 0xAA, 0xBB]

/-- The VRs for which the `switch` of `readValue` has a case. -/
def valueVRs : List GoString :=
  textVRs ++ [ascii "UL", ascii "US", ascii "xs", ascii "OB", ascii "UN", ascii "ox", ascii "px",
    ascii "FL", ascii "FD", ascii "SL", ascii "SS", ascii "OW"]

/-- The bytes of an element in front of its value: tag, then in explicit mode
the VR and the 16-bit length field, or the VR, two reserved bytes and the 32-bit
length field; in implicit mode the 32-bit length field alone. -/
def headerBytes (ex : Bool) (t : Nat) (vr reserved lengthField : List Nat) : List Nat :=
  if ex then
    if vr ∈ shortVLs then tagBytes t ++ (vr ++ lengthField)
    else tagBytes t ++ (vr ++ (reserved ++ lengthField))
  else tagBytes t ++ lengthField

/-- The value length a length field stands for. -/
def headerVL (ex : Bool) (vr lengthField : List Nat) : Nat :=
  if ex = true ∧ vr ∈ shortVLs then ByteOrder.LittleEndian.Uint16 lengthField
  else ByteOrder.LittleEndian.Uint32 lengthField

/-- The header is well formed for the mode: a VR of two bytes, two reserved
bytes, a length field of the width the VR asks for; in implicit mode the
dictionary gives the VR. -/
def HeaderOK (tagMap : tag.TagMap) (ex : Bool) (t : Nat) (vr reserved lengthField : List Nat) :
    Prop :=
  t < 2 ^ 32 ∧ t ≠ SQItem ∧ t ≠ SQItemDelim ∧ t ≠ SQDelim
    ∧ vr.length = 2 ∧ reserved.length = 2
    ∧ lengthField.length = (if ex = true ∧ vr ∈ shortVLs then 2 else 4)
    ∧ (ex = false → tag.VR tagMap t = vr)

/-- The explicit-VR element `(0028,0009) AT` of length 4. -/
def exampleATBytes : List Nat :=
  [0x28, 0x00, 0x09, 0x00, 0x41, 0x54, 0x04, 0x00, 0x18, 0x00, 0x63, 0x10]

/-- The elements `parseUntil` keeps, in the words of the spec: the elements in
front of the first one whose tag exceeds `maxTag`, cut behind the first one
whose tag equals `maxTag`. -/
def untilPrefix (maxTag : Nat) : List (List Nat × Element) → List (List Nat × Element)
  | [] => []
  | p :: rest =>
    if p.2.Tag > maxTag then []
    else if p.2.Tag = maxTag then [p]
    else p :: untilPrefix maxTag rest

/-- An explicit-VR text element on the wire together with the element it
stands for: tag, VR, 16-bit length, the text. -/
def textElem (t : Nat) (v s : List Nat) : List Nat × Element :=
  (tagBytes t ++ v ++ le16 s.length ++ s, NewElement t v s.length (.stringValue (nullStrip s)))

/-- A stream with the tags `(0008,0005)`, `(0008,0020)`, `(0010,0010)` and
`(0010,0020)`. -/
def untilExample : List (List Nat × Element) :=
  [textElem 0x00080005 (ascii "CS") (ascii "ISO_IR 100"),
   textElem 0x00080020 (ascii "DA") (ascii "20200101"),
   textElem 0x00100010 (ascii "PN") (ascii "AB^C"),
   textElem 0x00100020 (ascii "LO") (ascii "ID")]

/-! ## The dataset iterator (`dataset.go`) -/

/-- The struct `iterator`: the dataset, the sorted keys, the index of the
current key and the error. -/
structure iterator where
  ds : Dataset
  keys : List Nat
  currIdx : Int
  err : Option GoError

/-- The function `newIterator`: the keys of the map, collected in whatever order
the map hands them out and put in ascending order by `sort.Slice`; the index
starts in front of the first key. -/
def newIterator (ds : Dataset) : iterator :=
  { ds := ds, keys := (ds.elems.map (·.1)).insertionSort (· ≤ ·), currIdx := -1, err := none }

namespace iterator

def Err (i : iterator) : Option GoError := i.err

/-- The method `Next`: the result and the iterator after the call. -/
def Next (i : iterator) : Bool × iterator :=
  if i.err ≠ none then (false, i)
  else
    let i1 := { i with currIdx := i.currIdx + 1 }
    (decide (i1.currIdx < i1.keys.length), i1)

/-- The method `Value`: the element (`none` is nil) and the iterator after the
call; indexing `keys` with a negative index panics. -/
def Value (i : iterator) : Outcome (Option Element × iterator) :=
  if i.currIdx ≥ i.keys.length then
    .returns (none, { i with err := some dcmerr.NewErrIterInvalid })
  else if i.currIdx < 0 then .panics
  else
    match i.keys[i.currIdx.toNat]? with
    | none => .panics
    | some key =>
      match i.ds.elems.lookup key with
      | none =>
        .returns (none, { i with err := some (dcmerr.Errorf dcmerr.ErrNotFound
          (ascii "no element found for tag 0x" ++ fmt08x key)) })
      | some elem => .returns (some elem, i)

end iterator

/-- The loop `for iter.Next() { elem := iter.Value(); ... }`, as in
`Dataset.string`, collecting what `Value` returns. -/
def iterate : Nat → iterator → List (Option Element) →
    Option (Outcome (List (Option Element) × iterator))
  | 0, _, _ => none
  | fuel + 1, it, acc =>
    match it.Next with
    | (false, it1) => some (.returns (acc, it1))
    | (true, it1) =>
      match it1.Value with
      | .panics => some .panics
      | .returns (elem, it2) => iterate fuel it2 (acc ++ [elem])

/-- A dataset built from `NewDataset` by calls of `Put` and `PutString`. -/
inductive Built : Dataset → Prop
  | new : Built NewDataset
  | put (ds : Dataset) (elem : Option Element) : Built ds → Built (ds.Put elem)
  | putString (ds : Dataset) (tg : Nat) (vrStr str : GoString) :
      Built ds → Built (ds.PutString tg vrStr str).2

/-- The element `(0008,0005) CS "ISO_IR 100"`. -/
def exampleCS : Element :=
  NewElement 0x00080005 (ascii "CS") 10 (.stringValue (ascii "ISO_IR 100"))

/-- A dataset into which `(0010,0010)` was put before `(0008,0005)`. -/
def exampleDataset : Dataset := (NewDataset.Put (some examplePN)).Put (some exampleCS)

/-- The element `(0028,0010) US` holding the one value 512. -/
def exampleUS : Element := NewElement 0x00280010 (ascii "US") 2 (.uint16Value [512])

/-- The element `(7FE0,0010) OB` holding a blob of three bytes. -/
def exampleOB : Element := NewElement 0x7FE00010 (ascii "OB") 3 (.bytesValue [1, 2, 3])

/-- What the claim about the scalar reads says of one read of width `w` on a
little-endian reader: nothing left gives the kind EOF, fewer than `w` bytes give
the kind UnexpectedEOF, and `w` bytes or more give the value `val` of the next
`w` bytes with `BytesRead` grown by `w`. -/
def ScalarReadSpec {α : Type} (read : reader → Except GoError α × reader) (w : Nat)
    (val : List Nat → α) : Prop :=
  ∀ (ex : Bool) (k : Nat),
    (∃ err r1, read ⟨ex, [], k, .LittleEndian⟩ = (.error err, r1)
      ∧ dcmerr.code? err = some dcmerr.ErrEOF)
    ∧ (∀ input : List Nat, 0 < input.length → input.length < w →
        ∃ err r1, read ⟨ex, input, k, .LittleEndian⟩ = (.error err, r1)
          ∧ dcmerr.code? err = some dcmerr.ErrUnexpectedEOF)
    ∧ (∀ bs rest : List Nat, bs.length = w →
        read ⟨ex, bs ++ rest, k, .LittleEndian⟩
            = (.ok (val bs), ⟨ex, rest, k + w, .LittleEndian⟩)
          ∧ (read ⟨ex, bs ++ rest, k, .LittleEndian⟩).2.BytesRead = k + w)

/-! ## Rendering (`value.go`, `element.go`) -/

/-- Rendering of a signed integer by the verb `%v` and by `fmt.Sprint`. -/
def fmtInt (i : Int) : GoString :=
  if i < 0 then [45] ++ fmtV i.natAbs else fmtV i.natAbs

/-- Rendering of a slice by the verb `%v`: the entries between brackets,
separated by blanks. -/
def fmtSlice {α : Type} (f : α → GoString) (v : List α) : GoString :=
  [91] ++ List.intercalate [32] (v.map f) ++ [93]

/-- What the renderings need from outside the sources at hand: how package `fmt`
prints a `float32` and a `float64` (given by their bit patterns), and the name
of the package, which `%T` prints in front of a type name. -/
structure Printer where
  float32 : Nat → GoString
  float64 : Nat → GoString
  pkg : GoString

/-- The method `String()` of the implementations of `Value`. -/
def Value.String (p : Printer) : Value → GoString
  | .bytesValue v => fmtSlice fmtV v
  | .emptyValue => ascii "<nil>"
  | .float32Value v => fmtSlice p.float32 v
  | .float64Value v => fmtSlice p.float64 v
  | .int16Value v => fmtSlice fmtInt v
  | .int32Value v => fmtSlice fmtInt v
  | .stringValue v => TrimSpace v
  | .sqValue _ => []
  | .uint16Value v => fmtSlice fmtV v
  | .uint32Value v => fmtSlice fmtV v

/-- The loop of `formatValue` over the entries of an array: each entry is
written, the loop is left once more than 64 bytes are written, and a backslash
follows every entry but the last. -/
def formatLoop {α : Type} (f : α → GoString) : List α → GoString → GoString
  | [], sb => sb
  | v :: rest, sb =>
    if (sb ++ f v).length > 64 then sb ++ f v
    else
      match rest with
      | [] => sb ++ f v
      | _ :: _ => formatLoop f rest (sb ++ f v ++ [92])

/-- The method `formatValue(max)`; as in the source, the limit is the literal 64
and `max` is not consulted. -/
def Element.formatValue (p : Printer) (e : Element) (_max : Nat) : GoString :=
  let str : GoString :=
    match e.Value with
    | .stringValue v => Value.String p (.stringValue v)
    | .int16Value v => formatLoop fmtInt v []
    | .uint16Value v => formatLoop fmtV v []
    | .int32Value v => formatLoop fmtInt v []
    | .uint32Value v => formatLoop fmtV v []
    | .bytesValue v => formatLoop fmtV v []
    | .float32Value v => formatLoop p.float32 v []
    | .float64Value v => formatLoop p.float64 v []
    | .emptyValue => ascii "UNSUPPORTED VALUE TYPE *" ++ p.pkg ++ ascii ".emptyValue"
    | .sqValue _ => ascii "UNSUPPORTED VALUE TYPE *" ++ p.pkg ++ ascii ".sqValue"
  if str.length > 64 then str.take 60 ++ ascii "..." else str

/-- The method `String()` of `Element`; the type assertion `e.Value.(*sqValue)`
panics when the value of an `SQ` element is no sequence. -/
def Element.String (tagMap : tag.TagMap) (p : Printer) (e : Element) : Outcome GoString :=
  let sb := ascii "(" ++ fmt08x e.Tag ++ ascii ") " ++ e.VR ++ ascii " #"
  if e.VR = ascii "SQ" then
    match e.Value with
    | .sqValue sq =>
      let sb1 :=
        match sq.length with
        | 0 => sb ++ ascii "0 [] "
        | 1 => sb ++ ascii "-1 [1 item] "
        | n => sb ++ (ascii "-1 [" ++ fmtV n ++ ascii " items] ")
      .returns (sb1 ++ tag.Name tagMap e.Tag)
    | _ => .panics
  else
    .returns (sb ++ (fmtV e.VL ++ ascii " [" ++ Element.formatValue p e 64 ++ ascii "] "
      ++ tag.Name tagMap e.Tag))

/-- A printer for the examples: floats are not printed in them. -/
def examplePrinter : Printer :=
  { float32 := fun _ => [], float64 := fun _ => [], pkg := ascii "dicom" }

/-- The explicit-VR encoding of `(0002,0000) UL` with the length 0. -/
def emptyULBytes : List Nat := [0x02, 0x00, 0x00, 0x00, 0x55, 0x4C, 0x00, 0x00]

/-! ## Elements stored in a dataset -/

/-- The element `e` is stored in `ds`: at top level, or in an item of a sequence
stored in `ds`, at any depth. -/
inductive Stored (e : Element) : Dataset → Prop
  | top (ds : Dataset) (k : Nat) : (k, e) ∈ ds.elems → Stored e ds
  | nested (ds : Dataset) (k : Nat) (outer : Element) (items : List Dataset) (item : Dataset) :
      (k, outer) ∈ ds.elems → outer.Value = .sqValue items → item ∈ items →
      Stored e item → Stored e ds

/-- The synthetic element `checkSQMarker` makes of an `SQ_ITEM` or `SQ_DELIM`
marker: no VR, no value. -/
def StrayMarker (e : Element) : Prop :=
  e.VR = [] ∧ e.Value = .emptyValue ∧ (e.Tag = SQItem ∨ e.Tag = SQDelim)

/-- An undefined length goes with the VR `SQ`, or the element is a stray marker. -/
def GoodElement (e : Element) : Prop :=
  e.VL = UndefinedLength → e.VR = ascii "SQ" ∨ StrayMarker e

/-- Every element stored in the dataset, at any depth, is good. -/
def GoodDataset (ds : Dataset) : Prop := ∀ e, Stored e ds → GoodElement e

/-- Every element stored in an item of the value, if it is a sequence, is good. -/
def GoodValue (v : Value) : Prop :=
  ∀ items, v = .sqValue items → ∀ item ∈ items, GoodDataset item

/-- The dataset `Parse` returns on `exampleSequence`. -/
def exampleSequenceDataset : Dataset :=
  .mk [(0x00081140, NewElement 0x00081140 (ascii "SQ") UndefinedLength
    (.sqValue [exampleItem.dataset, exampleItem.dataset]))]

/-- The explicit-VR encoding of `(0002,0010) UI "1.2"` padded with one NUL. -/
def metaUIBytes : List Nat :=
  [0x02, 0x00, 0x10, 0x00, 0x55, 0x49, 0x04, 0x00] ++ ascii "1.2" ++ [0x00]

/-! ## The dump of a dataset (`dataset.go`) -/

/-- A printer that also knows what package `fmt` writes for an operand whose
`String` method panics (`%!v(PANIC=String method: ...)`, the text of the
run-time error being outside the sources at hand). -/
structure DumpPrinter extends Printer where
  stringPanic : Element → GoString

/-- The operand `elem` under the verb `%v` of `fmt.Sprintf`: the result of its
`String` method; a panic of that method is recovered by `fmt`. -/
def sprintElement (tagMap : tag.TagMap) (p : DumpPrinter) (elem : Element) : GoString :=
  match Element.String tagMap p.toPrinter elem with
  | .returns s => s
  | .panics => p.stringPanic elem

mutual
/-- The method `string(indent)` of `Dataset`. -/
def Dataset.string (tagMap : tag.TagMap) (p : DumpPrinter) :
    Nat → Dataset → GoString → Option (Outcome GoString)
  | 0, _, _ => none
  | fuel + 1, ds, indent => stringLoop tagMap p fuel (newIterator ds) indent []
/-- The loop `for iter.Next() { ... }` of `string`, with the builder `sb`; a nil
element makes `elem.Value` panic. The error of the iterator is only printed. -/
def stringLoop (tagMap : tag.TagMap) (p : DumpPrinter) :
    Nat → iterator → GoString → GoString → Option (Outcome GoString)
  | 0, _, _, _ => none
  | fuel + 1, it, indent, sb =>
    match it.Next with
    | (false, _) => some (.returns sb)
    | (true, it1) =>
      match it1.Value with
      | .panics => some .panics
      | .returns (none, _) => some .panics
      | .returns (some elem, it2) =>
        let sb1 := sb ++ (indent ++ sprintElement tagMap p elem ++ [10])
        match elem.Value with
        | .sqValue items =>
          match stringItems tagMap p fuel items (ascii ">" ++ indent) sb1 with
          | none => none
          | some .panics => some .panics
          | some (.returns sb2) => stringLoop tagMap p fuel it2 indent sb2
        | _ => stringLoop tagMap p fuel it2 indent sb1
/-- The loop `for _, item := range sq.value` of `string`. -/
def stringItems (tagMap : tag.TagMap) (p : DumpPrinter) :
    Nat → List Dataset → GoString → GoString → Option (Outcome GoString)
  | 0, _, _, _ => none
  | _ + 1, [], _, sb => some (.returns sb)
  | fuel + 1, item :: rest, indent, sb =>
    match Dataset.string tagMap p fuel item indent with
    | none => none
    | some .panics => some .panics
    | some (.returns s) => stringItems tagMap p fuel rest indent (sb ++ s)
end

/-- The method `String()` of `Dataset`; the slice expression `str[len(str)-1:]`
panics when `str` is empty. -/
def Dataset.String (tagMap : tag.TagMap) (p : DumpPrinter) (fuel : Nat) (ds : Dataset) :
    Option (Outcome GoString) :=
  match Dataset.string tagMap p fuel ds [] with
  | none => none
  | some .panics => some .panics
  | some (.returns str) =>
    if str.length = 0 then some .panics
    else if str.drop (str.length - 1) = [10] then some (.returns (str.take (str.length - 1)))
    else some (.returns str)

/-- A printer for the examples. -/
def exampleDumpPrinter : DumpPrinter :=
  { toPrinter := examplePrinter, stringPanic := fun _ => ascii "%!v(PANIC=String method)" }

/-- The line `string(indent)` writes for an element; nothing for nil. -/
def dumpLine (tagMap : tag.TagMap) (p : DumpPrinter) (indent : GoString) :
    Option Element → GoString
  | some e => indent ++ sprintElement tagMap p e ++ [10]
  | none => []

/-- The last element of a body that has the tag `t`, if there is one. -/
def lastWithTag (t : Nat) (body : List (List Nat × Element)) : Option Element :=
  ((body.map (·.2)).reverse).find? (fun e => e.Tag == t)

/-- The explicit-VR encoding of `(0010,0010) PN "XY"`. -/
def examplePN2Bytes : List Nat :=
  [0x10, 0x00, 0x10, 0x00, 0x50, 0x4E, 0x02, 0x00] ++ ascii "XY"

/-- The element `(0010,0010) PN "XY"`. -/
def examplePN2 : Element := NewElement 0x00100010 (ascii "PN") 2 (.stringValue (ascii "XY"))

/-- An item whose body holds the tag `(0010,0010)` twice: `"AB^C"`, then `"XY"`. -/
def repeatedTagItem : WireItem :=
  { lenField := [0xFF, 0xFF, 0xFF, 0xFF],
    body := [(examplePNBytes, examplePN), (examplePN2Bytes, examplePN2)],
    delimLenField := [0, 0, 0, 0] }

/-- An explicit-VR sequence `(0008,1140)` of undefined length with the one item
`repeatedTagItem`. -/
def repeatedTagSequence : List Nat :=
  [0x08, 0x00, 0x40, 0x11, 0x53, 0x51, 0x00, 0x00, 0xFF, 0xFF, 0xFF, 0xFF]
  ++ [0xFE, 0xFF, 0x00, 0xE0, 0xFF, 0xFF, 0xFF, 0xFF] ++ examplePNBytes ++ examplePN2Bytes
  ++ [0xFE, 0xFF, 0x0D, 0xE0, 0x00, 0x00, 0x00, 0x00]
  ++ [0xFE, 0xFF, 0xDD, 0xE0, 0x00, 0x00, 0x00, 0x00]

/-- The UTF-8 encodings of the code points for which `unicode.IsSpace` holds:
tab, line feed, vertical tab, form feed, carriage return, blank, U+0085, U+00A0,
U+1680, U+2000 to U+200A, U+2028, U+2029, U+202F, U+205F and U+3000. -/
def whiteSpace : List GoString :=
  [[0x09], [0x0A], [0x0B], [0x0C], [0x0D], [0x20], [0xC2, 0x85], [0xC2, 0xA0],
   [0xE1, 0x9A, 0x80], [0xE2, 0x80, 0x80], [0xE2, 0x80, 0x81], [0xE2, 0x80, 0x82],
   [0xE2, 0x80, 0x83], [0xE2, 0x80, 0x84], [0xE2, 0x80, 0x85], [0xE2, 0x80, 0x86],
   [0xE2, 0x80, 0x87], [0xE2, 0x80, 0x88], [0xE2, 0x80, 0x89], [0xE2, 0x80, 0x8A],
   [0xE2, 0x80, 0xA8], [0xE2, 0x80, 0xA9], [0xE2, 0x80, 0xAF], [0xE2, 0x81, 0x9F],
   [0xE3, 0x80, 0x80]]

/-- A string made of white space only: a concatenation of encoded white-space
characters. -/
def SpaceRun (l : GoString) : Prop :=
  ∃ cs : List GoString, (∀ c ∈ cs, c ∈ whiteSpace) ∧ l = cs.flatten

/-- The string begins with a white-space character. -/
def StartsWithSpace (t : GoString) : Prop := ∃ c ∈ whiteSpace, c <+: t

/-- The string ends with a white-space character. -/
def EndsWithSpace (t : GoString) : Prop := ∃ c ∈ whiteSpace, c <:+ t

/-- The string `t` is `s` with leading and trailing white space trimmed: what
was cut off at either end is white space only, and `t` neither begins nor ends
with a white-space character. -/
def IsTrimOf (s t : GoString) : Prop :=
  ∃ pre post, s = pre ++ t ++ post ∧ SpaceRun pre ∧ SpaceRun post
    ∧ ¬ StartsWithSpace t ∧ ¬ EndsWithSpace t

/-! ## Properties -/

/-! ### Reading from a stream that starts with known bytes -/

theorem ioReadFull_append (ex : Bool) (bs rest : List Nat) (k : Nat) (o : ByteOrder) :
    ioReadFull ⟨ex, bs ++ rest, k, o⟩ bs.length = ((bs, none), ⟨ex, rest, k + bs.length, o⟩) := by
  cases bs with
  | nil => simp [ioReadFull]
  | cons b bs => simp [ioReadFull, reader.Read]

theorem readScalar_append {α : Type} (dec : List Nat → α) (ex : Bool) (bs rest : List Nat)
    (k : Nat) (o : ByteOrder) :
    readScalar ⟨ex, bs ++ rest, k, o⟩ bs.length dec = (.ok (dec bs), ⟨ex, rest, k + bs.length, o⟩) := by
  simp [readScalar, ioReadFull_append]

theorem ReadUint16LE_cons (ex : Bool) (b0 b1 : Nat) (rest : List Nat) (k : Nat) (o : ByteOrder) :
    reader.ReadUint16LE ⟨ex, b0 :: b1 :: rest, k, o⟩ = (.ok (b0 + b1 * 256), ⟨ex, rest, k + 2, o⟩) :=
  readScalar_append _ ex [b0, b1] rest k o

theorem ReadUint16_cons (ex : Bool) (b0 b1 : Nat) (rest : List Nat) (k : Nat) :
    reader.ReadUint16 ⟨ex, b0 :: b1 :: rest, k, .LittleEndian⟩
      = (.ok (b0 + b1 * 256), ⟨ex, rest, k + 2, .LittleEndian⟩) :=
  readScalar_append _ ex [b0, b1] rest k _

theorem ReadUint32_cons (ex : Bool) (b0 b1 b2 b3 : Nat) (rest : List Nat) (k : Nat) :
    reader.ReadUint32 ⟨ex, b0 :: b1 :: b2 :: b3 :: rest, k, .LittleEndian⟩
      = (.ok (b0 + b1 * 256 + b2 * 65536 + b3 * 16777216), ⟨ex, rest, k + 4, .LittleEndian⟩) :=
  readScalar_append _ ex [b0, b1, b2, b3] rest k _

theorem ReadUint32LE_cons (ex : Bool) (b0 b1 b2 b3 : Nat) (rest : List Nat) (k : Nat)
    (o : ByteOrder) :
    reader.ReadUint32LE ⟨ex, b0 :: b1 :: b2 :: b3 :: rest, k, o⟩
      = (.ok (b0 + b1 * 256 + b2 * 65536 + b3 * 16777216), ⟨ex, rest, k + 4, o⟩) :=
  readScalar_append _ ex [b0, b1, b2, b3] rest k _

theorem ReadString_append (ex : Bool) (bs rest : List Nat) (k : Nat) (o : ByteOrder) :
    reader.ReadString ⟨ex, bs ++ rest, k, o⟩ bs.length = (.ok bs, ⟨ex, rest, k + bs.length, o⟩) := by
  simp [reader.ReadString, ioReadFull_append]

theorem tag_of_words (g e : Nat) (hg : g < 65536) (he : e < 65536) :
    ((g <<< 16) % 2 ^ 32) ||| e = g * 65536 + e := by
  have h1 : g <<< 16 = 2 ^ 16 * g := by rw [Nat.shiftLeft_eq, Nat.mul_comm]
  have h2 : 2 ^ 16 * g < 2 ^ 32 := by omega
  rw [h1, Nat.mod_eq_of_lt h2, ← Nat.mul_add_lt_is_or (by omega : e < 2 ^ 16)]
  omega

theorem readLETag_tagBytes (ex : Bool) (t : Nat) (ht : t < 2 ^ 32) (rest : List Nat) (k : Nat)
    (o : ByteOrder) :
    readLETag ⟨ex, tagBytes t ++ rest, k, o⟩ = (.ok t, ⟨ex, rest, k + 4, o⟩) := by
  have hg : t / 65536 % 256 + t / 65536 / 256 % 256 * 256 = t / 65536 := by omega
  have he : t % 65536 % 256 + t % 65536 / 256 % 256 * 256 = t % 65536 := by omega
  have ht2 : t / 65536 < 65536 := by omega
  simp only [tagBytes, le16, List.cons_append, List.nil_append, readLETag, ReadUint16LE_cons,
    hg, he, tag_of_words _ _ ht2 (Nat.mod_lt _ (by decide))]
  congr 2
  omega

theorem checkSQMarker_other (t : Nat) (h1 : t ≠ SQItem) (h2 : t ≠ SQItemDelim) (h3 : t ≠ SQDelim) :
    checkSQMarker t = .ok none := by
  simp [checkSQMarker, NewValue, h1, h2, h3]

theorem nullStrip_cases (s : GoString) : nullStrip s = s ∨ nullStrip s ++ [0] = s := by
  unfold nullStrip
  split
  · exact Or.inl rfl
  · split
    · exact Or.inl rfl
    · rename_i h
      right
      have h' : List.drop (s.length - 1) s = [0] := by simpa using h
      rw [← h', List.take_append_drop]

/-- A text element in explicit mode: tag, VR, 16-bit length and payload decode to
the element with the payload as text. -/
theorem readElement_text_aux (tagMap : tag.TagMap) (fuel t k : Nat) (v s rest : List Nat)
    (ht : t < 2 ^ 32) (h1 : t ≠ SQItem) (h2 : t ≠ SQItemDelim) (h3 : t ≠ SQDelim)
    (hv : v ∈ textVRs) (hs : s.length < 65536) :
    readElement tagMap (fuel + 2)
        ⟨true, tagBytes t ++ v ++ le16 s.length ++ s ++ rest, k, .LittleEndian⟩
      = some (.ok (NewElement t v s.length (.stringValue (nullStrip s))),
          ⟨true, rest, k + (8 + s.length), .LittleEndian⟩) := by
  have hv2 : v.length = 2 := by
    simp only [textVRs, List.mem_cons, List.mem_singleton, List.not_mem_nil, or_false] at hv
    rcases hv with h | h | h | h | h | h | h | h | h | h | h | h | h | h <;> subst h <;> rfl
  have hshort : v ∈ shortVLs := by
    simp only [textVRs, List.mem_cons, List.mem_singleton, List.not_mem_nil, or_false] at hv
    rcases hv with h | h | h | h | h | h | h | h | h | h | h | h | h | h <;> subst h <;> decide
  have hlen : s.length % 256 + s.length / 256 % 256 * 256 = s.length := by omega
  have hundef : s.length ≠ UndefinedLength := by simp [UndefinedLength]; omega
  rw [readElement]
  simp only [List.append_assoc, readLETag_tagBytes _ _ ht, checkSQMarker_other _ h1 h2 h3]
  have hvr := ReadString_append true v (le16 s.length ++ (s ++ rest)) (k + 4) .LittleEndian
  rw [hv2] at hvr
  simp only [readVR, reader.IsExplicit, Bool.not_true, Bool.false_eq_true, ↓reduceIte, hvr]
  simp only [readVL, reader.IsExplicit, Bool.not_true, Bool.false_eq_true, ↓reduceIte, hshort,
    decide_True, le16, List.cons_append, List.nil_append, ReadUint16_cons, hlen]
  simp only [readValue, hundef, ↓reduceIte, hv, readStringValue, ReadString_append, NewValue]
  have hk : k + 4 + 2 + 2 + s.length = k + (8 + s.length) := by omega
  rw [hk]

/-! ### Fuel -/

/-- All seven fuelled functions agree, at a larger fuel, with any result they
produce at a smaller one. -/
theorem fuel_mono_aux (tagMap : tag.TagMap) (n : Nat) :
    (∀ ds r x, parseAll tagMap n ds r = some x → ∀ m, n ≤ m → parseAll tagMap m ds r = some x)
    ∧ (∀ r x, readElement tagMap n r = some x → ∀ m, n ≤ m → readElement tagMap m r = some x)
    ∧ (∀ r x, readImpLEElement tagMap n r = some x →
        ∀ m, n ≤ m → readImpLEElement tagMap m r = some x)
    ∧ (∀ items r x, readSequenceLoop tagMap n items r = some x →
        ∀ m, n ≤ m → readSequenceLoop tagMap m items r = some x)
    ∧ (∀ r x, readSequence tagMap n r = some x → ∀ m, n ≤ m → readSequence tagMap m r = some x)
    ∧ (∀ r vr x, readUndefLenValue tagMap n r vr = some x →
        ∀ m, n ≤ m → readUndefLenValue tagMap m r vr = some x)
    ∧ (∀ r vr vl x, readValue tagMap n r vr vl = some x →
        ∀ m, n ≤ m → readValue tagMap m r vr vl = some x) := by
  induction n with
  | zero =>
    refine ⟨?_, ?_, ?_, ?_, ?_, ?_, ?_⟩ <;> intros <;> rename_i h _ _ <;>
      simp [parseAll, readElement, readImpLEElement, readSequenceLoop, readSequence,
        readUndefLenValue, readValue] at h
  | succ n ih =>
    obtain ⟨ihPA, ihRE, ihRI, ihSL, ihRS, ihRU, ihRV⟩ := ih
    refine ⟨?_, ?_, ?_, ?_, ?_, ?_, ?_⟩
    · intro ds r x h m hm
      obtain ⟨m, rfl⟩ : ∃ k, m = k + 1 := ⟨m - 1, by omega⟩
      have hm : n ≤ m := by omega
      rw [parseAll] at h ⊢
      cases hre : readElement tagMap n r with
      | none => simp [hre] at h
      | some y =>
        rw [ihRE r y hre m hm]
        rw [hre] at h
        rcases y with ⟨_ | elem, r1⟩
        · exact h
        · simp only at h ⊢
          split_ifs at h ⊢ with hh
          · exact h
          · exact ihPA _ _ _ h m hm
    · intro r x h m hm
      obtain ⟨m, rfl⟩ : ∃ k, m = k + 1 := ⟨m - 1, by omega⟩
      have hm : n ≤ m := by omega
      rw [readElement] at h ⊢
      rcases hlt : readLETag r with ⟨_ | tg, r1⟩
      · rw [hlt] at h; exact h
      · rw [hlt] at h
        simp only at h ⊢
        rcases hsq : checkSQMarker tg with _ | _ | mk
        · rw [hsq] at h; exact h
        · rw [hsq] at h
          simp only at h ⊢
          rcases hvr : readVR tagMap r1 tg with ⟨_ | vr, r2⟩
          · rw [hvr] at h; exact h
          · rw [hvr] at h
            simp only at h ⊢
            rcases hvl : readVL r2 vr with ⟨_ | vl, r3⟩
            · rw [hvl] at h; exact h
            · rw [hvl] at h
              simp only at h ⊢
              cases hv : readValue tagMap n r3 vr vl with
              | none => simp [hv] at h
              | some y => rw [ihRV _ _ _ _ hv m hm]; rw [hv] at h; exact h
        · rw [hsq] at h; exact h
    · intro r x h m hm
      obtain ⟨m, rfl⟩ : ∃ k, m = k + 1 := ⟨m - 1, by omega⟩
      have hm : n ≤ m := by omega
      rw [readImpLEElement] at h ⊢
      rcases hlt : readLETag r with ⟨_ | tg, r1⟩
      · rw [hlt] at h; exact h
      · rw [hlt] at h
        simp only at h ⊢
        rcases hvl : r1.ReadUint32LE with ⟨_ | vl, r2⟩
        · rw [hvl] at h; exact h
        · rw [hvl] at h
          simp only at h ⊢
          rcases hsq : checkSQMarker tg with _ | _ | mk
          · rw [hsq] at h; exact h
          · rw [hsq] at h
            simp only at h ⊢
            cases hv : readValue tagMap n r2 (tag.VR tagMap tg) vl with
            | none => simp [hv] at h
            | some y => rw [ihRV _ _ _ _ hv m hm]; rw [hv] at h; exact h
          · rw [hsq] at h; exact h
    · intro items r x h m hm
      obtain ⟨m, rfl⟩ : ∃ k, m = k + 1 := ⟨m - 1, by omega⟩
      have hm : n ≤ m := by omega
      rw [readSequenceLoop] at h ⊢
      cases hri : readImpLEElement tagMap n r with
      | none => simp [hri] at h
      | some y =>
        rw [ihRI r y hri m hm]
        rw [hri] at h
        rcases y with ⟨_ | elem, r1⟩
        · exact h
        · simp only at h ⊢
          split_ifs at h ⊢ with h1 h2
          · exact h
          · exact h
          · cases hpa : parseAll tagMap n NewDataset r1 with
            | none => simp [hpa] at h
            | some z =>
              rw [ihPA _ _ _ hpa m hm]
              rw [hpa] at h
              rcases z with ⟨_ | err, ds, r2⟩
              · exact ihSL _ _ _ h m hm
              · exact h
    · intro r x h m hm
      obtain ⟨m, rfl⟩ : ∃ k, m = k + 1 := ⟨m - 1, by omega⟩
      have hm : n ≤ m := by omega
      rw [readSequence] at h ⊢
      exact ihSL _ _ _ h m hm
    · intro r vr x h m hm
      obtain ⟨m, rfl⟩ : ∃ k, m = k + 1 := ⟨m - 1, by omega⟩
      have hm : n ≤ m := by omega
      rw [readUndefLenValue] at h ⊢
      split_ifs at h ⊢ with h1
      · exact ihRS _ _ h m hm
      · exact h
    · intro r vr vl x h m hm
      obtain ⟨m, rfl⟩ : ∃ k, m = k + 1 := ⟨m - 1, by omega⟩
      have hm : n ≤ m := by omega
      rw [readValue] at h ⊢
      by_cases hu : vl = UndefinedLength
      · rw [if_pos hu] at h ⊢
        exact ihRU _ _ _ h m hm
      · rw [if_neg hu] at h ⊢
        exact h

theorem readElement_fuel_mono (tagMap : tag.TagMap) {n m : Nat} (h : n ≤ m) {r : reader}
    {x : Except GoError Element × reader} (hx : readElement tagMap n r = some x) :
    readElement tagMap m r = some x :=
  (fuel_mono_aux tagMap n).2.1 r x hx m h

theorem parseAll_fuel_mono (tagMap : tag.TagMap) {n m : Nat} (h : n ≤ m) {ds : Dataset}
    {r : reader} {x : Option GoError × Dataset × reader} (hx : parseAll tagMap n ds r = some x) :
    parseAll tagMap m ds r = some x :=
  (fuel_mono_aux tagMap n).1 ds r x hx m h

theorem readSequenceLoop_fuel_mono (tagMap : tag.TagMap) {n m : Nat} (h : n ≤ m)
    {items : List Dataset} {r : reader} {x : Except GoError Value × reader}
    (hx : readSequenceLoop tagMap n items r = some x) :
    readSequenceLoop tagMap m items r = some x :=
  (fuel_mono_aux tagMap n).2.2.2.1 items r x hx m h

theorem readValue_fuel_mono (tagMap : tag.TagMap) {n m : Nat} (h : n ≤ m)
    {r : reader} {vr : GoString} {vl : Nat} {x : Except GoError Value × reader}
    (hx : readValue tagMap n r vr vl = some x) :
    readValue tagMap m r vr vl = some x :=
  (fuel_mono_aux tagMap n).2.2.2.2.2.2 r vr vl x hx m h

theorem tagBytes_SQItem : tagBytes SQItem = [0xFE, 0xFF, 0x00, 0xE0] := by decide

theorem tagBytes_SQItemDelim : tagBytes SQItemDelim = [0xFE, 0xFF, 0x0D, 0xE0] := by decide

theorem tagBytes_SQDelim : tagBytes SQDelim = [0xFE, 0xFF, 0xDD, 0xE0] := by decide

theorem length_tagBytes (t : Nat) : (tagBytes t).length = 4 := rfl

theorem Skip_append (ex : Bool) (bs rest : List Nat) (k : Nat) (o : ByteOrder) :
    reader.Skip ⟨ex, bs ++ rest, k, o⟩ bs.length = (none, ⟨ex, rest, k + bs.length, o⟩) := by
  simp [reader.Skip]

/-- At an `SQ_ITEM_DELIM` marker `readElement` returns the marker element and
consumes its eight bytes. -/
theorem readElement_itemDelim (tagMap : tag.TagMap) (fuel : Nat) (ex : Bool) (d4 rest : List Nat)
    (k : Nat) (o : ByteOrder) (hd : d4.length = 4) :
    readElement tagMap (fuel + 1) ⟨ex, tagBytes SQItemDelim ++ d4 ++ rest, k, o⟩
      = some (.ok (NewElement SQItemDelim [] UndefinedLength .emptyValue),
          ⟨ex, rest, k + 8, o⟩) := by
  rw [readElement]
  simp only [List.append_assoc, readLETag_tagBytes _ _ (by decide : SQItemDelim < 2 ^ 32)]
  have hs := Skip_append ex d4 rest (k + 4) o
  rw [hd] at hs
  simp [checkSQMarker, NewValue, SQItemDelim, SQItem, hs]

/-- The loop of `parseAll` over a body of complete non-marker elements that is
followed by an `SQ_ITEM_DELIM` marker: every element is put, the marker ends the
loop. -/
theorem parseAll_body (tagMap : tag.TagMap) (ex : Bool) (body : List (List Nat × Element))
    (hb : ∀ p ∈ body, DecodesTo tagMap ex p.1 p.2 ∧ NonMarker p.2) :
    ∃ fuel0, ∀ fuel, fuel0 ≤ fuel → ∀ (ds : Dataset) (d4 rest : List Nat) (k : Nat),
      d4.length = 4 →
      parseAll tagMap fuel ds
          ⟨ex, bodyBytes body ++ tagBytes SQItemDelim ++ d4 ++ rest, k, .LittleEndian⟩
        = some (none, putAll ds body,
            ⟨ex, rest, k + ((bodyBytes body).length + 8), .LittleEndian⟩) := by
  induction body with
  | nil =>
    refine ⟨2, ?_⟩
    intro fuel hf ds d4 rest k hd
    obtain ⟨f, rfl⟩ : ∃ f, fuel = f + 2 := ⟨fuel - 2, by omega⟩
    have hbytes : bodyBytes [] ++ tagBytes SQItemDelim ++ d4 ++ rest
        = tagBytes SQItemDelim ++ d4 ++ rest := rfl
    rw [parseAll, hbytes, readElement_itemDelim tagMap f ex d4 rest k _ hd]
    show (if SQItemDelim = SQItemDelim then _ else _) = _
    rw [if_pos rfl]
    rfl
  | cons p body ih =>
    obtain ⟨f2, ih⟩ := ih (fun q hq => hb q (List.mem_cons_of_mem _ hq))
    obtain ⟨⟨f1, h1⟩, hn⟩ := hb p (List.mem_cons_self _ _)
    refine ⟨max f1 f2 + 1, ?_⟩
    intro fuel hf ds d4 rest k hd
    obtain ⟨f, rfl⟩ : ∃ f, fuel = f + 1 := ⟨fuel - 1, by omega⟩
    have hf1 : f1 ≤ f := by omega
    have hf2 : f2 ≤ f := by omega
    rw [parseAll]
    have hbytes : bodyBytes (p :: body) ++ tagBytes SQItemDelim ++ d4 ++ rest
        = p.1 ++ (bodyBytes body ++ tagBytes SQItemDelim ++ d4 ++ rest) := by
      simp [bodyBytes, List.append_assoc]
    rw [hbytes, readElement_fuel_mono tagMap hf1 (h1 _ k)]
    simp only [hn.2.1, ↓reduceIte]
    rw [ih f hf2 _ d4 rest _ hd]
    simp only [putAll, List.foldl_cons, bodyBytes, List.map_cons, List.flatten_cons,
      List.length_append]
    congr 4
    omega
/-- At an SQ marker `readImpLEElement` reads tag and length field and returns
the marker element, whatever the length field holds. -/
theorem readImpLEElement_marker (tagMap : tag.TagMap) (fuel : Nat) (ex : Bool) (t : Nat)
    (l4 rest : List Nat) (k : Nat) (o : ByteOrder)
    (ht : t = SQItem ∨ t = SQItemDelim ∨ t = SQDelim) (hl : l4.length = 4) :
    readImpLEElement tagMap (fuel + 1) ⟨ex, tagBytes t ++ l4 ++ rest, k, o⟩
      = some (.ok (NewElement t [] UndefinedLength .emptyValue), ⟨ex, rest, k + 8, o⟩) := by
  have ht32 : t < 2 ^ 32 := by rcases ht with h | h | h <;> subst h <;> decide
  have hrd : reader.ReadUint32LE ⟨ex, l4 ++ rest, k + 4, o⟩
      = (.ok (ByteOrder.LittleEndian.Uint32 l4), ⟨ex, rest, k + 4 + 4, o⟩) := by
    have := readScalar_append (ByteOrder.LittleEndian.Uint32 ·) ex l4 rest (k + 4) o
    rw [hl] at this
    exact this
  have hsq : checkSQMarker t = .ok (some (NewElement t [] UndefinedLength .emptyValue)) := by
    rcases ht with h | h | h <;> subst h <;> rfl
  rw [readImpLEElement]
  simp only [List.append_assoc, readLETag_tagBytes _ _ ht32, hrd, hsq]

/-- One turn of the loop of `readSequence` over an item whose body of complete
non-marker elements is closed by an `SQ_ITEM_DELIM` marker. -/
theorem readSequenceLoop_item_aux (tagMap : tag.TagMap) (ex : Bool) (it : WireItem)
    (hw : it.WellFormed tagMap ex) :
    ∃ fuel0, ∀ fuel, fuel0 ≤ fuel → ∀ (acc : List Dataset) (rest : List Nat) (k : Nat),
      readSequenceLoop tagMap (fuel + 1) acc ⟨ex, it.bytes ++ rest, k, .LittleEndian⟩
        = readSequenceLoop tagMap fuel (acc ++ [it.dataset])
            ⟨ex, rest, k + it.bytes.length, .LittleEndian⟩ := by
  obtain ⟨hl, hd, hb⟩ := hw
  obtain ⟨f0, hbody⟩ := parseAll_body tagMap ex it.body hb
  refine ⟨f0 + 1, ?_⟩
  intro fuel hf acc rest k
  obtain ⟨f, rfl⟩ : ∃ f, fuel = f + 1 := ⟨fuel - 1, by omega⟩
  have hbytes : it.bytes ++ rest = tagBytes SQItem ++ it.lenField
      ++ (bodyBytes it.body ++ tagBytes SQItemDelim ++ it.delimLenField ++ rest) := by
    simp [WireItem.bytes, List.append_assoc]
  have hlen : k + 8 + ((bodyBytes it.body).length + 8) = k + it.bytes.length := by
    simp [WireItem.bytes, hl, hd, length_tagBytes]
    omega
  rw [readSequenceLoop, hbytes,
    readImpLEElement_marker tagMap f ex SQItem it.lenField _ k _ (Or.inl rfl) hl]
  show (if SQItem = SQDelim then _ else if SQItem ≠ SQItem then _ else _) = _
  rw [if_neg (by decide), if_neg (by decide),
    hbody (f + 1) (by omega) NewDataset it.delimLenField rest (k + 8) hd, hlen]
  rfl

/-- The loop of `readSequence` over items that are followed by an `SQ_DELIM`
marker. -/
theorem readSequenceLoop_items (tagMap : tag.TagMap) (ex : Bool) (items : List WireItem)
    (hw : ∀ it ∈ items, it.WellFormed tagMap ex) :
    ∃ fuel0, ∀ fuel, fuel0 ≤ fuel → ∀ (acc : List Dataset) (d4 rest : List Nat) (k : Nat),
      d4.length = 4 →
      readSequenceLoop tagMap fuel acc
          ⟨ex, itemsBytes items ++ tagBytes SQDelim ++ d4 ++ rest, k, .LittleEndian⟩
        = some (.ok (.sqValue (acc ++ items.map WireItem.dataset)),
            ⟨ex, rest, k + ((itemsBytes items).length + 8), .LittleEndian⟩) := by
  induction items with
  | nil =>
    refine ⟨2, ?_⟩
    intro fuel hf acc d4 rest k hd
    obtain ⟨f, rfl⟩ : ∃ f, fuel = f + 2 := ⟨fuel - 2, by omega⟩
    have hbytes : itemsBytes [] ++ tagBytes SQDelim ++ d4 ++ rest
        = tagBytes SQDelim ++ d4 ++ rest := rfl
    rw [readSequenceLoop, hbytes,
      readImpLEElement_marker tagMap f ex SQDelim d4 rest k _ (Or.inr (Or.inr rfl)) hd]
    show (if SQDelim = SQDelim then _ else _) = _
    rw [if_pos rfl]
    simp [NewValue, itemsBytes]
  | cons it items ih =>
    obtain ⟨f2, ih⟩ := ih (fun q hq => hw q (List.mem_cons_of_mem _ hq))
    obtain ⟨f1, h1⟩ := readSequenceLoop_item_aux tagMap ex it (hw it (List.mem_cons_self _ _))
    refine ⟨max f1 f2 + 1, ?_⟩
    intro fuel hf acc d4 rest k hd
    obtain ⟨f, rfl⟩ : ∃ f, fuel = f + 1 := ⟨fuel - 1, by omega⟩
    have hbytes : itemsBytes (it :: items) ++ tagBytes SQDelim ++ d4 ++ rest
        = it.bytes ++ (itemsBytes items ++ tagBytes SQDelim ++ d4 ++ rest) := by
      simp [itemsBytes, List.append_assoc]
    rw [hbytes, h1 f (by omega), ih f (by omega) _ d4 rest _ hd]
    simp only [itemsBytes, List.map_cons, List.flatten_cons, List.length_append,
      List.append_assoc, List.singleton_append, Nat.add_assoc]
theorem mem_mapSet {m : List (Nat × Element)} {k : Nat} {v : Element} {p : Nat × Element}
    (h : p ∈ mapSet m k v) : p ∈ m ∨ p = (k, v) := by
  induction m with
  | nil => simpa [mapSet] using h
  | cons q m ih =>
    obtain ⟨k1, v1⟩ := q
    unfold mapSet at h
    split_ifs at h with hk
    · rcases List.mem_cons.1 h with h | h
      · exact Or.inr h
      · exact Or.inl (List.mem_cons_of_mem _ h)
    · rcases List.mem_cons.1 h with h | h
      · exact Or.inl (h ▸ List.mem_cons_self _ _)
      · rcases ih h with h | h
        · exact Or.inl (List.mem_cons_of_mem _ h)
        · exact Or.inr h

theorem mapSet_of_not_mem {m : List (Nat × Element)} {k : Nat} {v : Element}
    (h : k ∉ m.map (·.1)) : mapSet m k v = m ++ [(k, v)] := by
  induction m with
  | nil => rfl
  | cons q m ih =>
    obtain ⟨k1, v1⟩ := q
    simp only [List.map_cons, List.mem_cons, not_or] at h
    unfold mapSet
    rw [if_neg (fun hk => h.1 hk.symm), ih h.2]
    rfl

theorem mem_putAll (body : List (List Nat × Element)) (ds : Dataset) {p : Nat × Element}
    (h : p ∈ (putAll ds body).elems) : p ∈ ds.elems ∨ p.2 ∈ body.map (·.2) := by
  induction body generalizing ds with
  | nil => exact Or.inl h
  | cons q body ih =>
    rcases ih (ds.Put (some q.2)) h with h | h
    · rcases mem_mapSet h with h | h
      · exact Or.inl h
      · exact Or.inr (by simp [h])
    · exact Or.inr (List.mem_cons_of_mem _ h)

theorem putAll_of_nodup (body : List (List Nat × Element)) (ds : Dataset)
    (hnd : (body.map (·.2.Tag)).Nodup)
    (hdis : ∀ p ∈ body, p.2.Tag ∉ ds.elems.map (·.1)) :
    (putAll ds body).elems = ds.elems ++ body.map (fun p => (p.2.Tag, p.2)) := by
  induction body generalizing ds with
  | nil => simp [putAll]
  | cons q body ih =>
    simp only [List.map_cons, List.nodup_cons] at hnd
    have hq := hdis q (List.mem_cons_self _ _)
    have hput : (ds.Put (some q.2)).elems = ds.elems ++ [(q.2.Tag, q.2)] :=
      mapSet_of_not_mem hq
    have := ih (ds.Put (some q.2)) hnd.2 (by
      intro p hp
      rw [hput]
      simp only [List.map_append, List.map_cons, List.map_nil, List.mem_append,
        List.mem_singleton, not_or]
      refine ⟨hdis p (List.mem_cons_of_mem _ hp), ?_⟩
      intro heq
      exact hnd.1 (heq ▸ List.mem_map.2 ⟨p, hp, rfl⟩))
    simp only [putAll, List.foldl_cons] at this ⊢
    rw [this, hput]
    simp

theorem length_le32 (n : Nat) : (le32 n).length = 4 := rfl

theorem readScalar_of_length {α : Type} (dec : List Nat → α) (ex : Bool) (bs rest : List Nat)
    (k n : Nat) (o : ByteOrder) (hn : bs.length = n) :
    readScalar ⟨ex, bs ++ rest, k, o⟩ n dec = (.ok (dec bs), ⟨ex, rest, k + n, o⟩) := by
  subst hn
  exact readScalar_append dec ex bs rest k o

theorem ReadString_of_length (ex : Bool) (bs rest : List Nat) (k n : Nat) (o : ByteOrder)
    (hn : bs.length = n) :
    reader.ReadString ⟨ex, bs ++ rest, k, o⟩ n = (.ok bs, ⟨ex, rest, k + n, o⟩) := by
  subst hn
  exact ReadString_append ex bs rest k o

theorem length_sqHeader (ex : Bool) (t : Nat) (reserved : List Nat) (hres : reserved.length = 2) :
    (sqHeader ex t reserved).length = if ex then 12 else 8 := by
  cases ex <;> simp [sqHeader, length_tagBytes, hres, ascii]

/-- With the length field `l4` holding the undefined length, the header of an SQ
element leads `readElement` into the loop of `readSequence`. -/
theorem readElement_sqHeader_aux (tagMap : tag.TagMap) (fuel : Nat) (ex : Bool) (t : Nat)
    (reserved l4 rest : List Nat) (k : Nat)
    (ht : t < 2 ^ 32) (h1 : t ≠ SQItem) (h2 : t ≠ SQItemDelim) (h3 : t ≠ SQDelim)
    (hres : reserved.length = 2) (hvr : ex = false → tag.VR tagMap t = ascii "SQ")
    (hl4 : l4.length = 4) (hu : ByteOrder.LittleEndian.Uint32 l4 = UndefinedLength) :
    readElement tagMap (fuel + 4)
        ⟨ex, tagBytes t ++ ((if ex then ascii "SQ" ++ reserved else []) ++ (l4 ++ rest)), k,
          .LittleEndian⟩
      = match readSequenceLoop tagMap fuel []
            ⟨ex, rest, k + (if ex then 12 else 8), .LittleEndian⟩ with
        | none => none
        | some (.error err, r4) => some (.error (nearByteError r4 err), r4)
        | some (.ok value, r4) =>
          some (.ok (NewElement t (ascii "SQ") UndefinedLength value), r4) := by
  have hv : ∀ r : reader, readValue tagMap (fuel + 3) r (ascii "SQ") UndefinedLength
      = readSequenceLoop tagMap fuel [] r := by
    intro r
    rw [readValue, if_pos rfl, readUndefLenValue, if_pos rfl, readSequence]
  rw [readElement]
  cases ex with
  | false =>
    have hrd := readScalar_of_length (ByteOrder.LittleEndian.Uint32 ·) false
      l4 rest (k + 4) 4 .LittleEndian hl4
    simp only [Bool.false_eq_true, ↓reduceIte, List.nil_append, readLETag_tagBytes _ _ ht,
      checkSQMarker_other _ h1 h2 h3, readVR, reader.IsExplicit, Bool.not_false,
      hvr rfl, readVL, reader.ReadUint32, hrd, hu]
    rw [show k + 4 + 4 = k + 8 by omega, hv]
  | true =>
    have hs := ReadString_of_length true (ascii "SQ") (reserved ++ (l4 ++ rest))
      (k + 4) 2 .LittleEndian rfl
    have hr := readScalar_of_length (ByteOrder.LittleEndian.Uint16 ·) true reserved
      (l4 ++ rest) (k + 4 + 2) 2 .LittleEndian hres
    have hrd := readScalar_of_length (ByteOrder.LittleEndian.Uint32 ·) true
      l4 rest (k + 4 + 2 + 2) 4 .LittleEndian hl4
    have hns : ascii "SQ" ∉ shortVLs := by decide
    simp only [↓reduceIte, List.append_assoc, readLETag_tagBytes _ _ ht,
      checkSQMarker_other _ h1 h2 h3, readVR, reader.IsExplicit, Bool.not_true,
      Bool.false_eq_true, readVL, reader.ReadUint32, reader.ReadUint16,
      hs, hns, decide_False, hr, hrd, hu]
    rw [show k + 4 + 2 + 2 + 4 = k + 12 by omega, hv]

theorem readElement_sqHeader (tagMap : tag.TagMap) (fuel : Nat) (ex : Bool) (t : Nat)
    (reserved rest : List Nat) (k : Nat)
    (ht : t < 2 ^ 32) (h1 : t ≠ SQItem) (h2 : t ≠ SQItemDelim) (h3 : t ≠ SQDelim)
    (hres : reserved.length = 2) (hvr : ex = false → tag.VR tagMap t = ascii "SQ") :
    readElement tagMap (fuel + 4) ⟨ex, sqHeader ex t reserved ++ rest, k, .LittleEndian⟩
      = match readSequenceLoop tagMap fuel []
            ⟨ex, rest, k + (sqHeader ex t reserved).length, .LittleEndian⟩ with
        | none => none
        | some (.error err, r4) => some (.error (nearByteError r4 err), r4)
        | some (.ok value, r4) =>
          some (.ok (NewElement t (ascii "SQ") UndefinedLength value), r4) := by
  have h := readElement_sqHeader_aux tagMap fuel ex t reserved [0xFF, 0xFF, 0xFF, 0xFF] rest k
    ht h1 h2 h3 hres hvr rfl (by decide)
  rw [length_sqHeader ex t reserved hres, ← h]
  cases ex <;> simp [sqHeader, List.append_assoc]

/-! ### The claims -/

/-- Claim C1: in explicit mode, the bytes `[tag t][VR v][length of s as LE u16][s]`
with `t` no SQ marker, `v` a text VR and `s` shorter than 65536 bytes decode, by
`readElement` with any fuel of at least 2, to the element `{t, v, len s, text}`
whose text is `nullStrip s` — `s` itself or `s` without one trailing NUL — and
the reader has advanced by exactly `8 + len s` bytes. -/
theorem readElement_explicit_text (tagMap : tag.TagMap) (fuel t k : Nat) (v s rest : List Nat)
    (ht : t < 2 ^ 32) (h1 : t ≠ SQItem) (h2 : t ≠ SQItemDelim) (h3 : t ≠ SQDelim)
    (hv : v ∈ textVRs) (hs : s.length < 65536) :
    readElement tagMap (fuel + 2)
        ⟨true, tagBytes t ++ v ++ le16 s.length ++ s ++ rest, k, .LittleEndian⟩
      = some (.ok (NewElement t v s.length (.stringValue (nullStrip s))),
          ⟨true, rest, k + (8 + s.length), .LittleEndian⟩)
    ∧ (nullStrip s = s ∨ nullStrip s ++ [0] = s) :=
  ⟨readElement_text_aux tagMap fuel t k v s rest ht h1 h2 h3 hv hs, nullStrip_cases s⟩

/-- Claim C1 at the bytes `08 00 05 00 43 53 0A 00 "ISO_IR 100"`. -/
theorem readElement_explicit_text_ISO_IR_100 :
    readElement (fun _ => none) 2
        ⟨true, [0x08, 0x00, 0x05, 0x00, 0x43, 0x53, 0x0A, 0x00] ++ ascii "ISO_IR 100", 0,
          .LittleEndian⟩
      = some (.ok (NewElement 0x00080005 (ascii "CS") 10 (.stringValue (ascii "ISO_IR 100"))),
          ⟨true, [], 18, .LittleEndian⟩) :=
  (readElement_explicit_text (fun _ => none) 0 0x00080005 0 (ascii "CS") (ascii "ISO_IR 100") []
    (by decide) (by decide) (by decide) (by decide) (by decide) (by decide)).1

theorem exampleItem_wellFormed : exampleItem.WellFormed exampleTags true := by
  refine ⟨rfl, rfl, ?_⟩
  intro p hp
  have hp' : p = (examplePNBytes, examplePN) := by simpa [exampleItem] using hp
  subst hp'
  refine ⟨⟨2, fun rest k => ?_⟩, by decide, by decide, by decide⟩
  exact readElement_text_aux exampleTags 0 0x00100010 k (ascii "PN") (ascii "AB^C") rest
    (by decide) (by decide) (by decide) (by decide) (by decide) (by decide)

/-- Claim C3, refuted on the code: with VR `SQ` and the defined length 0,
`readValue` returns no sequence value, whatever the fuel. -/
theorem readValue_SQ_defined_length_not_accepted :
    ¬ ∃ fuel items r1, readValue exampleTags fuel (NewReader [] .LittleEndian true) (ascii "SQ") 0
        = some (.ok (.sqValue items), r1) := by
  rintro ⟨fuel, items, r1, h⟩
  cases fuel with
  | zero => simp [readValue] at h
  | succ f =>
    rw [readValue, if_neg (by decide), if_neg (by decide), if_neg (by decide),
      if_neg (by decide), if_neg (by decide), if_neg (by decide), if_neg (by decide),
      if_neg (by decide), if_neg (by decide)] at h
    simp at h

/-- Claim C3 as amended: with VR `SQ` and any defined length, `readValue` fails
with the IO error `unsupported VR: SQ` and leaves the reader untouched. -/
theorem readValue_SQ_defined_length (tagMap : tag.TagMap) (fuel : Nat) (r : reader) (vl : Nat)
    (hvl : vl ≠ UndefinedLength) :
    readValue tagMap (fuel + 1) r (ascii "SQ") vl
      = some (.error (dcmerr.Errorf dcmerr.ErrIO (ascii "unsupported VR: SQ")), r) := by
  rw [readValue, if_neg hvl, if_neg (by decide), if_neg (by decide), if_neg (by decide),
    if_neg (by decide), if_neg (by decide), if_neg (by decide), if_neg (by decide),
    if_neg (by decide)]
  rfl

/-- Claim C3 as amended, at the length 0 and an empty stream. -/
theorem readValue_SQ_defined_length_zero :
    readValue exampleTags 1 (NewReader [] .LittleEndian true) (ascii "SQ") 0
      = some (.error (dcmerr.Errorf dcmerr.ErrIO (ascii "unsupported VR: SQ")),
          NewReader [] .LittleEndian true) :=
  readValue_SQ_defined_length exampleTags 0 (NewReader [] .LittleEndian true) 0 (by decide)

theorem returnedError_iff {α : Type} (x : Option (Except GoError α × reader)) :
    returnedError x = true ↔ ∃ err r, x = some (.error err, r) := by
  rcases x with _ | ⟨_ | _, r⟩ <;> simp [returnedError]

/-- Claim C4, refuted on the code: an item that declares the length 12, holds one
`PN` element in these 12 bytes and is followed by the `SQ_DELIM` marker does not
end after 12 bytes; `readSequence` returns no sequence value, whatever the fuel
(the loop of `parseAll` reads on to the end of the stream, and `readSequence`
then fails). -/
theorem readSequence_ignores_defined_item_length :
    ¬ ∃ fuel value r1,
      readSequence exampleTags fuel ⟨true, definedLengthItemStream, 0, .LittleEndian⟩
        = some (.ok value, r1) := by
  rintro ⟨fuel, value, r1, h⟩
  have h10 : returnedError
      (readSequence exampleTags 10 ⟨true, definedLengthItemStream, 0, .LittleEndian⟩) = true := by
    decide!
  obtain ⟨err, r, h10⟩ := (returnedError_iff _).1 h10
  rcases Nat.le_total fuel 10 with hle | hle
  · have := (fuel_mono_aux exampleTags fuel).2.2.2.2.1 _ _ h 10 hle
    rw [h10] at this
    cases this
  · have := (fuel_mono_aux exampleTags 10).2.2.2.2.1 _ _ h10 fuel hle
    rw [h] at this
    cases this

/-! ### The prologue and the file-meta group -/

theorem Read_of_length (ex : Bool) (bs rest : List Nat) (k n : Nat) (o : ByteOrder)
    (hn : bs.length = n) (h0 : n ≠ 0) :
    reader.Read ⟨ex, bs ++ rest, k, o⟩ n = ((bs, none), ⟨ex, rest, k + n, o⟩) := by
  subst hn
  cases bs with
  | nil => exact absurd rfl h0
  | cons b bs => simp [reader.Read]

/-- The prologue: a preamble of 128 bytes and four further bytes `m`. -/
theorem checkHeader_of_prologue (ex : Bool) (pre m rest : List Nat) (k : Nat) (o : ByteOrder)
    (hpre : pre.length = 128) (hm : m.length = 4) :
    checkHeader ⟨ex, pre ++ (m ++ rest), k, o⟩ =
      if m ≠ magic then
        (some (dcmerr.Errorf dcmerr.ErrIO
          (ascii "bad magic " ++ fmtBytes m ++ ascii " at byte "
            ++ fmtV (k + 132) ++ ascii " (" ++ fmt08x (k + 132) ++ ascii ")")),
          ⟨ex, rest, k + 132, o⟩)
      else (none, ⟨ex, rest, k + 132, o⟩) := by
  unfold checkHeader
  rw [Read_of_length ex pre (m ++ rest) k 128 o hpre (by decide)]
  simp only [hpre, ne_eq, not_true_eq_false, ↓reduceIte]
  rw [Read_of_length ex m rest (k + 128) 4 o hm (by decide)]
  simp only [hm, ne_eq, not_true_eq_false, or_self, ↓reduceIte, reader.BytesRead,
    Nat.add_assoc]

/-- A `UL` element of length 4 in explicit mode. -/
theorem readElement_UL_aux (tagMap : tag.TagMap) (fuel t k : Nat) (v4 rest : List Nat)
    (ht : t < 2 ^ 32) (h1 : t ≠ SQItem) (h2 : t ≠ SQItemDelim) (h3 : t ≠ SQDelim)
    (hv : v4.length = 4) :
    readElement tagMap (fuel + 2)
        ⟨true, tagBytes t ++ (ascii "UL" ++ (le16 4 ++ (v4 ++ rest))), k, .LittleEndian⟩
      = some (.ok (NewElement t (ascii "UL") 4
            (.uint32Value [ByteOrder.LittleEndian.Uint32 v4])),
          ⟨true, rest, k + 12, .LittleEndian⟩) := by
  have hvr := ReadString_of_length true (ascii "UL") (le16 4 ++ (v4 ++ rest)) (k + 4) 2
    .LittleEndian rfl
  have hvl := readScalar_of_length (ByteOrder.LittleEndian.Uint16 ·) true (le16 4) (v4 ++ rest)
    (k + 4 + 2) 2 .LittleEndian rfl
  have hval := readScalar_of_length (ByteOrder.LittleEndian.Uint32 ·) true v4 rest
    (k + 4 + 2 + 2) 4 .LittleEndian hv
  have h4 : ByteOrder.LittleEndian.Uint16 (le16 4) = 4 := by decide
  rw [readElement]
  simp only [readLETag_tagBytes _ _ ht, checkSQMarker_other _ h1 h2 h3, readVR,
    reader.IsExplicit, Bool.not_true, Bool.false_eq_true, ↓reduceIte, hvr, readVL,
    show ascii "UL" ∈ shortVLs from by decide, decide_True, reader.ReadUint16, hvl, h4]
  rw [readValue, if_neg (by decide), if_neg (by decide), if_pos rfl]
  simp only [readUint32Value, show 4 / 4 = 1 from rfl, readN, reader.ReadUint32, hval, NewValue]

/-- Claim C5, refuted on the code: on the minimal file `ParseFile` does not
succeed. -/
theorem ParseFile_minimalFile_not_ok :
    ¬ ∃ ds, ParseFile exampleTags minimalFile = some (.returns (.ok ds)) := by
  have h : ParseFile exampleTags minimalFile
      = some (.returns (.error (dcmerr.Errorf dcmerr.ErrNotFound
          (ascii "Element 0x00020010 not found")))) := by
    decide!
  rintro ⟨ds, hds⟩
  rw [h] at hds
  cases hds

/-- Claim C5 as amended: on the minimal file, for every tag dictionary, the
prologue is accepted and `parseFileMeta` succeeds, leaving a dataset with exactly
one element, tag `0x00020000`, whose value is the `u32` array `[0]`; the dataset
has no `TransferSyntaxUID`, so `checkXferSyntax` fails and `ParseFile` returns an
error of kind NotFound and no dataset. -/
theorem ParseFile_minimalFile (tagMap : tag.TagMap) :
    checkHeader (NewReader minimalFile .LittleEndian true)
      = (none, ⟨true, minimalFile.drop 132, 132, .LittleEndian⟩)
    ∧ parseFileMeta tagMap (fuelFor minimalFile) NewDataset
        ⟨true, minimalFile.drop 132, 132, .LittleEndian⟩
      = some (.returns (none,
          .mk [(0x00020000, NewElement 0x00020000 (ascii "UL") 4 (.uint32Value [0]))],
          ⟨true, [], 144, .LittleEndian⟩))
    ∧ ParseFile tagMap minimalFile
      = some (.returns (.error (dcmerr.Errorf dcmerr.ErrNotFound
          (ascii "Element 0x00020010 not found")))) := by
  have hdrop : minimalFile.drop 132
      = tagBytes 0x00020000 ++ (ascii "UL" ++ (le16 4 ++ ([0, 0, 0, 0] ++ []))) := by decide!
  have hfuel : fuelFor minimalFile = 145 + 2 := by decide!
  have hfile : minimalFile = List.replicate 128 0 ++ (magic ++ minimalFile.drop 132) := by
    decide!
  have hmsg : Dataset.notFoundMsg tag.TransferSyntaxUID = ascii "Element 0x00020010 not found" := by
    decide!
  have hhdr : checkHeader (NewReader minimalFile .LittleEndian true)
      = (none, ⟨true, minimalFile.drop 132, 132, .LittleEndian⟩) := by
    have := checkHeader_of_prologue true (List.replicate 128 0) magic (minimalFile.drop 132) 0
      .LittleEndian (by simp) rfl
    rw [← hfile] at this
    simpa [NewReader] using this
  have hmeta : parseFileMeta tagMap (fuelFor minimalFile) NewDataset
        ⟨true, minimalFile.drop 132, 132, .LittleEndian⟩
      = some (.returns (none,
          .mk [(0x00020000, NewElement 0x00020000 (ascii "UL") 4 (.uint32Value [0]))],
          ⟨true, [], 144, .LittleEndian⟩)) := by
    rw [hdrop, hfuel]
    unfold parseFileMeta
    rw [readElement_UL_aux tagMap 145 0x00020000 132 [0, 0, 0, 0] [] (by decide) (by decide)
      (by decide) (by decide) rfl]
    rfl
  refine ⟨hhdr, hmeta, ?_⟩
  simp only [ParseFile, hhdr, hmeta, ← hmsg]
  rfl

/-- Claim C6: when the dataset holds at tag `0x00020010` an element with a text
value and the reader is explicit, `checkXferSyntax` returns nil, leaves stream
position, byte count and byte order as they are, and leaves the reader implicit
exactly when the element's text value, `TrimSpace` of the stored string, equals
`1.2.840.10008.1.2`; for every other text the reader is unchanged, still
explicit. -/
theorem checkXferSyntax_text (ds : Dataset) (r : reader) (e : Element) (s : GoString)
    (hget : ds.Get tag.TransferSyntaxUID = .ok e) (hval : e.Value = .stringValue s)
    (hex : r.IsExplicit = true) :
    e.Value.Get = .returns (.string (TrimSpace s))
    ∧ ∃ r1, checkXferSyntax ds r = .returns (none, r1)
      ∧ r1.input = r.input ∧ r1.BytesRead = r.BytesRead ∧ r1.order = r.order
      ∧ (r1.IsExplicit = false ↔ TrimSpace s = uid.ImplicitVRLittleEndian)
      ∧ (TrimSpace s ≠ uid.ImplicitVRLittleEndian → r1 = r) := by
  have hlook : ds.elems.lookup tag.TransferSyntaxUID = some e := by
    unfold Dataset.Get at hget
    split at hget
    · cases hget
    · rename_i elem h
      injection hget with h'
      rw [h, h']
  have hg : e.Value.Get = .returns (.string (TrimSpace s)) := by rw [hval]; rfl
  refine ⟨hg, ?_⟩
  unfold checkXferSyntax Dataset.GetString
  simp only [hlook, hg]
  by_cases hu : TrimSpace s = uid.ImplicitVRLittleEndian
  · refine ⟨r.SetExplicit false, ?_⟩
    simp [hu, reader.SetExplicit, reader.IsExplicit, reader.BytesRead]
  · refine ⟨r, ?_⟩
    simp [hu, hex]

/-- Claim C6 at a dataset holding `1.2.840.10008.1.2` and an explicit reader
with three bytes left. -/
theorem checkXferSyntax_text_implicit :
    checkXferSyntax implicitSyntaxDataset ⟨true, [1, 2, 3], 140, .LittleEndian⟩
      = .returns (none, ⟨false, [1, 2, 3], 140, .LittleEndian⟩) := by
  obtain ⟨_, r1, h, hin, hn, ho, hiff, _⟩ := checkXferSyntax_text implicitSyntaxDataset
    ⟨true, [1, 2, 3], 140, .LittleEndian⟩
    (NewElement tag.TransferSyntaxUID (ascii "UI") 18 (.stringValue (ascii "1.2.840.10008.1.2")))
    (ascii "1.2.840.10008.1.2") (by decide) rfl rfl
  have hex : r1.explicit = false := hiff.2 (by decide)
  rw [h]
  obtain ⟨ex, inp, n, o⟩ := r1
  simp only [reader.BytesRead] at hin hn ho hex
  subst hin hn ho hex
  rfl

/-- Claim C7, the code at a failing input: the group length is 36 and the two
elements after the length element occupy exactly 36 bytes, yet `parseFileMeta`,
entered at byte 132, stops at byte 170 = 132 + 12 + 26 (not 132 + 12 + 36): its
bound is counted from the start of the length element, so the last element,
`(0002,0013)`, stays unread and is not put into the dataset. -/
theorem parseFileMeta_stops_early :
    parseFileMeta exampleTags (fuelFor metaGroupExample) NewDataset
        ⟨true, metaGroupExample, 132, .LittleEndian⟩
      = some (.returns (none,
          .mk [(0x00020000, NewElement 0x00020000 (ascii "UL") 4 (.uint32Value [36])),
               (0x00020010, NewElement 0x00020010 (ascii "UI") 18
                  (.stringValue (ascii "1.2.840.10008.1.2")))],
          ⟨true, [0x02, 0x00, 0x13, 0x00, 0x53, 0x48, 0x02, 0x00] ++ ascii "AB", 170,
            .LittleEndian⟩)) := by
  decide!

/-- Claim C8, the code at a failing input: on a stream of 130 bytes `checkHeader`
returns nil, having consumed all 130 bytes; the short read of the magic returns
the nil error of `Read`. -/
theorem checkHeader_accepts_130_bytes :
    checkHeader (NewReader (List.replicate 130 0) .LittleEndian true)
      = (none, ⟨true, [], 130, .LittleEndian⟩) := by
  decide!

/-- Claim C9, refuted on the code: on 132 zero bytes the message of the error
names byte 132, not byte 128. -/
theorem checkHeader_bad_magic_at_132 :
    checkHeader (NewReader (List.replicate 132 0) .LittleEndian true)
      = (some (dcmerr.Errorf dcmerr.ErrIO (ascii "bad magic [0 0 0 0] at byte 132 (00000084)")),
          ⟨true, [], 132, .LittleEndian⟩)
    ∧ ¬ ∃ r, checkHeader (NewReader (List.replicate 132 0) .LittleEndian true)
      = (some (dcmerr.Errorf dcmerr.ErrIO (ascii "bad magic [0 0 0 0] at byte 128 (00000080)")),
          r) := by
  have h : checkHeader (NewReader (List.replicate 132 0) .LittleEndian true)
      = (some (dcmerr.Errorf dcmerr.ErrIO (ascii "bad magic [0 0 0 0] at byte 132 (00000084)")),
          ⟨true, [], 132, .LittleEndian⟩) := by
    decide!
  refine ⟨h, ?_⟩
  rintro ⟨r, hr⟩
  rw [h] at hr
  have hne : (some (dcmerr.Errorf dcmerr.ErrIO
        (ascii "bad magic [0 0 0 0] at byte 132 (00000084)")) : Option GoError)
      ≠ some (dcmerr.Errorf dcmerr.ErrIO
        (ascii "bad magic [0 0 0 0] at byte 128 (00000080)")) := by
    decide!
  exact hne (congrArg Prod.fst hr)

/-- Claim C9 as amended: for every stream of at least 132 bytes whose bytes
128..131 differ from `DICM`, `checkHeader` on a fresh reader fails with an error
of kind IO whose message is `bad magic`, the four bytes, and the byte offset 132
(the position behind the magic), all 132 bytes being consumed. -/
theorem checkHeader_bad_magic (stream : List Nat) (ex : Bool)
    (hlen : 132 ≤ stream.length) (hne : (stream.drop 128).take 4 ≠ magic) :
    checkHeader (NewReader stream .LittleEndian ex)
      = (some (dcmerr.Errorf dcmerr.ErrIO
          (ascii "bad magic " ++ fmtBytes ((stream.drop 128).take 4)
            ++ ascii " at byte 132 (00000084)")),
          ⟨ex, stream.drop 132, 132, .LittleEndian⟩) := by
  have hsplit : stream = stream.take 128 ++ ((stream.drop 128).take 4 ++ stream.drop 132) := by
    have h1 : stream.drop 132 = (stream.drop 128).drop 4 := by rw [List.drop_drop]
    rw [h1, List.take_append_drop, List.take_append_drop]
  have h := checkHeader_of_prologue ex (stream.take 128) ((stream.drop 128).take 4)
    (stream.drop 132) 0 .LittleEndian (by simp; omega) (by simp; omega)
  rw [← hsplit, if_pos hne] at h
  have hfmt : fmtV (0 + 132) ++ ascii " (" ++ fmt08x (0 + 132) ++ ascii ")"
      = ascii "132 (00000084)" := by decide
  unfold NewReader
  rw [h]
  simp only [List.append_assoc] at hfmt ⊢
  rw [hfmt]
  have : ascii " at byte " ++ ascii "132 (00000084)" = ascii " at byte 132 (00000084)" := by
    decide
  rw [this]

/-- Claim C9 as amended, at a stream of 132 zero bytes followed by one byte. -/
theorem checkHeader_bad_magic_zeros :
    checkHeader (NewReader (List.replicate 132 0 ++ [7]) .LittleEndian true)
      = (some (dcmerr.Errorf dcmerr.ErrIO (ascii "bad magic [0 0 0 0] at byte 132 (00000084)")),
          ⟨true, [7], 132, .LittleEndian⟩) := by
  have h := checkHeader_bad_magic (List.replicate 132 0 ++ [7]) true (by decide!) (by decide!)
  have h1 : (List.drop 128 (List.replicate 132 0 ++ [7])).take 4 = [0, 0, 0, 0] := by decide!
  have h2 : List.drop 132 (List.replicate 132 0 ++ [7]) = [7] := by decide!
  have h3 : ascii "bad magic " ++ fmtBytes [0, 0, 0, 0] ++ ascii " at byte 132 (00000084)"
      = ascii "bad magic [0 0 0 0] at byte 132 (00000084)" := by decide!
  rw [h1, h2, h3] at h
  exact h
theorem nullStrip_padding (s : GoString) (k : Nat)
    (h : 2 ≤ (s ++ List.replicate (k + 1) 0).length) :
    nullStrip (s ++ List.replicate (k + 1) 0) = s ++ List.replicate k 0 := by
  have hrep : List.replicate (k + 1) (0 : Nat) = List.replicate k 0 ++ [0] :=
    List.replicate_succ' k 0
  have hlen : (s ++ List.replicate (k + 1) 0).length - 1 = (s ++ List.replicate k 0).length := by
    simp
  unfold nullStrip
  rw [if_neg (by omega), hlen, hrep, ← List.append_assoc, List.drop_left, List.take_left]
  simp

/-- Claim C10, refuted on the code: the element `10 00 10 00 0C 00 00 00
"DOE^JOHN\0\0\0\0"`, decoded in implicit mode with a dictionary supplying `PN`,
never has the text value `DOE^JOHN`, whatever the fuel. -/
theorem readElement_padded_PN_keeps_padding :
    ¬ ∃ fuel e r, readElement exampleTags fuel ⟨false, paddedPNBytes, 0, .LittleEndian⟩
        = some (.ok e, r)
      ∧ e.Value.Get = .returns (.string (ascii "DOE^JOHN")) := by
  rintro ⟨fuel, e, r, h, hget⟩
  have h2 : readElement exampleTags 2 ⟨false, paddedPNBytes, 0, .LittleEndian⟩
      = some (.ok (NewElement 0x00100010 (ascii "PN") 12
            (.stringValue (ascii "DOE^JOHN" ++ [0, 0, 0]))),
          ⟨false, [], 20, .LittleEndian⟩) := by
    decide!
  have he : e = NewElement 0x00100010 (ascii "PN") 12
      (.stringValue (ascii "DOE^JOHN" ++ [0, 0, 0])) := by
    rcases Nat.le_total fuel 2 with hle | hle
    · have := readElement_fuel_mono exampleTags hle h
      rw [h2] at this
      injection this with this
      injection this with this _
      injection this with this
      exact this.symm
    · have := readElement_fuel_mono exampleTags hle h2
      rw [h] at this
      injection this with this
      injection this with this _
      injection this with this
  subst he
  revert hget
  decide!

/-- Claim C10 as amended: decoding a text element removes exactly one trailing
NUL.  The element `10 00 10 00 0C 00 00 00 "DOE^JOHN\0\0\0\0"` (implicit mode,
the dictionary supplying `PN`) has the text value `"DOE^JOHN\0\0\0"`, and the UI
payload `"1.2.840.10008.1.2\0\0\0"` the text value `"1.2.840.10008.1.2\0\0"`;
`TrimSpace` removes no NUL.  In general a payload of at least two bytes ending in
`k+1` NUL bytes is stored with `k` of them, so a payload padded with a single NUL
yields the text without padding. -/
theorem text_value_strips_one_NUL :
    readElement exampleTags 2 ⟨false, paddedPNBytes, 0, .LittleEndian⟩
      = some (.ok (NewElement 0x00100010 (ascii "PN") 12
            (.stringValue (ascii "DOE^JOHN" ++ [0, 0, 0]))),
          ⟨false, [], 20, .LittleEndian⟩)
    ∧ (Value.stringValue (ascii "DOE^JOHN" ++ [0, 0, 0])).Get
      = .returns (.string (ascii "DOE^JOHN" ++ [0, 0, 0]))
    ∧ (NewValue (.string (ascii "1.2.840.10008.1.2" ++ [0, 0, 0]))).map Value.Get
      = .ok (.returns (.string (ascii "1.2.840.10008.1.2" ++ [0, 0])))
    ∧ (NewValue (.string (ascii "DOE^JOHN" ++ [0]))).map Value.Get
      = .ok (.returns (.string (ascii "DOE^JOHN")))
    ∧ ∀ (s : GoString) (k : Nat), 2 ≤ (s ++ List.replicate (k + 1) 0).length →
        NewValue (.string (s ++ List.replicate (k + 1) 0))
          = .ok (.stringValue (s ++ List.replicate k 0)) := by
  refine ⟨by decide!, by decide!, by decide!, by decide!, ?_⟩
  intro s k h
  simp only [NewValue, nullStrip_padding s k h]

/-! ### Scalar arrays and byte blobs -/

theorem readScalar_of_le {α : Type} (dec : List Nat → α) (r : reader) (size : Nat)
    (h : size ≤ r.input.length) :
    readScalar r size dec
      = (.ok (dec (r.input.take size)),
          ⟨r.explicit, r.input.drop size, r.nRead + size, r.order⟩) := by
  obtain ⟨ex, inp, k, o⟩ := r
  have := readScalar_of_length dec ex (inp.take size) (inp.drop size) k size o
    (by simpa using h)
  rwa [List.take_append_drop] at this

/-- The loop `readN` over a scalar read of `size` bytes, on a reader holding at
least `n * size` bytes. -/
theorem readN_scalar {α : Type} (size : Nat) (dec : ByteOrder → List Nat → α)
    (read : reader → Except GoError α × reader)
    (hread : ∀ r, read r = readScalar r size (dec r.order)) :
    ∀ (n : Nat) (r : reader), n * size ≤ r.input.length →
      readN read n r
        = (.ok ((List.range n).map (fun i => dec r.order (chunk r.input size i))),
            ⟨r.explicit, r.input.drop (n * size), r.nRead + n * size, r.order⟩) := by
  intro n
  induction n with
  | zero => intro r _; simp [readN]
  | succ n ih =>
    intro r h
    have hsz : size ≤ r.input.length := by
      have : (n + 1) * size = n * size + size := Nat.succ_mul n size
      omega
    have hrest : n * size ≤ (r.input.drop size).length := by
      have : (n + 1) * size = n * size + size := Nat.succ_mul n size
      simp only [List.length_drop]
      omega
    rw [readN, hread, readScalar_of_le _ r size hsz]
    simp only
    rw [ih ⟨r.explicit, r.input.drop size, r.nRead + size, r.order⟩ hrest]
    simp only [List.range_succ_eq_map, List.map_cons, List.map_map, List.drop_drop]
    have h1 : size + n * size = (n + 1) * size := by rw [Nat.succ_mul]; omega
    have h2 : r.nRead + size + n * size = r.nRead + (n + 1) * size := by rw [Nat.succ_mul]; omega
    rw [h1, h2]
    congr 3
    · simp [chunk]
    · apply List.map_congr_left
      intro i _
      simp only [Function.comp, chunk, List.drop_drop, Nat.succ_eq_add_one]
      rw [show size + i * size = (i + 1) * size by rw [Nat.succ_mul]; omega]

theorem readN_length {α : Type} (read : reader → Except GoError α × reader) :
    ∀ (n : Nat) (r r1 : reader) (vs : List α), readN read n r = (.ok vs, r1) → vs.length = n := by
  intro n
  induction n with
  | zero =>
    intro r r1 vs h
    simp only [readN, Prod.mk.injEq, Except.ok.injEq] at h
    rw [← h.1]
    rfl
  | succ n ih =>
    intro r r1 vs h
    rw [readN] at h
    rcases hr : read r with ⟨_ | v, r2⟩
    · rw [hr] at h; cases h
    · rw [hr] at h
      simp only at h
      rcases hn : readN read n r2 with ⟨_ | ws, r3⟩
      · rw [hn] at h; cases h
      · rw [hn] at h
        simp only [Prod.mk.injEq, Except.ok.injEq] at h
        rw [← h.1, List.length_cons, ih r2 r3 ws hn]

/-- What a successful `readElement` went through: the tag, and either the SQ
marker or VR, VL and value. -/
theorem readElement_ok_inv (tagMap : tag.TagMap) (fuel : Nat) (r r1 : reader) (e : Element)
    (h : readElement tagMap (fuel + 1) r = some (.ok e, r1)) :
    ∃ tg r2, readLETag r = (.ok tg, r2) ∧ e.Tag = tg ∧
      ((checkSQMarker tg = .ok (some e) ∧ r1 = (r2.Skip 4).2 ∧ e.VR = [])
       ∨ (checkSQMarker tg = .ok none ∧ ∃ vr r3 vl r4 value,
            readVR tagMap r2 tg = (.ok vr, r3) ∧ readVL r3 vr = (.ok vl, r4)
            ∧ readValue tagMap fuel r4 vr vl = some (.ok value, r1)
            ∧ e = NewElement tg vr vl value)) := by
  rw [readElement] at h
  rcases hlt : readLETag r with ⟨_ | tg, r2⟩
  · rw [hlt] at h; cases h
  · rw [hlt] at h
    simp only at h
    refine ⟨tg, r2, rfl, ?_⟩
    rcases hsq : checkSQMarker tg with _ | _ | mk
    · rw [hsq] at h; cases h
    · rw [hsq] at h
      simp only at h
      rcases hvr : readVR tagMap r2 tg with ⟨_ | vr, r3⟩
      · rw [hvr] at h; cases h
      · rw [hvr] at h
        simp only at h
        rcases hvl : readVL r3 vr with ⟨_ | vl, r4⟩
        · rw [hvl] at h; cases h
        · rw [hvl] at h
          simp only at h
          cases hv : readValue tagMap fuel r4 vr vl with
          | none => rw [hv] at h; cases h
          | some y =>
            rw [hv] at h
            rcases y with ⟨_ | value, r5⟩
            · cases h
            · simp only [Option.some.injEq, Prod.mk.injEq, Except.ok.injEq] at h
              obtain ⟨he, hr⟩ := h
              subst he hr
              exact ⟨rfl, Or.inr ⟨rfl, vr, r3, vl, r4, value, rfl, hvl, hv, rfl⟩⟩
    · rw [hsq] at h
      have hs : r2.Skip 4 = (none, (r2.Skip 4).2) := rfl
      rw [hs] at h
      simp only [Option.some.injEq, Prod.mk.injEq, Except.ok.injEq] at h
      obtain ⟨he, hr⟩ := h
      subst he
      have hmk : mk.Tag = tg ∧ mk.VR = [] := by
        unfold checkSQMarker at hsq
        simp only [NewValue] at hsq
        split_ifs at hsq <;> simp only [Except.ok.injEq, Option.some.injEq] at hsq <;>
          first
          | (subst hsq; exact ⟨rfl, rfl⟩)
          | cases hsq
      exact ⟨hmk.1, Or.inl ⟨rfl, hr.symm, hmk.2⟩⟩

theorem readValue_defined_of_ok (tagMap : tag.TagMap) (fuel : Nat) (r r1 : reader)
    (vr : GoString) (vl : Nat) (v : Value) (hvr : vr ≠ ascii "SQ")
    (h : readValue tagMap fuel r vr vl = some (.ok v, r1)) : vl ≠ UndefinedLength := by
  intro hu
  cases fuel with
  | zero => simp [readValue] at h
  | succ f =>
    rw [readValue, if_pos hu] at h
    cases f with
    | zero => simp [readUndefLenValue] at h
    | succ g =>
      rw [readUndefLenValue, if_neg hvr] at h
      cases h

/-- The number of entries of the array `readValue` builds for the six
scalar-array VRs of fixed entry size. -/
theorem readValue_array_length_aux (tagMap : tag.TagMap) (fuel : Nat) (r r1 : reader)
    (vr : GoString) (vl : Nat) (v : Value)
    (h : readValue tagMap fuel r vr vl = some (.ok v, r1)) :
    (vr = ascii "UL" → ∃ d, v = .uint32Value d ∧ d.length = vl / 4)
    ∧ (vr = ascii "US" → ∃ d, v = .uint16Value d ∧ d.length = vl / 2)
    ∧ (vr = ascii "SL" → ∃ d, v = .int32Value d ∧ d.length = vl / 4)
    ∧ (vr = ascii "SS" → ∃ d, v = .int16Value d ∧ d.length = vl / 2)
    ∧ (vr = ascii "FL" → ∃ d, v = .float32Value d ∧ d.length = vl / 4)
    ∧ (vr = ascii "FD" → ∃ d, v = .float64Value d ∧ d.length = vl / 8) := by
  cases fuel with
  | zero => simp [readValue] at h
  | succ f =>
    refine ⟨?_, ?_, ?_, ?_, ?_, ?_⟩ <;> intro hvr <;> subst hvr
    · have hu := readValue_defined_of_ok tagMap _ r r1 _ vl v (by decide) h
      rw [readValue, if_neg hu, if_neg (by decide), if_pos rfl] at h
      simp only [readUint32Value, Option.some.injEq] at h
      rcases hn : readN reader.ReadUint32 (vl / 4) r with ⟨_ | d, r2⟩
      · rw [hn] at h; cases h
      · rw [hn] at h
        simp only [NewValue, Prod.mk.injEq, Except.ok.injEq] at h
        exact ⟨d, h.1.symm, readN_length _ _ _ _ _ hn⟩
    · have hu := readValue_defined_of_ok tagMap _ r r1 _ vl v (by decide) h
      rw [readValue, if_neg hu, if_neg (by decide), if_neg (by decide),
        if_pos (Or.inl rfl)] at h
      simp only [readUint16Value, Option.some.injEq] at h
      rcases hn : readN reader.ReadUint16 (vl / 2) r with ⟨_ | d, r2⟩
      · rw [hn] at h; cases h
      · rw [hn] at h
        simp only [NewValue, Prod.mk.injEq, Except.ok.injEq] at h
        exact ⟨d, h.1.symm, readN_length _ _ _ _ _ hn⟩
    · have hu := readValue_defined_of_ok tagMap _ r r1 _ vl v (by decide) h
      rw [readValue, if_neg hu, if_neg (by decide), if_neg (by decide), if_neg (by decide),
        if_neg (by decide), if_neg (by decide), if_neg (by decide), if_pos rfl] at h
      simp only [readInt32Value, Option.some.injEq] at h
      rcases hn : readN reader.ReadInt32 (vl / 4) r with ⟨_ | d, r2⟩
      · rw [hn] at h; cases h
      · rw [hn] at h
        simp only [NewValue, Prod.mk.injEq, Except.ok.injEq] at h
        exact ⟨d, h.1.symm, readN_length _ _ _ _ _ hn⟩
    · have hu := readValue_defined_of_ok tagMap _ r r1 _ vl v (by decide) h
      rw [readValue, if_neg hu, if_neg (by decide), if_neg (by decide), if_neg (by decide),
        if_neg (by decide), if_neg (by decide), if_neg (by decide), if_neg (by decide),
        if_pos (Or.inl rfl)] at h
      simp only [readInt16Value, Option.some.injEq] at h
      rcases hn : readN reader.ReadInt16 (vl / 2) r with ⟨_ | d, r2⟩
      · rw [hn] at h; cases h
      · rw [hn] at h
        simp only [NewValue, Prod.mk.injEq, Except.ok.injEq] at h
        exact ⟨d, h.1.symm, readN_length _ _ _ _ _ hn⟩
    · have hu := readValue_defined_of_ok tagMap _ r r1 _ vl v (by decide) h
      rw [readValue, if_neg hu, if_neg (by decide), if_neg (by decide), if_neg (by decide),
        if_neg (by decide), if_pos rfl] at h
      simp only [readFloat32Value, Option.some.injEq] at h
      rcases hn : readN reader.ReadFloat32 (vl / 4) r with ⟨_ | d, r2⟩
      · rw [hn] at h; cases h
      · rw [hn] at h
        simp only [NewValue, Prod.mk.injEq, Except.ok.injEq] at h
        exact ⟨d, h.1.symm, readN_length _ _ _ _ _ hn⟩
    · have hu := readValue_defined_of_ok tagMap _ r r1 _ vl v (by decide) h
      rw [readValue, if_neg hu, if_neg (by decide), if_neg (by decide), if_neg (by decide),
        if_neg (by decide), if_neg (by decide), if_pos rfl] at h
      simp only [readFloat64Value, Option.some.injEq] at h
      rcases hn : readN reader.ReadFloat64 (vl / 8) r with ⟨_ | d, r2⟩
      · rw [hn] at h; cases h
      · rw [hn] at h
        simp only [NewValue, Prod.mk.injEq, Except.ok.injEq] at h
        exact ⟨d, h.1.symm, readN_length _ _ _ _ _ hn⟩
/-- Claim C11, refuted on the code: the explicit-VR element `(0002,0000) UL` with
the length 6 is returned with VL 6 and a `u32` array of one entry, and
`1 * 4 ≠ 6`. -/
theorem readElement_UL_length_6 :
    ∃ e r1, readElement exampleTags 2 ⟨true, oddULBytes, 0, .LittleEndian⟩ = some (.ok e, r1)
      ∧ e.VR = ascii "UL" ∧ e.VL = 6 ∧ e.Value = .uint32Value [1] ∧ [1].length * 4 ≠ e.VL := by
  refine ⟨NewElement 0x00020000 (ascii "UL") 6 (.uint32Value [1]),
    ⟨true, [0xAA, 0xBB], 12, .LittleEndian⟩, ?_, rfl, rfl, rfl, by decide⟩
  decide!

/-- Claim C11 as amended: for every element returned by `readElement` whose VR
is UL, US, SL, SS, FL or FD (entry size `s` = 4, 2, 4, 2, 4, 8), the value is the
array of that type and its number of entries is `VL / s` rounded down, so that
entries times `s` plus `VL mod s` equals VL: the product equals VL exactly when
VL is a multiple of `s`. -/
theorem readElement_array_length (tagMap : tag.TagMap) (fuel : Nat) (r r1 : reader) (e : Element)
    (h : readElement tagMap fuel r = some (.ok e, r1)) :
    (e.VR = ascii "UL" → ∃ d, e.Value = .uint32Value d ∧ d.length = e.VL / 4
        ∧ d.length * 4 + e.VL % 4 = e.VL)
    ∧ (e.VR = ascii "US" → ∃ d, e.Value = .uint16Value d ∧ d.length = e.VL / 2
        ∧ d.length * 2 + e.VL % 2 = e.VL)
    ∧ (e.VR = ascii "SL" → ∃ d, e.Value = .int32Value d ∧ d.length = e.VL / 4
        ∧ d.length * 4 + e.VL % 4 = e.VL)
    ∧ (e.VR = ascii "SS" → ∃ d, e.Value = .int16Value d ∧ d.length = e.VL / 2
        ∧ d.length * 2 + e.VL % 2 = e.VL)
    ∧ (e.VR = ascii "FL" → ∃ d, e.Value = .float32Value d ∧ d.length = e.VL / 4
        ∧ d.length * 4 + e.VL % 4 = e.VL)
    ∧ (e.VR = ascii "FD" → ∃ d, e.Value = .float64Value d ∧ d.length = e.VL / 8
        ∧ d.length * 8 + e.VL % 8 = e.VL) := by
  cases fuel with
  | zero => simp [readElement] at h
  | succ f =>
    obtain ⟨tg, r2, _, _, hcase⟩ := readElement_ok_inv tagMap f r r1 e h
    rcases hcase with ⟨_, _, hvr⟩ | ⟨_, vr, r3, vl, r4, value, _, _, hv, he⟩
    · refine ⟨?_, ?_, ?_, ?_, ?_, ?_⟩ <;> intro hc <;> rw [hvr] at hc <;>
        exact absurd hc (by decide)
    · subst he
      obtain ⟨h1, h2, h3, h4, h5, h6⟩ := readValue_array_length_aux tagMap f r4 r1 vr vl value hv
      simp only [NewElement, Element.VR, Element.Value, Element.VL]
      refine ⟨?_, ?_, ?_, ?_, ?_, ?_⟩
      · intro hc; obtain ⟨d, hd, hl⟩ := h1 hc; exact ⟨d, hd, hl, by omega⟩
      · intro hc; obtain ⟨d, hd, hl⟩ := h2 hc; exact ⟨d, hd, hl, by omega⟩
      · intro hc; obtain ⟨d, hd, hl⟩ := h3 hc; exact ⟨d, hd, hl, by omega⟩
      · intro hc; obtain ⟨d, hd, hl⟩ := h4 hc; exact ⟨d, hd, hl, by omega⟩
      · intro hc; obtain ⟨d, hd, hl⟩ := h5 hc; exact ⟨d, hd, hl, by omega⟩
      · intro hc; obtain ⟨d, hd, hl⟩ := h6 hc; exact ⟨d, hd, hl, by omega⟩

/-- Claim C11 as amended, at the `UL` element with the length 6: one entry,
`1 * 4 + 6 mod 4 = 6`. -/
theorem readElement_array_length_UL_6 :
    ∃ d, Element.Value (NewElement 0x00020000 (ascii "UL") 6 (.uint32Value [1])) = .uint32Value d
      ∧ d.length = 6 / 4 ∧ d.length * 4 + 6 % 4 = 6 :=
  (readElement_array_length exampleTags 2 ⟨true, oddULBytes, 0, .LittleEndian⟩
    ⟨true, [0xAA, 0xBB], 12, .LittleEndian⟩
    (NewElement 0x00020000 (ascii "UL") 6 (.uint32Value [1])) (by decide!)).1 rfl

/-- Claim C12: on a little-endian reader holding at least `vl` bytes, for a
defined `vl` and any fuel of at least 1, `readValue` returns for UL the `u32`
array, for US and xs the `u16` array, for SL the `i32` array and for SS and OW
the `i16` array of `vl / size` entries, the `i`-th decoded little-endian
(two's complement for the signed ones) from bytes `[i * size, (i + 1) * size)`
of the payload, having consumed `vl / size * size` bytes; for OB, UN, ox and px
it returns the `vl` payload bytes as they are. -/
theorem readValue_arrays (tagMap : tag.TagMap) (fuel : Nat) (r : reader) (vl : Nat)
    (ho : r.order = .LittleEndian) (hu : vl ≠ UndefinedLength) (hlen : vl ≤ r.input.length) :
    readValue tagMap (fuel + 1) r (ascii "UL") vl
      = some (.ok (.uint32Value ((List.range (vl / 4)).map
            (fun i => ByteOrder.LittleEndian.Uint32 (chunk r.input 4 i)))),
          ⟨r.explicit, r.input.drop (vl / 4 * 4), r.nRead + vl / 4 * 4, r.order⟩)
    ∧ (∀ vr, vr = ascii "US" ∨ vr = ascii "xs" → readValue tagMap (fuel + 1) r vr vl
      = some (.ok (.uint16Value ((List.range (vl / 2)).map
            (fun i => ByteOrder.LittleEndian.Uint16 (chunk r.input 2 i)))),
          ⟨r.explicit, r.input.drop (vl / 2 * 2), r.nRead + vl / 2 * 2, r.order⟩))
    ∧ readValue tagMap (fuel + 1) r (ascii "SL") vl
      = some (.ok (.int32Value ((List.range (vl / 4)).map
            (fun i => toInt32 (ByteOrder.LittleEndian.Uint32 (chunk r.input 4 i))))),
          ⟨r.explicit, r.input.drop (vl / 4 * 4), r.nRead + vl / 4 * 4, r.order⟩)
    ∧ (∀ vr, vr = ascii "SS" ∨ vr = ascii "OW" → readValue tagMap (fuel + 1) r vr vl
      = some (.ok (.int16Value ((List.range (vl / 2)).map
            (fun i => toInt16 (ByteOrder.LittleEndian.Uint16 (chunk r.input 2 i))))),
          ⟨r.explicit, r.input.drop (vl / 2 * 2), r.nRead + vl / 2 * 2, r.order⟩))
    ∧ (∀ vr, vr = ascii "OB" ∨ vr = ascii "UN" ∨ vr = ascii "ox" ∨ vr = ascii "px" →
        readValue tagMap (fuel + 1) r vr vl
      = some (.ok (.bytesValue (r.input.take vl)),
          ⟨r.explicit, r.input.drop vl, r.nRead + vl, r.order⟩)) := by
  have h4 : vl / 4 * 4 ≤ r.input.length := le_trans (Nat.div_mul_le_self vl 4) hlen
  have h2 : vl / 2 * 2 ≤ r.input.length := le_trans (Nat.div_mul_le_self vl 2) hlen
  refine ⟨?_, ?_, ?_, ?_, ?_⟩
  · rw [readValue, if_neg hu, if_neg (by decide), if_pos rfl, readUint32Value,
      readN_scalar 4 (fun o bs => o.Uint32 bs) reader.ReadUint32 (fun _ => rfl) _ r h4, ho]
    rfl
  · intro vr hvr
    have hnt : vr ∉ textVRs := by rcases hvr with h | h <;> subst h <;> decide
    have hnu : vr ≠ ascii "UL" := by rcases hvr with h | h <;> subst h <;> decide
    rw [readValue, if_neg hu, if_neg hnt, if_neg hnu, if_pos hvr, readUint16Value,
      readN_scalar 2 (fun o bs => o.Uint16 bs) reader.ReadUint16 (fun _ => rfl) _ r h2, ho]
    rfl
  · rw [readValue, if_neg hu, if_neg (by decide), if_neg (by decide), if_neg (by decide),
      if_neg (by decide), if_neg (by decide), if_neg (by decide), if_pos rfl, readInt32Value,
      readN_scalar 4 (fun o bs => toInt32 (o.Uint32 bs)) reader.ReadInt32 (fun _ => rfl) _ r h4,
      ho]
    rfl
  · intro vr hvr
    have hnt : vr ∉ textVRs := by rcases hvr with h | h <;> subst h <;> decide
    have h1 : vr ≠ ascii "UL" := by rcases hvr with h | h <;> subst h <;> decide
    have h3 : ¬ (vr = ascii "US" ∨ vr = ascii "xs") := by
      rcases hvr with h | h <;> subst h <;> decide
    have h5 : ¬ (vr = ascii "OB" ∨ vr = ascii "UN" ∨ vr = ascii "ox" ∨ vr = ascii "px") := by
      rcases hvr with h | h <;> subst h <;> decide
    have h6 : vr ≠ ascii "FL" := by rcases hvr with h | h <;> subst h <;> decide
    have h7 : vr ≠ ascii "FD" := by rcases hvr with h | h <;> subst h <;> decide
    have h8 : vr ≠ ascii "SL" := by rcases hvr with h | h <;> subst h <;> decide
    rw [readValue, if_neg hu, if_neg hnt, if_neg h1, if_neg h3, if_neg h5, if_neg h6, if_neg h7,
      if_neg h8, if_pos hvr, readInt16Value,
      readN_scalar 2 (fun o bs => toInt16 (o.Uint16 bs)) reader.ReadInt16 (fun _ => rfl) _ r h2,
      ho]
    rfl
  · intro vr hvr
    have hnt : vr ∉ textVRs := by rcases hvr with h | h | h | h <;> subst h <;> decide
    have h1 : vr ≠ ascii "UL" := by rcases hvr with h | h | h | h <;> subst h <;> decide
    have h3 : ¬ (vr = ascii "US" ∨ vr = ascii "xs") := by
      rcases hvr with h | h | h | h <;> subst h <;> decide
    rw [readValue, if_neg hu, if_neg hnt, if_neg h1, if_neg h3, if_pos hvr, readBytesValue]
    obtain ⟨ex, inp, k, o⟩ := r
    have hrf : ioReadFull ⟨ex, inp, k, o⟩ vl
        = ((inp.take vl, none), ⟨ex, inp.drop vl, k + vl, o⟩) := by
      have := ioReadFull_append ex (inp.take vl) (inp.drop vl) k o
      rw [List.take_append_drop, List.length_take, Nat.min_eq_left hlen] at this
      exact this
    rw [hrf]
    rfl

/-- Claim C12 at the payload `01 00 00 80 FF FF 7F` with `vl = 7`: UL gives
`[2147483649]`, SL `[-2147483647]`, US `[1, 32768, 65535]`, SS `[1, -32768, -1]`
and OB the seven bytes. -/
theorem readValue_arrays_example :
    readValue exampleTags 1 ⟨true, [1, 0, 0, 0x80, 0xFF, 0xFF, 0x7F], 0, .LittleEndian⟩
        (ascii "UL") 7
      = some (.ok (.uint32Value [2147483649]), ⟨true, [0xFF, 0xFF, 0x7F], 4, .LittleEndian⟩)
    ∧ readValue exampleTags 1 ⟨true, [1, 0, 0, 0x80, 0xFF, 0xFF, 0x7F], 0, .LittleEndian⟩
        (ascii "SL") 7
      = some (.ok (.int32Value [-2147483647]), ⟨true, [0xFF, 0xFF, 0x7F], 4, .LittleEndian⟩)
    ∧ readValue exampleTags 1 ⟨true, [1, 0, 0, 0x80, 0xFF, 0xFF, 0x7F], 0, .LittleEndian⟩
        (ascii "US") 7
      = some (.ok (.uint16Value [1, 32768, 65535]), ⟨true, [0x7F], 6, .LittleEndian⟩)
    ∧ readValue exampleTags 1 ⟨true, [1, 0, 0, 0x80, 0xFF, 0xFF, 0x7F], 0, .LittleEndian⟩
        (ascii "SS") 7
      = some (.ok (.int16Value [1, -32768, -1]), ⟨true, [0x7F], 6, .LittleEndian⟩)
    ∧ readValue exampleTags 1 ⟨true, [1, 0, 0, 0x80, 0xFF, 0xFF, 0x7F], 0, .LittleEndian⟩
        (ascii "OB") 7
      = some (.ok (.bytesValue [1, 0, 0, 0x80, 0xFF, 0xFF, 0x7F]), ⟨true, [], 7, .LittleEndian⟩) := by
  obtain ⟨h1, h2, h3, h4, h5⟩ := readValue_arrays exampleTags 0
    ⟨true, [1, 0, 0, 0x80, 0xFF, 0xFF, 0x7F], 0, .LittleEndian⟩ 7 rfl (by decide) (by decide)
  refine ⟨?_, ?_, ?_, ?_, ?_⟩
  · rw [h1]; decide!
  · rw [h3]; decide!
  · rw [h2 _ (Or.inl rfl)]; decide!
  · rw [h4 _ (Or.inl rfl)]; decide!
  · rw [h5 _ (Or.inl rfl)]; decide!

/-- Claim C13: `readVL` on a little-endian reader, for every VR string.  In
implicit mode it returns the next four bytes as a little-endian `u32`; in
explicit mode with one of the 21 short-form VRs the next two bytes as a
little-endian `u16`; in explicit mode with any other VR it drops two bytes,
whatever they hold, and returns the following four as a little-endian `u32`
(4, 2 and 6 bytes consumed). -/
theorem readVL_reads (vr : GoString) (k x0 x1 b0 b1 b2 b3 : Nat) (rest : List Nat) :
    readVL ⟨false, b0 :: b1 :: b2 :: b3 :: rest, k, .LittleEndian⟩ vr
      = (.ok (b0 + b1 * 256 + b2 * 65536 + b3 * 16777216), ⟨false, rest, k + 4, .LittleEndian⟩)
    ∧ (vr ∈ shortVLs →
        readVL ⟨true, b0 :: b1 :: rest, k, .LittleEndian⟩ vr
          = (.ok (b0 + b1 * 256), ⟨true, rest, k + 2, .LittleEndian⟩))
    ∧ (vr ∉ shortVLs →
        readVL ⟨true, x0 :: x1 :: b0 :: b1 :: b2 :: b3 :: rest, k, .LittleEndian⟩ vr
          = (.ok (b0 + b1 * 256 + b2 * 65536 + b3 * 16777216),
              ⟨true, rest, k + 6, .LittleEndian⟩)) := by
  refine ⟨?_, ?_, ?_⟩
  · simp only [readVL, reader.IsExplicit, Bool.not_false, ↓reduceIte, ReadUint32_cons]
  · intro hs
    simp only [readVL, reader.IsExplicit, Bool.not_true, Bool.false_eq_true, ↓reduceIte, hs,
      decide_True, ReadUint16_cons]
  · intro hs
    simp only [readVL, reader.IsExplicit, Bool.not_true, Bool.false_eq_true, ↓reduceIte, hs,
      decide_False, ReadUint16_cons, ReadUint32_cons]

/-- The list of short-form VRs is the one the claim C13 names. -/
theorem shortVLs_eq : shortVLs = [ascii "AE", ascii "AS", ascii "AT", ascii "CS", ascii "DA",
    ascii "DS", ascii "DT", ascii "FL", ascii "FD", ascii "IS", ascii "LO", ascii "LT",
    ascii "PN", ascii "SH", ascii "SL", ascii "SS", ascii "ST", ascii "TM", ascii "UI",
    ascii "UL", ascii "US"] := rfl

/-- Claim C14: for every VR other than `SQ`, `readValue` with the undefined
length, given any fuel of at least 2, fails with the IO error `undefined length
for VR` and leaves the reader as it was. -/
theorem readValue_undefined_length (tagMap : tag.TagMap) (fuel : Nat) (r : reader)
    (vr : GoString) (hvr : vr ≠ ascii "SQ") :
    readValue tagMap (fuel + 2) r vr UndefinedLength
      = some (.error (dcmerr.Errorf dcmerr.ErrIO (ascii "undefined length for VR " ++ vr)), r) := by
  rw [readValue, if_pos rfl, readUndefLenValue, if_neg hvr]

/-- Claim C14 at the VR `OB`. -/
theorem readValue_undefined_length_OB :
    readValue exampleTags 2 ⟨true, [1, 2, 3], 8, .LittleEndian⟩ (ascii "OB") UndefinedLength
      = some (.error (dcmerr.Errorf dcmerr.ErrIO (ascii "undefined length for VR OB")),
          ⟨true, [1, 2, 3], 8, .LittleEndian⟩) :=
  readValue_undefined_length exampleTags 0 ⟨true, [1, 2, 3], 8, .LittleEndian⟩ (ascii "OB")
    (by decide)

/-! ### What the reads consume -/

theorem ioReadFull_length (r : reader) (n : Nat) :
    (ioReadFull r n).2.input.length ≤ r.input.length
    ∧ ((ioReadFull r n).1.2 = none → (ioReadFull r n).2.input.length + n = r.input.length) := by
  unfold ioReadFull reader.Read
  by_cases h0 : n = 0
  · simp [h0]
  · simp only [h0, ↓reduceIte]
    by_cases he : r.input.isEmpty = true
    · simp [he]
    · simp only [he, Bool.false_eq_true, ↓reduceIte, List.length_take]
      by_cases hl : min n r.input.length = n
      · simp only [hl, ↓reduceIte, List.length_drop, true_implies]
        omega
      · simp only [hl, ↓reduceIte, List.length_drop]
        exact ⟨by omega, by intro h; cases h⟩

theorem readScalar_length {α : Type} (r r1 : reader) (size : Nat) (dec : List Nat → α)
    (res : Except GoError α) (h : readScalar r size dec = (res, r1)) :
    r1.input.length ≤ r.input.length
    ∧ (∀ v, res = .ok v → r1.input.length + size = r.input.length) := by
  have hl := ioReadFull_length r size
  unfold readScalar at h
  rcases hrf : ioReadFull r size with ⟨⟨bs, _ | err⟩, r2⟩
  · rw [hrf] at h hl
    simp only [Prod.mk.injEq] at h
    obtain ⟨_, hr⟩ := h
    subst hr
    exact ⟨hl.1, fun _ _ => hl.2 rfl⟩
  · rw [hrf] at h hl
    simp only [Prod.mk.injEq] at h
    obtain ⟨hres, hr⟩ := h
    subst hr hres
    exact ⟨hl.1, fun v hv => by cases hv⟩

theorem readLETag_length (r r1 : reader) (res : Except GoError Nat)
    (h : readLETag r = (res, r1)) :
    r1.input.length ≤ r.input.length
    ∧ (∀ tg, res = .ok tg → r1.input.length + 4 = r.input.length) := by
  unfold readLETag at h
  rcases h1 : r.ReadUint16LE with ⟨_ | g, r2⟩
  · rw [h1] at h
    simp only [Prod.mk.injEq] at h
    obtain ⟨hres, hr⟩ := h
    subst hr hres
    exact ⟨(readScalar_length _ _ _ _ _ h1).1, fun _ hv => by cases hv⟩
  · rw [h1] at h
    have l1 := (readScalar_length _ _ _ _ _ h1).2 g rfl
    simp only at h
    rcases h2 : r2.ReadUint16LE with ⟨_ | e, r3⟩
    · rw [h2] at h
      have l2 := (readScalar_length _ _ _ _ _ h2).1
      simp only at h
      split_ifs at h <;> simp only [Prod.mk.injEq] at h <;> obtain ⟨hres, hr⟩ := h <;>
        subst hr hres <;> exact ⟨by omega, fun _ hv => by cases hv⟩
    · rw [h2] at h
      have l2 := (readScalar_length _ _ _ _ _ h2).2 e rfl
      simp only [Prod.mk.injEq] at h
      obtain ⟨_, hr⟩ := h
      subst hr
      exact ⟨by omega, fun _ _ => by omega⟩

theorem ReadString_length (r : reader) (n : Nat) :
    (r.ReadString n).2.input.length ≤ r.input.length := by
  have hl := (ioReadFull_length r n).1
  unfold reader.ReadString
  rcases hrf : ioReadFull r n with ⟨⟨bs, _ | err⟩, r2⟩ <;> rw [hrf] at hl <;> simp only <;>
    split_ifs <;> exact hl

theorem Skip_length (r : reader) (n : Nat) : (r.Skip n).2.input.length ≤ r.input.length := by
  simp [reader.Skip]

theorem readVR_length (tagMap : tag.TagMap) (r : reader) (tg : Nat) :
    (readVR tagMap r tg).2.input.length ≤ r.input.length := by
  unfold readVR
  split_ifs
  · exact Nat.le_refl _
  · exact ReadString_length r 2

theorem readScalar_length_le {α : Type} (r : reader) (size : Nat) (dec : List Nat → α) :
    (readScalar r size dec).2.input.length ≤ r.input.length :=
  (readScalar_length r _ size dec _ rfl).1

theorem readVL_length (r : reader) (vr : GoString) :
    (readVL r vr).2.input.length ≤ r.input.length := by
  unfold readVL
  by_cases hex : (!r.IsExplicit) = true
  · rw [if_pos hex]
    exact readScalar_length_le r 4 _
  · rw [if_neg hex]
    have h1 : (r.ReadUint16).2.input.length ≤ r.input.length := readScalar_length_le r 2 _
    rcases h : r.ReadUint16 with ⟨_ | v, r1⟩ <;> rw [h] at h1
    · simp only
      split_ifs <;> exact h1
    · simp only
      split_ifs
      · exact h1
      · have h2 : (r1.ReadUint32).2.input.length ≤ r1.input.length :=
          readScalar_length_le r1 4 _
        rcases h' : r1.ReadUint32 with ⟨_ | w, r2⟩ <;> rw [h'] at h2 <;> simp only <;>
          exact Nat.le_trans h2 h1

theorem readN_length_le {α : Type} (read : reader → Except GoError α × reader)
    (hread : ∀ r, (read r).2.input.length ≤ r.input.length) :
    ∀ (n : Nat) (r : reader), (readN read n r).2.input.length ≤ r.input.length := by
  intro n
  induction n with
  | zero => intro r; exact Nat.le_refl _
  | succ n ih =>
    intro r
    rw [readN]
    have h1 := hread r
    rcases h : read r with ⟨_ | v, r1⟩ <;> rw [h] at h1
    · exact h1
    · simp only
      have h2 := ih r1
      rcases h' : readN read n r1 with ⟨_ | vs, r2⟩ <;> rw [h'] at h2 <;> simp only <;>
        exact Nat.le_trans h2 h1

/-- The readers of `readValue` for a defined length leave no more input than
they found. -/
theorem readers_length (r : reader) (vl : Nat) :
    (readStringValue r vl).2.input.length ≤ r.input.length
    ∧ (readUint32Value r vl).2.input.length ≤ r.input.length
    ∧ (readUint16Value r vl).2.input.length ≤ r.input.length
    ∧ (readBytesValue r vl).2.input.length ≤ r.input.length
    ∧ (readFloat32Value r vl).2.input.length ≤ r.input.length
    ∧ (readFloat64Value r vl).2.input.length ≤ r.input.length
    ∧ (readInt32Value r vl).2.input.length ≤ r.input.length
    ∧ (readInt16Value r vl).2.input.length ≤ r.input.length := by
  refine ⟨?_, ?_, ?_, ?_, ?_, ?_, ?_, ?_⟩
  · have := ReadString_length r vl
    unfold readStringValue
    rcases h : r.ReadString vl with ⟨_ | s, r1⟩ <;> rw [h] at this <;> exact this
  · have := readN_length_le reader.ReadUint32 (fun r => readScalar_length_le r 4 _) (vl / 4) r
    unfold readUint32Value
    rcases h : readN reader.ReadUint32 (vl / 4) r with ⟨_ | s, r1⟩ <;> rw [h] at this <;>
      exact this
  · have := readN_length_le reader.ReadUint16 (fun r => readScalar_length_le r 2 _) (vl / 2) r
    unfold readUint16Value
    rcases h : readN reader.ReadUint16 (vl / 2) r with ⟨_ | s, r1⟩ <;> rw [h] at this <;>
      exact this
  · have := (ioReadFull_length r vl).1
    unfold readBytesValue
    rcases h : ioReadFull r vl with ⟨⟨bs, _ | err⟩, r1⟩ <;> rw [h] at this <;> simp only
    · exact this
    · split_ifs <;> exact this
  · have := readN_length_le reader.ReadFloat32 (fun r => readScalar_length_le r 4 _) (vl / 4) r
    unfold readFloat32Value
    rcases h : readN reader.ReadFloat32 (vl / 4) r with ⟨_ | s, r1⟩ <;> rw [h] at this <;>
      exact this
  · have := readN_length_le reader.ReadFloat64 (fun r => readScalar_length_le r 8 _) (vl / 8) r
    unfold readFloat64Value
    rcases h : readN reader.ReadFloat64 (vl / 8) r with ⟨_ | s, r1⟩ <;> rw [h] at this <;>
      exact this
  · have := readN_length_le reader.ReadInt32 (fun r => readScalar_length_le r 4 _) (vl / 4) r
    unfold readInt32Value
    rcases h : readN reader.ReadInt32 (vl / 4) r with ⟨_ | s, r1⟩ <;> rw [h] at this <;>
      exact this
  · have := readN_length_le reader.ReadInt16 (fun r => readScalar_length_le r 2 _) (vl / 2) r
    unfold readInt16Value
    rcases h : readN reader.ReadInt16 (vl / 2) r with ⟨_ | s, r1⟩ <;> rw [h] at this <;>
      exact this
/-- No function of the recursive descent hands back more input than it was
given; a returned element has cost at least 4 bytes (`readElement`) or 8 bytes
(`readImpLEElement`). -/
theorem consumed_aux (tagMap : tag.TagMap) (n : Nat) :
    (∀ ds r x, parseAll tagMap n ds r = some x → x.2.2.input.length ≤ r.input.length)
    ∧ (∀ r x, readElement tagMap n r = some x → x.2.input.length ≤ r.input.length
        ∧ (∀ e, x.1 = .ok e → x.2.input.length + 4 ≤ r.input.length))
    ∧ (∀ r x, readImpLEElement tagMap n r = some x → x.2.input.length ≤ r.input.length
        ∧ (∀ e, x.1 = .ok e → x.2.input.length + 8 ≤ r.input.length))
    ∧ (∀ items r x, readSequenceLoop tagMap n items r = some x →
        x.2.input.length ≤ r.input.length)
    ∧ (∀ r x, readSequence tagMap n r = some x → x.2.input.length ≤ r.input.length)
    ∧ (∀ r vr x, readUndefLenValue tagMap n r vr = some x → x.2.input.length ≤ r.input.length)
    ∧ (∀ r vr vl x, readValue tagMap n r vr vl = some x →
        x.2.input.length ≤ r.input.length) := by
  induction n with
  | zero =>
    refine ⟨?_, ?_, ?_, ?_, ?_, ?_, ?_⟩ <;> intros <;> rename_i h <;>
      simp [parseAll, readElement, readImpLEElement, readSequenceLoop, readSequence,
        readUndefLenValue, readValue] at h
  | succ n ih =>
    obtain ⟨ihPA, ihRE, ihRI, ihSL, ihRS, ihRU, ihRV⟩ := ih
    refine ⟨?_, ?_, ?_, ?_, ?_, ?_, ?_⟩
    · intro ds r x h
      rw [parseAll] at h
      cases hre : readElement tagMap n r with
      | none => simp [hre] at h
      | some y =>
        rw [hre] at h
        have hy := (ihRE r y hre).1
        rcases y with ⟨err | elem, r1⟩
        · simp only at h hy
          split_ifs at h <;> simp only [Option.some.injEq] at h <;> subst h <;> exact hy
        · simp only at h hy
          split_ifs at h
          · simp only [Option.some.injEq] at h
            subst h
            exact hy
          · exact Nat.le_trans (ihPA _ _ _ h) hy
    · intro r x h
      rw [readElement] at h
      rcases hlt : readLETag r with ⟨err | tg, r1⟩
      · rw [hlt] at h
        simp only [Option.some.injEq] at h
        subst h
        exact ⟨(readLETag_length _ _ _ hlt).1, fun e he => by cases he⟩
      · rw [hlt] at h
        have l1 := (readLETag_length _ _ _ hlt).2 tg rfl
        simp only at h
        rcases hsq : checkSQMarker tg with err | _ | mk
        · rw [hsq] at h
          simp only [Option.some.injEq] at h
          subst h
          exact ⟨by simp only; omega, fun e he => by cases he⟩
        · rw [hsq] at h
          simp only at h
          have l2 := readVR_length tagMap r1 tg
          rcases hvr : readVR tagMap r1 tg with ⟨err | vr, r2⟩
          · rw [hvr] at h l2
            simp only [Option.some.injEq] at h l2
            subst h
            exact ⟨by simp only; omega, fun e he => by cases he⟩
          · rw [hvr] at h l2
            simp only at h l2
            have l3 := readVL_length r2 vr
            rcases hvl : readVL r2 vr with ⟨err | vl, r3⟩
            · rw [hvl] at h l3
              simp only [Option.some.injEq] at h l3
              subst h
              exact ⟨by simp only; omega, fun e he => by cases he⟩
            · rw [hvl] at h l3
              simp only at h l3
              cases hv : readValue tagMap n r3 vr vl with
              | none => simp [hv] at h
              | some y =>
                rw [hv] at h
                have l4 := ihRV _ _ _ _ hv
                rcases y with ⟨err | value, r4⟩ <;> simp only [Option.some.injEq] at h l4 <;>
                  subst h
                · exact ⟨by simp only; omega, fun e he => by cases he⟩
                · exact ⟨by simp only; omega, fun e _ => by simp only; omega⟩
        · rw [hsq] at h
          have l2 := Skip_length r1 4
          have hs : r1.Skip 4 = (none, (r1.Skip 4).2) := rfl
          rw [hs] at h
          simp only [Option.some.injEq] at h
          subst h
          exact ⟨by simp only; omega, fun e _ => by simp only; omega⟩
    · intro r x h
      rw [readImpLEElement] at h
      rcases hlt : readLETag r with ⟨err | tg, r1⟩
      · rw [hlt] at h
        simp only [Option.some.injEq] at h
        subst h
        exact ⟨(readLETag_length _ _ _ hlt).1, fun e he => by cases he⟩
      · rw [hlt] at h
        have l1 := (readLETag_length _ _ _ hlt).2 tg rfl
        simp only at h
        rcases hvl : r1.ReadUint32LE with ⟨err | vl, r2⟩
        · rw [hvl] at h
          have l2 := (readScalar_length _ _ _ _ _ hvl).1
          simp only [Option.some.injEq] at h
          subst h
          exact ⟨by simp only; omega, fun e he => by cases he⟩
        · rw [hvl] at h
          have l2 := (readScalar_length _ _ _ _ _ hvl).2 vl rfl
          simp only at h
          rcases hsq : checkSQMarker tg with err | _ | mk
          · rw [hsq] at h
            simp only [Option.some.injEq] at h
            subst h
            exact ⟨by simp only; omega, fun e he => by cases he⟩
          · rw [hsq] at h
            simp only at h
            cases hv : readValue tagMap n r2 (tag.VR tagMap tg) vl with
            | none => simp [hv] at h
            | some y =>
              rw [hv] at h
              have l4 := ihRV _ _ _ _ hv
              rcases y with ⟨err | value, r4⟩ <;> simp only [Option.some.injEq] at h l4 <;>
                subst h
              · exact ⟨by simp only; omega, fun e he => by cases he⟩
              · exact ⟨by simp only; omega, fun e _ => by simp only; omega⟩
          · rw [hsq] at h
            simp only [Option.some.injEq] at h
            subst h
            exact ⟨by simp only; omega, fun e _ => by simp only; omega⟩
    · intro items r x h
      rw [readSequenceLoop] at h
      cases hri : readImpLEElement tagMap n r with
      | none => simp [hri] at h
      | some y =>
        rw [hri] at h
        have hy := (ihRI r y hri).1
        rcases y with ⟨err | elem, r1⟩
        · simp only [Option.some.injEq] at h hy
          subst h
          exact hy
        · simp only at h hy
          split_ifs at h with h1 h2
          · simp only [Option.some.injEq] at h
            subst h
            exact hy
          · simp only [Option.some.injEq] at h
            subst h
            exact hy
          · cases hpa : parseAll tagMap n NewDataset r1 with
            | none => simp [hpa] at h
            | some z =>
              rw [hpa] at h
              have hz := ihPA _ _ _ hpa
              rcases z with ⟨_ | err, ds, r2⟩
              · simp only at h hz
                exact Nat.le_trans (ihSL _ _ _ h) (Nat.le_trans hz hy)
              · simp only [Option.some.injEq] at h hz
                subst h
                exact Nat.le_trans hz hy
    · intro r x h
      rw [readSequence] at h
      exact ihSL _ _ _ h
    · intro r vr x h
      rw [readUndefLenValue] at h
      split_ifs at h
      · exact ihRS _ _ h
      · simp only [Option.some.injEq] at h
        subst h
        exact Nat.le_refl _
    · intro r vr vl x h
      obtain ⟨l1, l2, l3, l4, l5, l6, l7, l8⟩ := readers_length r vl
      rw [readValue] at h
      by_cases hu : vl = UndefinedLength
      · rw [if_pos hu] at h
        exact ihRU _ _ _ h
      · rw [if_neg hu] at h
        split_ifs at h <;> simp only [Option.some.injEq] at h <;> subst h <;>
          first | assumption | exact Nat.le_refl _
/-- With fuel of at least the length of the remaining input plus a small
constant, every function of the recursive descent returns. -/
theorem fuel_enough_aux (tagMap : tag.TagMap) (n : Nat) :
    (∀ ds r, r.input.length + 3 ≤ n → (parseAll tagMap n ds r).isSome)
    ∧ (∀ r, r.input.length + 2 ≤ n → (readElement tagMap n r).isSome)
    ∧ (∀ r, r.input.length + 1 ≤ n → (readImpLEElement tagMap n r).isSome)
    ∧ (∀ items r, r.input.length + 2 ≤ n → (readSequenceLoop tagMap n items r).isSome)
    ∧ (∀ r, r.input.length + 3 ≤ n → (readSequence tagMap n r).isSome)
    ∧ (∀ r vr, r.input.length + 4 ≤ n → (readUndefLenValue tagMap n r vr).isSome)
    ∧ (∀ r vr vl, r.input.length + 5 ≤ n → (readValue tagMap n r vr vl).isSome) := by
  induction n with
  | zero =>
    refine ⟨?_, ?_, ?_, ?_, ?_, ?_, ?_⟩ <;> intros <;> omega
  | succ n ih =>
    obtain ⟨ihPA, ihRE, ihRI, ihSL, ihRS, ihRU, ihRV⟩ := ih
    obtain ⟨cPA, cRE, cRI, _, _, _, _⟩ := consumed_aux tagMap n
    refine ⟨?_, ?_, ?_, ?_, ?_, ?_, ?_⟩
    · intro ds r hl
      rw [parseAll]
      obtain ⟨y, hy⟩ := Option.isSome_iff_exists.1 (ihRE r (by omega))
      have hc := (cRE r y hy).2
      rw [hy]
      rcases y with ⟨err | elem, r1⟩
      · simp only
        split_ifs <;> rfl
      · simp only at hc ⊢
        have := hc elem rfl
        split_ifs
        · rfl
        · exact ihPA _ _ (by omega)
    · intro r hl
      rw [readElement]
      rcases hlt : readLETag r with ⟨err | tg, r1⟩
      · rfl
      · have l1 := (readLETag_length _ _ _ hlt).2 tg rfl
        simp only
        rcases hsq : checkSQMarker tg with err | _ | mk
        · rfl
        · simp only
          have l2 := readVR_length tagMap r1 tg
          rcases hvr : readVR tagMap r1 tg with ⟨err | vr, r2⟩
          · rfl
          · rw [hvr] at l2
            simp only at l2 ⊢
            have l3 := readVL_length r2 vr
            rcases hvl : readVL r2 vr with ⟨err | vl, r3⟩
            · rfl
            · rw [hvl] at l3
              simp only at l3 ⊢
              obtain ⟨y, hy⟩ := Option.isSome_iff_exists.1 (ihRV r3 vr vl (by omega))
              rw [hy]
              rcases y with ⟨err | value, r4⟩ <;> rfl
        · rfl
    · intro r hl
      rw [readImpLEElement]
      rcases hlt : readLETag r with ⟨err | tg, r1⟩
      · rfl
      · have l1 := (readLETag_length _ _ _ hlt).2 tg rfl
        simp only
        rcases hvl : r1.ReadUint32LE with ⟨err | vl, r2⟩
        · rfl
        · have l2 := (readScalar_length _ _ _ _ _ hvl).2 vl rfl
          simp only
          rcases hsq : checkSQMarker tg with err | _ | mk
          · rfl
          · simp only
            obtain ⟨y, hy⟩ := Option.isSome_iff_exists.1
              (ihRV r2 (tag.VR tagMap tg) vl (by omega))
            rw [hy]
            rcases y with ⟨err | value, r4⟩ <;> rfl
          · rfl
    · intro items r hl
      rw [readSequenceLoop]
      obtain ⟨y, hy⟩ := Option.isSome_iff_exists.1 (ihRI r (by omega))
      have hc := (cRI r y hy).2
      rw [hy]
      rcases y with ⟨err | elem, r1⟩
      · rfl
      · simp only at hc ⊢
        have l1 := hc elem rfl
        split_ifs
        · rfl
        · rfl
        · obtain ⟨z, hz⟩ := Option.isSome_iff_exists.1 (ihPA NewDataset r1 (by omega))
          have l2 := cPA _ _ _ hz
          rw [hz]
          rcases z with ⟨_ | err, ds, r2⟩
          · simp only at l2 ⊢
            exact ihSL _ _ (by omega)
          · rfl
    · intro r hl
      rw [readSequence]
      exact ihSL _ _ (by omega)
    · intro r vr hl
      rw [readUndefLenValue]
      split_ifs
      · exact ihRS _ (by omega)
      · rfl
    · intro r vr vl hl
      rw [readValue]
      by_cases hu : vl = UndefinedLength
      · rw [if_pos hu]
        exact ihRU _ _ (by omega)
      · rw [if_neg hu]
        split_ifs <;> rfl

/-- The fuel the entry points supply is enough for `parseAll`. -/
theorem parseAll_fuelFor (tagMap : tag.TagMap) (stream : List Nat) (ds : Dataset) (r : reader)
    (h : r.input.length ≤ stream.length) :
    ∃ x, parseAll tagMap (fuelFor stream) ds r = some x :=
  Option.isSome_iff_exists.1
    ((fuel_enough_aux tagMap (fuelFor stream)).1 ds r (by unfold fuelFor; omega))

/-- A result of `parseAll` at any fuel is its result at the fuel of the entry
points. -/
theorem parseAll_at_fuelFor (tagMap : tag.TagMap) (stream : List Nat) (ds : Dataset)
    (r : reader) (h : r.input.length ≤ stream.length) (fuel : Nat)
    (x : Option GoError × Dataset × reader) (hx : parseAll tagMap fuel ds r = some x) :
    parseAll tagMap (fuelFor stream) ds r = some x := by
  obtain ⟨y, hy⟩ := parseAll_fuelFor tagMap stream ds r h
  rcases Nat.le_total fuel (fuelFor stream) with hle | hle
  · exact parseAll_fuel_mono tagMap hle hx
  · have := parseAll_fuel_mono tagMap hle hy
    rw [hx] at this
    rw [hy, ← Option.some.inj this]

/-! ### Top-level parsing -/

/-- Behind a well-formed header `readElement` hands the value to `readValue`. -/
theorem readElement_header_aux (tagMap : tag.TagMap) (fuel : Nat) (ex : Bool) (t : Nat)
    (vr reserved lf rest : List Nat) (k : Nat) (hok : HeaderOK tagMap ex t vr reserved lf) :
    readElement tagMap (fuel + 1)
        ⟨ex, headerBytes ex t vr reserved lf ++ rest, k, .LittleEndian⟩
      = match readValue tagMap fuel
            ⟨ex, rest, k + (headerBytes ex t vr reserved lf).length, .LittleEndian⟩ vr
            (headerVL ex vr lf) with
        | none => none
        | some (.error err, r4) => some (.error (nearByteError r4 err), r4)
        | some (.ok value, r4) => some (.ok (NewElement t vr (headerVL ex vr lf) value), r4) := by
  obtain ⟨ht, h1, h2, h3, hvr, hres, hlf, hdict⟩ := hok
  rw [readElement]
  cases ex with
  | false =>
    simp only [Bool.false_eq_true, false_and, ↓reduceIte] at hlf
    have hrd := readScalar_of_length (ByteOrder.LittleEndian.Uint32 ·) false lf rest (k + 4) 4
      .LittleEndian hlf
    simp only [headerBytes, headerVL, Bool.false_eq_true, false_and, ↓reduceIte,
      List.append_assoc, readLETag_tagBytes _ _ ht, checkSQMarker_other _ h1 h2 h3, readVR,
      reader.IsExplicit, Bool.not_false, hdict rfl, readVL, reader.ReadUint32, hrd,
      List.length_append, length_tagBytes, hlf, Nat.add_assoc]
  | true =>
    by_cases hs : vr ∈ shortVLs
    · simp only [hs, and_self, ↓reduceIte] at hlf
      have hstr := ReadString_of_length true vr (lf ++ rest) (k + 4) 2 .LittleEndian hvr
      have hrd := readScalar_of_length (ByteOrder.LittleEndian.Uint16 ·) true lf rest
        (k + 4 + 2) 2 .LittleEndian hlf
      simp only [headerBytes, headerVL, hs, and_self, ↓reduceIte, List.append_assoc,
        readLETag_tagBytes _ _ ht, checkSQMarker_other _ h1 h2 h3, readVR, reader.IsExplicit,
        Bool.not_true, Bool.false_eq_true, hstr, readVL, decide_True, reader.ReadUint16, hrd,
        List.length_append, length_tagBytes, hlf, hvr, Nat.add_assoc]
    · simp only [hs, and_false, ↓reduceIte] at hlf
      have hstr := ReadString_of_length true vr (reserved ++ (lf ++ rest)) (k + 4) 2
        .LittleEndian hvr
      have hr := readScalar_of_length (ByteOrder.LittleEndian.Uint16 ·) true reserved
        (lf ++ rest) (k + 4 + 2) 2 .LittleEndian hres
      have hrd := readScalar_of_length (ByteOrder.LittleEndian.Uint32 ·) true lf rest
        (k + 4 + 2 + 2) 4 .LittleEndian hlf
      simp only [headerBytes, headerVL, hs, and_false, ↓reduceIte, List.append_assoc,
        readLETag_tagBytes _ _ ht, checkSQMarker_other _ h1 h2 h3, readVR, reader.IsExplicit,
        Bool.not_true, Bool.false_eq_true, hstr, readVL, decide_False, reader.ReadUint16,
        reader.ReadUint32, hr, hrd, List.length_append, length_tagBytes, hlf, hvr, hres,
        Nat.add_assoc]

theorem readValue_unsupported_aux (tagMap : tag.TagMap) (fuel : Nat) (r : reader)
    (vr : GoString) (vl : Nat) (hvr : vr ∉ valueVRs) (hvl : vl ≠ UndefinedLength) :
    readValue tagMap (fuel + 1) r vr vl
      = some (.error (dcmerr.Errorf dcmerr.ErrIO (ascii "unsupported VR: " ++ vr)), r) := by
  simp only [valueVRs, List.mem_append, List.mem_cons, List.mem_singleton, List.not_mem_nil,
    or_false, not_or] at hvr
  obtain ⟨ht, hUL, hUS, hxs, hOB, hUN, hox, hpx, hFL, hFD, hSL, hSS, hOW⟩ := hvr
  rw [readValue, if_neg hvl, if_neg ht, if_neg hUL, if_neg (by tauto), if_neg (by tauto),
    if_neg hFL, if_neg hFD, if_neg hSL, if_neg (by tauto)]

/-- The loop of `parseAll` over complete elements, none an `SQ_ITEM_DELIM`
marker: each is put and the loop goes on behind them. -/
theorem parseAll_prefix (tagMap : tag.TagMap) (ex : Bool) (body : List (List Nat × Element))
    (hb : ∀ p ∈ body, DecodesTo tagMap ex p.1 p.2 ∧ p.2.Tag ≠ SQItemDelim) :
    ∃ fuel0, ∀ fuel, fuel0 ≤ fuel → ∀ (ds : Dataset) (rest : List Nat) (k : Nat),
      parseAll tagMap (fuel + body.length) ds ⟨ex, bodyBytes body ++ rest, k, .LittleEndian⟩
        = parseAll tagMap fuel (putAll ds body)
            ⟨ex, rest, k + (bodyBytes body).length, .LittleEndian⟩ := by
  induction body with
  | nil => exact ⟨0, fun fuel _ ds rest k => rfl⟩
  | cons p body ih =>
    obtain ⟨f2, ih⟩ := ih (fun q hq => hb q (List.mem_cons_of_mem _ hq))
    obtain ⟨⟨f1, h1⟩, hn⟩ := hb p (List.mem_cons_self _ _)
    refine ⟨max f1 f2, ?_⟩
    intro fuel hf ds rest k
    have hbytes : bodyBytes (p :: body) ++ rest = p.1 ++ (bodyBytes body ++ rest) := by
      simp [bodyBytes, List.append_assoc]
    have hlen : fuel + (p :: body).length = (fuel + body.length) + 1 := by
      simp only [List.length_cons]; omega
    rw [hlen, parseAll, hbytes,
      readElement_fuel_mono tagMap (by omega : f1 ≤ fuel + body.length) (h1 _ k)]
    simp only [hn, ↓reduceIte]
    rw [ih fuel (by omega)]
    simp only [putAll, List.foldl_cons, bodyBytes, List.map_cons, List.flatten_cons,
      List.length_append, Nat.add_assoc]

/-- From the loop to the entry point: when the loop over the rest of the stream
ends with `res`, `Parse` on the whole stream returns what `res` says. -/
theorem Parse_of_prefix (tagMap : tag.TagMap) (ex : Bool) (body : List (List Nat × Element))
    (hb : ∀ p ∈ body, DecodesTo tagMap ex p.1 p.2 ∧ p.2.Tag ≠ SQItemDelim) (rest : List Nat)
    (res : Dataset → Nat → Option GoError × Dataset × reader) (fT : Nat)
    (hT : ∀ fuel, fT ≤ fuel → ∀ ds k,
      parseAll tagMap fuel ds ⟨ex, rest, k, .LittleEndian⟩ = some (res ds k)) :
    parseAll tagMap (fuelFor (bodyBytes body ++ rest)) NewDataset
        (NewReader (bodyBytes body ++ rest) .LittleEndian ex)
      = some (res (putAll NewDataset body) (0 + (bodyBytes body).length)) := by
  obtain ⟨f0, h0⟩ := parseAll_prefix tagMap ex body hb
  apply parseAll_at_fuelFor tagMap _ _ _ (Nat.le_refl _) (max f0 fT + body.length)
  unfold NewReader
  rw [h0 (max f0 fT) (by omega), hT (max f0 fT) (by omega)]
theorem parseAll_at_unsupported (tagMap : tag.TagMap) (ex : Bool) (t : Nat)
    (vr reserved lf rest : List Nat) (hok : HeaderOK tagMap ex t vr reserved lf)
    (hvr : vr ∉ valueVRs) (hvl : headerVL ex vr lf ≠ UndefinedLength) :
    ∀ fuel, 3 ≤ fuel → ∀ ds k,
      parseAll tagMap fuel ds ⟨ex, headerBytes ex t vr reserved lf ++ rest, k, .LittleEndian⟩
        = some (some (nearByteError
              ⟨ex, rest, k + (headerBytes ex t vr reserved lf).length, .LittleEndian⟩
              (dcmerr.Errorf dcmerr.ErrIO (ascii "unsupported VR: " ++ vr))), ds,
            ⟨ex, rest, k + (headerBytes ex t vr reserved lf).length, .LittleEndian⟩) := by
  intro fuel hf ds k
  obtain ⟨f, rfl⟩ : ∃ f, fuel = f + 3 := ⟨fuel - 3, by omega⟩
  rw [parseAll, readElement_header_aux tagMap (f + 1) ex t vr reserved lf rest k hok,
    readValue_unsupported_aux tagMap f _ vr _ hvr hvl]
  rfl

/-- Claim C15: for every defined `vl` and every VR for which `readValue` has no
case (the claim's list and `SQ` excluded, so `AT` among them), `readValue` fails
with the IO error `unsupported VR` and leaves the reader as it was; and `Parse`
on a stream that reaches such an element at top level — complete elements, none
an `SQ_ITEM_DELIM` marker, then the element's header in either mode — returns an
error of kind IO and no dataset. -/
theorem readValue_unsupported_VR (tagMap : tag.TagMap) (fuel : Nat) (r : reader)
    (vr : GoString) (vl : Nat) (hvr : vr ∉ valueVRs) (hvl : vl ≠ UndefinedLength) :
    readValue tagMap (fuel + 1) r vr vl
      = some (.error (dcmerr.Errorf dcmerr.ErrIO (ascii "unsupported VR: " ++ vr)), r)
    ∧ ∀ (ex : Bool) (body : List (List Nat × Element)) (t : Nat) (reserved lf rest : List Nat),
        (∀ p ∈ body, DecodesTo tagMap ex p.1 p.2 ∧ p.2.Tag ≠ SQItemDelim) →
        HeaderOK tagMap ex t vr reserved lf → headerVL ex vr lf = vl →
        ∃ err, Parse tagMap (bodyBytes body ++ (headerBytes ex t vr reserved lf ++ rest)) ex
            = some (.error err)
          ∧ dcmerr.code? err = some dcmerr.ErrIO := by
  refine ⟨readValue_unsupported_aux tagMap fuel r vr vl hvr hvl, ?_⟩
  intro ex body t reserved lf rest hb hok hl
  have h := Parse_of_prefix tagMap ex body hb (headerBytes ex t vr reserved lf ++ rest) _ 3
    (parseAll_at_unsupported tagMap ex t vr reserved lf rest hok hvr (hl ▸ hvl))
  unfold Parse
  simp only [h]
  exact ⟨_, rfl, rfl⟩

/-- Claim C15 at the explicit-VR element `(0028,0009) AT` of length 4. -/
theorem Parse_AT_element :
    readValue exampleTags 1 ⟨true, [0x18, 0x00, 0x63, 0x10], 8, .LittleEndian⟩ (ascii "AT") 4
      = some (.error (dcmerr.Errorf dcmerr.ErrIO (ascii "unsupported VR: AT")),
          ⟨true, [0x18, 0x00, 0x63, 0x10], 8, .LittleEndian⟩)
    ∧ ∃ err, Parse exampleTags exampleATBytes true = some (.error err)
      ∧ dcmerr.code? err = some dcmerr.ErrIO := by
  obtain ⟨h1, h2⟩ := readValue_unsupported_VR exampleTags 0
    ⟨true, [0x18, 0x00, 0x63, 0x10], 8, .LittleEndian⟩ (ascii "AT") 4 (by decide) (by decide)
  refine ⟨h1, ?_⟩
  exact h2 true [] 0x00280009 [0, 0] [0x04, 0x00] [0x18, 0x00, 0x63, 0x10]
    (fun p hp => absurd hp (List.not_mem_nil _))
    ⟨by decide, by decide, by decide, by decide, rfl, rfl, by decide, fun h => absurd h (by decide)⟩
    (by decide)

theorem DecodesTo_at_fuel_aux (tagMap : tag.TagMap) (ex : Bool) (bs : List Nat) (e : Element)
    (h : DecodesTo tagMap ex bs e) (rest : List Nat) (k fuel : Nat)
    (hf : (bs ++ rest).length + 2 ≤ fuel) :
    readElement tagMap fuel ⟨ex, bs ++ rest, k, .LittleEndian⟩
      = some (.ok e, ⟨ex, rest, k + bs.length, .LittleEndian⟩) := by
  obtain ⟨f1, h⟩ := h
  have h1 := h rest k
  obtain ⟨y, hy⟩ := Option.isSome_iff_exists.1
    ((fuel_enough_aux tagMap fuel).2.1 ⟨ex, bs ++ rest, k, .LittleEndian⟩ hf)
  rcases Nat.le_total f1 fuel with hle | hle
  · exact readElement_fuel_mono tagMap hle h1
  · have h2 := readElement_fuel_mono tagMap hle hy
    rw [h1] at h2
    rw [hy, h2]

theorem parseAll_at_end (tagMap : tag.TagMap) (ex : Bool) :
    ∀ fuel, 2 ≤ fuel → ∀ ds k,
      parseAll tagMap fuel ds ⟨ex, [], k, .LittleEndian⟩
        = some (none, ds, ⟨ex, [], k, .LittleEndian⟩) := by
  intro fuel hf ds k
  obtain ⟨f, rfl⟩ : ∃ f, fuel = f + 2 := ⟨fuel - 2, by omega⟩
  rw [parseAll, readElement]
  rfl

theorem examplePN_decodes : DecodesTo exampleTags true examplePNBytes examplePN :=
  ⟨2, fun rest k => readElement_text_aux exampleTags 0 0x00100010 k (ascii "PN") (ascii "AB^C")
    rest (by decide) (by decide) (by decide) (by decide) (by decide) (by decide)⟩

theorem parseAll_at_truncated_tag (tagMap : tag.TagMap) (ex : Bool) (tail : List Nat)
    (ht : tail.length = 2 ∨ tail.length = 3) :
    ∃ res : Dataset → Nat → Option GoError × Dataset × reader,
      (∀ fuel, 2 ≤ fuel → ∀ ds k,
        parseAll tagMap fuel ds ⟨ex, tail, k, .LittleEndian⟩ = some (res ds k))
      ∧ ∀ ds k, ∃ err, (res ds k).1 = some err
          ∧ dcmerr.code? err = some dcmerr.ErrUnexpectedEOF := by
  rcases ht with ht | ht
  · obtain ⟨g0, g1, rfl⟩ : ∃ g0 g1, tail = [g0, g1] := by
      match tail, ht with
      | [a, b], _ => exact ⟨a, b, rfl⟩
    refine ⟨fun ds k => (some (dcmerr.Errorf dcmerr.ErrUnexpectedEOF
      (dcmerr.nearByteMsg (k + 2) (ascii "EOF"))), ds, ⟨ex, [], k + 2, .LittleEndian⟩), ?_, ?_⟩
    · intro fuel hf ds k
      obtain ⟨f, rfl⟩ : ∃ f, fuel = f + 2 := ⟨fuel - 2, by omega⟩
      rw [parseAll, readElement]
      rfl
    · intro ds k
      exact ⟨_, rfl, rfl⟩
  · obtain ⟨g0, g1, x, rfl⟩ : ∃ g0 g1 x, tail = [g0, g1, x] := by
      match tail, ht with
      | [a, b, c], _ => exact ⟨a, b, c, rfl⟩
    refine ⟨fun ds k => (some (dcmerr.Errorf dcmerr.ErrUnexpectedEOF
      (dcmerr.nearByteMsg (k + 2 + 1) (ascii "unexpected EOF"))), ds,
      ⟨ex, [], k + 2 + 1, .LittleEndian⟩), ?_, ?_⟩
    · intro fuel hf ds k
      obtain ⟨f, rfl⟩ : ∃ f, fuel = f + 2 := ⟨fuel - 2, by omega⟩
      rw [parseAll, readElement]
      rfl
    · intro ds k
      exact ⟨_, rfl, rfl⟩

/-- Claim C17, counterexample: the eight bytes of an `SQ_ITEM_DELIM` marker are
a complete element for `readElement`, and when the two bytes of a group word
follow them `Parse` returns the empty dataset and no error: the loop ends at
the marker and never reads the truncated tag. -/
theorem Parse_delim_then_truncated_tag :
    DecodesTo exampleTags true (tagBytes SQItemDelim ++ [0, 0, 0, 0])
        (NewElement SQItemDelim [] UndefinedLength .emptyValue)
    ∧ Parse exampleTags (tagBytes SQItemDelim ++ [0, 0, 0, 0] ++ [0x10, 0x00]) true
        = some (.ok NewDataset) := by
  refine ⟨⟨1, fun rest k => ?_⟩, by decide!⟩
  exact readElement_itemDelim exampleTags 0 true [0, 0, 0, 0] rest k .LittleEndian rfl

/-- Claim C17, amended: when the stream consists of complete top-level elements,
none of them an `SQ_ITEM_DELIM` marker, followed by 2 or 3 further bytes (the
group word of a tag and at most one byte of its element word), `Parse` fails with an error of kind UnexpectedEOF and returns no dataset. -/
theorem Parse_truncated_tag (tagMap : tag.TagMap) (ex : Bool)
    (body : List (List Nat × Element)) (tail : List Nat)
    (hb : ∀ p ∈ body, DecodesTo tagMap ex p.1 p.2 ∧ p.2.Tag ≠ SQItemDelim)
    (ht : tail.length = 2 ∨ tail.length = 3) :
    ∃ err, Parse tagMap (bodyBytes body ++ tail) ex = some (.error err)
      ∧ dcmerr.code? err = some dcmerr.ErrUnexpectedEOF := by
  obtain ⟨res, hres, herr⟩ := parseAll_at_truncated_tag tagMap ex tail ht
  have h := Parse_of_prefix tagMap ex body hb tail res 2 hres
  obtain ⟨err, he, hc⟩ := herr (putAll NewDataset body) (0 + (bodyBytes body).length)
  refine ⟨err, ?_, hc⟩
  unfold Parse
  rcases hr : res (putAll NewDataset body) (0 + (bodyBytes body).length) with ⟨e1, d1, r1⟩
  rw [hr] at h he
  simp only at he
  subst he
  simp only [h]

/-- Claim C17 at one `PN` element followed by the three bytes `10 00 20`. -/
theorem Parse_truncated_tag_example :
    ∃ err, Parse exampleTags (examplePNBytes ++ [0x10, 0x00, 0x20]) true = some (.error err)
      ∧ dcmerr.code? err = some dcmerr.ErrUnexpectedEOF := by
  have h := Parse_truncated_tag exampleTags true [(examplePNBytes, examplePN)] [0x10, 0x00, 0x20]
    (fun p hp => by
      have : p = (examplePNBytes, examplePN) := by simpa using hp
      subst this
      exact ⟨examplePN_decodes, by decide⟩) (Or.inr rfl)
  have hb : bodyBytes [(examplePNBytes, examplePN)] = examplePNBytes := by
    simp [bodyBytes]
  rw [hb] at h
  exact h

/-! ### Parsing up to a ceiling tag -/

theorem readLETagBytes_eq (b0 b1 b2 b3 : Nat) (h0 : b0 < 256) (h1 : b1 < 256) (h2 : b2 < 256)
    (h3 : b3 < 256) :
    readLETagBytes [b0, b1, b2, b3] = (((b0 + b1 * 256) <<< 16) % 2 ^ 32) ||| (b2 + b3 * 256) := by
  rw [tag_of_words _ _ (by omega) (by omega)]
  unfold readLETagBytes
  have e1 : b3 <<< 8 = 2 ^ 8 * b3 := by rw [Nat.shiftLeft_eq, Nat.mul_comm]
  have e2 : b0 <<< 16 = 2 ^ 16 * b0 := by rw [Nat.shiftLeft_eq, Nat.mul_comm]
  have e3 : b1 <<< 24 = 2 ^ 24 * b1 := by rw [Nat.shiftLeft_eq, Nat.mul_comm]
  have o1 : 2 ^ 8 * b3 + b2 = 2 ^ 8 * b3 ||| b2 := Nat.mul_add_lt_is_or (by omega) b3
  have o2 : 2 ^ 16 * b0 + (2 ^ 8 * b3 + b2) = 2 ^ 16 * b0 ||| (2 ^ 8 * b3 + b2) :=
    Nat.mul_add_lt_is_or (by omega) b0
  have o3 : 2 ^ 24 * b1 + (2 ^ 16 * b0 + (2 ^ 8 * b3 + b2))
      = 2 ^ 24 * b1 ||| (2 ^ 16 * b0 + (2 ^ 8 * b3 + b2)) :=
    Nat.mul_add_lt_is_or (by omega) b1
  have hsum : (b0 + b1 * 256) * 65536 + (b2 + b3 * 256)
      = 2 ^ 24 * b1 + (2 ^ 16 * b0 + (2 ^ 8 * b3 + b2)) := by omega
  rw [hsum, o3, o2, o1]
  show b0 <<< 16 ||| b1 <<< 24 ||| b2 ||| b3 <<< 8 = _
  rw [e1, e2, e3]
  rw [Nat.lor_comm (2 ^ 16 * b0) (2 ^ 24 * b1), Nat.lor_assoc, Nat.lor_assoc,
    Nat.lor_comm b2 (2 ^ 8 * b3)]

/-- In front of a tag that is no marker `readElementPeek` either stops (tag above
the ceiling) or does what `readElement` does. -/
theorem readElementPeek_nonmarker_aux (tagMap : tag.TagMap) (fuel : Nat) (ex : Bool)
    (b0 b1 b2 b3 : Nat) (rest : List Nat) (k : Nat) (o : ByteOrder) (maxTag : Nat)
    (h0 : b0 < 256) (h1 : b1 < 256) (h2 : b2 < 256) (h3 : b3 < 256)
    (hsq : checkSQMarker ((((b0 + b1 * 256) <<< 16) % 2 ^ 32) ||| (b2 + b3 * 256)) = .ok none) :
    readElementPeek tagMap fuel ⟨ex, b0 :: b1 :: b2 :: b3 :: rest, k, o⟩ maxTag
      = if (((b0 + b1 * 256) <<< 16) % 2 ^ 32) ||| (b2 + b3 * 256) > maxTag then
          some (.error dcmerr.NewErrEOF, ⟨ex, b0 :: b1 :: b2 :: b3 :: rest, k, o⟩)
        else readElement tagMap (fuel + 1) ⟨ex, b0 :: b1 :: b2 :: b3 :: rest, k, o⟩ := by
  have hpeek : reader.Peek ⟨ex, b0 :: b1 :: b2 :: b3 :: rest, k, o⟩ 4
      = ([b0, b1, b2, b3], none) := by
    simp [reader.Peek]
  have hskip : reader.Skip ⟨ex, b0 :: b1 :: b2 :: b3 :: rest, k, o⟩ 4
      = (none, ⟨ex, rest, k + 2 + 2, o⟩) := by
    simp [reader.Skip, Nat.add_assoc]
  have htake : List.take 4 [b0, b1, b2, b3] = [b0, b1, b2, b3] := rfl
  have hlt : readLETag ⟨ex, b0 :: b1 :: b2 :: b3 :: rest, k, o⟩
      = (.ok ((((b0 + b1 * 256) <<< 16) % 2 ^ 32) ||| (b2 + b3 * 256)),
          ⟨ex, rest, k + 2 + 2, o⟩) := by
    simp only [readLETag, ReadUint16LE_cons]
  unfold readElementPeek
  rw [hpeek]
  simp only [htake, readLETagBytes_eq b0 b1 b2 b3 h0 h1 h2 h3]
  by_cases hgt : (((b0 + b1 * 256) <<< 16) % 2 ^ 32) ||| (b2 + b3 * 256) > maxTag
  · rw [if_pos hgt, if_pos hgt]
  · rw [if_neg hgt, if_neg hgt, hsq, readElement, hlt]
    simp only [hsq, hskip]

theorem DecodesTo_head_aux (tagMap : tag.TagMap) (ex : Bool) (bs : List Nat) (e : Element)
    (h : DecodesTo tagMap ex bs e) :
    ∃ b0 b1 b2 b3 tl, bs = b0 :: b1 :: b2 :: b3 :: tl
      ∧ (((b0 + b1 * 256) <<< 16) % 2 ^ 32) ||| (b2 + b3 * 256) = e.Tag := by
  obtain ⟨fuel, h⟩ := h
  have h0 := h [] 0
  rw [List.append_nil] at h0
  cases fuel with
  | zero => rw [readElement] at h0; cases h0
  | succ fuel =>
    obtain ⟨tg, r2, hlt, htag, -⟩ := readElement_ok_inv tagMap fuel _ _ e h0
    have hlen := (readLETag_length _ _ _ hlt).2 tg rfl
    simp only at hlen
    rcases bs with _ | ⟨b0, _ | ⟨b1, _ | ⟨b2, _ | ⟨b3, tl⟩⟩⟩⟩
    · simp at hlen
    · simp at hlen
    · simp at hlen
    · simp at hlen
    · refine ⟨b0, b1, b2, b3, tl, rfl, ?_⟩
      simp only [readLETag, ReadUint16LE_cons, Prod.mk.injEq, Except.ok.injEq] at hlt
      rw [htag]
      exact hlt.1

theorem parseUntil_body_aux (tagMap : tag.TagMap) (ex : Bool) (maxTag : Nat) :
    ∀ (body : List (List Nat × Element)),
      (∀ p ∈ body, DecodesTo tagMap ex p.1 p.2 ∧ NonMarker p.2) →
      (∀ b ∈ bodyBytes body, b < 256) →
      ∀ fuel ds k, (bodyBytes body).length + 2 ≤ fuel →
        ∃ r1, parseUntil tagMap maxTag fuel ds ⟨ex, bodyBytes body, k, .LittleEndian⟩
          = some (none, putAll ds (untilPrefix maxTag body), r1) := by
  intro body
  induction body with
  | nil =>
    intro _ _ fuel ds k hf
    obtain ⟨f, rfl⟩ : ∃ f, fuel = f + 1 := ⟨fuel - 1, by omega⟩
    exact ⟨_, rfl⟩
  | cons p body ih =>
    intro hb hbytes fuel ds k hf
    obtain ⟨f, rfl⟩ : ∃ f, fuel = f + 1 := ⟨fuel - 1, by omega⟩
    have hp := hb p (List.mem_cons_self _ _)
    obtain ⟨b0, b1, b2, b3, tl, hbs, htag⟩ := DecodesTo_head_aux tagMap ex p.1 p.2 hp.1
    have hcons : bodyBytes (p :: body) = p.1 ++ bodyBytes body := by
      simp [bodyBytes]
    rw [hcons] at hbytes hf ⊢
    have hdec := DecodesTo_at_fuel_aux tagMap ex p.1 p.2 hp.1 (bodyBytes body) k (f + 1) hf
    have hlen4 : 4 ≤ p.1.length := by rw [hbs]; simp
    have hsq : checkSQMarker ((((b0 + b1 * 256) <<< 16) % 2 ^ 32) ||| (b2 + b3 * 256))
        = .ok none := by
      rw [htag]; exact checkSQMarker_other _ hp.2.1 hp.2.2.1 hp.2.2.2
    have hpk := readElementPeek_nonmarker_aux tagMap f ex b0 b1 b2 b3 (tl ++ bodyBytes body) k
      .LittleEndian maxTag
      (hbytes b0 (by rw [hbs]; simp)) (hbytes b1 (by rw [hbs]; simp))
      (hbytes b2 (by rw [hbs]; simp)) (hbytes b3 (by rw [hbs]; simp)) hsq
    have hin : p.1 ++ bodyBytes body = b0 :: b1 :: b2 :: b3 :: (tl ++ bodyBytes body) := by
      rw [hbs]; rfl
    rw [← hin, htag] at hpk
    rw [parseUntil, hpk]
    by_cases hgt : p.2.Tag > maxTag
    · rw [if_pos hgt]
      have hu : untilPrefix maxTag (p :: body) = [] := by
        rw [untilPrefix, if_pos hgt]
      rw [hu]
      exact ⟨_, rfl⟩
    · rw [if_neg hgt, hdec]
      simp only
      rw [if_neg hp.2.2.1]
      by_cases heq : p.2.Tag = maxTag
      · rw [if_pos heq]
        have hu : untilPrefix maxTag (p :: body) = [p] := by
          rw [untilPrefix, if_neg hgt, if_pos heq]
        rw [hu]
        exact ⟨_, rfl⟩
      · rw [if_neg heq]
        have hu : untilPrefix maxTag (p :: body) = p :: untilPrefix maxTag body := by
          rw [untilPrefix, if_neg hgt, if_neg heq]
        rw [hu]
        have hf2 : (bodyBytes body).length + 2 ≤ f := by
          rw [List.length_append] at hf; omega
        exact ih (fun q hq => hb q (List.mem_cons_of_mem _ hq))
          (fun b hb2 => hbytes b (List.mem_append_right _ hb2)) f _ _ hf2

theorem untilPrefix_spec_aux (maxTag : Nat) (body : List (List Nat × Element)) :
    (∃ tl, body = untilPrefix maxTag body ++ tl
      ∧ ∀ q, tl.head? = some q →
          q.2.Tag > maxTag ∨ ∃ l ∈ untilPrefix maxTag body, l.2.Tag = maxTag)
    ∧ (∀ p ∈ untilPrefix maxTag body, p.2.Tag ≤ maxTag)
    ∧ (∀ p ∈ (untilPrefix maxTag body).dropLast, p.2.Tag ≠ maxTag) := by
  induction body with
  | nil =>
    refine ⟨⟨[], rfl, ?_⟩, ?_, ?_⟩
    · intro q hq; cases hq
    · intro p hp; cases hp
    · intro p hp; cases hp
  | cons p body ih =>
    obtain ⟨⟨tl, htl, hhead⟩, hle, hne⟩ := ih
    by_cases hgt : p.2.Tag > maxTag
    · have hu : untilPrefix maxTag (p :: body) = [] := by rw [untilPrefix, if_pos hgt]
      rw [hu]
      refine ⟨⟨p :: body, rfl, ?_⟩, ?_, ?_⟩
      · intro q hq
        simp only [List.head?_cons, Option.some.injEq] at hq
        subst hq
        exact Or.inl hgt
      · intro q hq; cases hq
      · intro q hq; cases hq
    · by_cases heq : p.2.Tag = maxTag
      · have hu : untilPrefix maxTag (p :: body) = [p] := by
          rw [untilPrefix, if_neg hgt, if_pos heq]
        rw [hu]
        refine ⟨⟨body, rfl, ?_⟩, ?_, ?_⟩
        · intro q _
          exact Or.inr ⟨p, List.mem_singleton.2 rfl, heq⟩
        · intro q hq
          rw [List.mem_singleton.1 hq]
          exact Nat.le_of_eq heq
        · intro q hq; cases hq
      · have hu : untilPrefix maxTag (p :: body) = p :: untilPrefix maxTag body := by
          rw [untilPrefix, if_neg hgt, if_neg heq]
        rw [hu]
        refine ⟨⟨tl, ?_, ?_⟩, ?_, ?_⟩
        · rw [List.cons_append, ← htl]
        · intro q hq
          rcases hhead q hq with h | ⟨l, hl, hl2⟩
          · exact Or.inl h
          · exact Or.inr ⟨l, List.mem_cons_of_mem _ hl, hl2⟩
        · intro q hq
          rcases List.mem_cons.1 hq with h | h
          · rw [h]; exact Nat.le_of_not_gt hgt
          · exact hle q h
        · intro q hq
          rcases hx : untilPrefix maxTag body with _ | ⟨x, xs⟩
          · rw [hx] at hq; cases hq
          · rw [hx, List.dropLast_cons₂] at hq
            rcases List.mem_cons.1 hq with h | h
            · rw [h]; exact heq
            · exact hne q (by rw [hx]; exact h)

theorem mem_putAll_key (body : List (List Nat × Element)) (ds : Dataset) {p : Nat × Element}
    (h : p ∈ (putAll ds body).elems) : p ∈ ds.elems ∨ ∃ q ∈ body, p = (q.2.Tag, q.2) := by
  induction body generalizing ds with
  | nil => exact Or.inl h
  | cons q body ih =>
    rcases ih (ds.Put (some q.2)) h with h | ⟨q2, hq2, h⟩
    · rcases mem_mapSet h with h | h
      · exact Or.inl h
      · exact Or.inr ⟨q, List.mem_cons_self _ _, h⟩
    · exact Or.inr ⟨q2, List.mem_cons_of_mem _ hq2, h⟩

theorem textElem_decodes_aux (tagMap : tag.TagMap) (t : Nat) (v s : List Nat)
    (ht : t < 2 ^ 32) (h1 : t ≠ SQItem) (h2 : t ≠ SQItemDelim) (h3 : t ≠ SQDelim)
    (hv : v ∈ textVRs) (hs : s.length < 65536) :
    DecodesTo tagMap true (textElem t v s).1 (textElem t v s).2 := by
  refine ⟨2, fun rest k => ?_⟩
  have h := readElement_text_aux tagMap 0 t k v s rest ht h1 h2 h3 hv hs
  have hv2 : v.length = 2 := by
    simp only [textVRs, List.mem_cons, List.mem_singleton, List.not_mem_nil, or_false] at hv
    rcases hv with h | h | h | h | h | h | h | h | h | h | h | h | h | h <;> subst h <;> rfl
  have hl : (textElem t v s).1.length = 8 + s.length := by
    simp [textElem, length_tagBytes, le16, hv2]
    omega
  rw [hl]
  exact h

/-- Claim C18. For a stream of complete top-level elements, none of them an SQ
marker, `ParseUntil` returns the dataset built from `untilPrefix maxTag body`,
and that list is the longest prefix of the stream in which every tag is at most
`maxTag` and no element but the last has the tag `maxTag`: the element that
follows it, if any, has a tag above `maxTag` or follows the element with tag
`maxTag`. Every tag of the resulting dataset is at most `maxTag`. -/
theorem ParseUntil_until_ceiling (tagMap : tag.TagMap) (ex : Bool) (maxTag : Nat)
    (body : List (List Nat × Element))
    (hb : ∀ p ∈ body, DecodesTo tagMap ex p.1 p.2 ∧ NonMarker p.2)
    (hbytes : ∀ b ∈ bodyBytes body, b < 256) :
    ParseUntil tagMap (bodyBytes body) ex maxTag
        = some (.ok (putAll NewDataset (untilPrefix maxTag body)))
    ∧ (∃ tl, body = untilPrefix maxTag body ++ tl
        ∧ ∀ q, tl.head? = some q →
            q.2.Tag > maxTag ∨ ∃ l ∈ untilPrefix maxTag body, l.2.Tag = maxTag)
    ∧ (∀ p ∈ untilPrefix maxTag body, p.2.Tag ≤ maxTag)
    ∧ (∀ p ∈ (untilPrefix maxTag body).dropLast, p.2.Tag ≠ maxTag)
    ∧ (∀ entry ∈ (putAll NewDataset (untilPrefix maxTag body)).elems,
        entry.1 = entry.2.Tag ∧ entry.1 ≤ maxTag) := by
  obtain ⟨hpre, hle, hne⟩ := untilPrefix_spec_aux maxTag body
  refine ⟨?_, hpre, hle, hne, ?_⟩
  · obtain ⟨r1, h⟩ := parseUntil_body_aux tagMap ex maxTag body hb hbytes
      (fuelFor (bodyBytes body)) NewDataset 0 (by unfold fuelFor; omega)
    unfold ParseUntil NewReader
    simp only [h]
  · intro entry he
    rcases mem_putAll_key _ _ he with h | ⟨q, hq, h⟩
    · cases h
    · rw [h]
      exact ⟨rfl, hle q hq⟩

/-- Claim C18 at the stream `(0008,0005), (0008,0020), (0010,0010), (0010,0020)`
with `maxTag = (0010,0010)`: the first three elements are returned. -/
theorem ParseUntil_example :
    ParseUntil exampleTags (bodyBytes untilExample) true 0x00100010
      = some (.ok (putAll NewDataset (untilExample.take 3))) := by
  have hu : untilPrefix 0x00100010 untilExample = untilExample.take 3 := by decide!
  have h := (ParseUntil_until_ceiling exampleTags true 0x00100010 untilExample
    (fun p hp => by
      simp only [untilExample, List.mem_cons, List.mem_singleton, List.not_mem_nil, or_false] at hp
      rcases hp with h | h | h | h <;> subst h
      · exact ⟨textElem_decodes_aux _ _ _ _ (by decide) (by decide) (by decide) (by decide)
          (by decide) (by decide), ⟨by decide, by decide, by decide⟩⟩
      · exact ⟨textElem_decodes_aux _ _ _ _ (by decide) (by decide) (by decide) (by decide)
          (by decide) (by decide), ⟨by decide, by decide, by decide⟩⟩
      · exact ⟨textElem_decodes_aux _ _ _ _ (by decide) (by decide) (by decide) (by decide)
          (by decide) (by decide), ⟨by decide, by decide, by decide⟩⟩
      · exact ⟨textElem_decodes_aux _ _ _ _ (by decide) (by decide) (by decide) (by decide)
          (by decide) (by decide), ⟨by decide, by decide, by decide⟩⟩)
    (by decide!)).1
  rw [hu] at h
  exact h

/-! ### Datasets -/

theorem lookup_mapSet (m : List (Nat × Element)) (k : Nat) (v : Element) (t : Nat) :
    (mapSet m k v).lookup t = if t = k then some v else m.lookup t := by
  induction m with
  | nil =>
    by_cases h : t = k
    · subst h; simp [mapSet, List.lookup]
    · have hb : (t == k) = false := by simpa using h
      simp [mapSet, List.lookup, hb, h]
  | cons q m ih =>
    obtain ⟨k1, v1⟩ := q
    unfold mapSet
    by_cases hk : k1 = k
    · subst hk
      rw [if_pos rfl]
      by_cases h : t = k1
      · subst h; simp [List.lookup]
      · have hb : (t == k1) = false := by simpa using h
        simp [List.lookup, hb, h]
    · rw [if_neg hk]
      by_cases h1 : t = k1
      · subst h1
        have : ¬ t = k := fun h => hk h
        simp [List.lookup, this]
      · have hb : (t == k1) = false := by simpa using h1
        simp only [List.lookup, hb]
        exact ih

theorem length_mapSet (m : List (Nat × Element)) (k : Nat) (v : Element) :
    (mapSet m k v).length = if (m.lookup k).isSome then m.length else m.length + 1 := by
  induction m with
  | nil => rfl
  | cons q m ih =>
    obtain ⟨k1, v1⟩ := q
    unfold mapSet
    by_cases hk : k1 = k
    · subst hk
      simp [List.lookup]
    · have hb : (k == k1) = false := by simpa using fun h : k = k1 => hk h.symm
      rw [if_neg hk]
      simp only [List.length_cons, List.lookup, hb, ih]
      split_ifs <;> rfl

theorem Get_eq_ok_iff (ds : Dataset) (t : Nat) (e : Element) :
    ds.Get t = .ok e ↔ ds.elems.lookup t = some e := by
  unfold Dataset.Get
  rcases h : ds.elems.lookup t with _ | x
  · simp
  · simp

theorem Get_putAll_of_not_mem (es : List Element) (ds : Dataset) (t : Nat)
    (h : t ∉ es.map Element.Tag) :
    (es.foldl (fun d x => d.Put (some x)) ds).Get t = ds.Get t := by
  induction es generalizing ds with
  | nil => rfl
  | cons x es ih =>
    simp only [List.map_cons, List.mem_cons, not_or] at h
    rw [List.foldl_cons, ih _ h.2]
    unfold Dataset.Get Dataset.Put
    simp only [Dataset.elems, lookup_mapSet, if_neg h.1]

/-- Claim C19: after `Put(e)` of a non-nil element, `Get(e.Tag)` returns `e`
whatever was stored before; `Get(t)` for any other tag returns what it returned
before; `Size` is unchanged when the tag was present and grows by one when it
was absent; `Get` of a tag that is not among the tags put into a new dataset
fails with an error of kind NotFound; and `Put(nil)` leaves the dataset as it
was. -/
theorem Put_then_Get (ds : Dataset) (e : Element) :
    (ds.Put (some e)).Get e.Tag = .ok e
    ∧ (∀ t, t ≠ e.Tag → (ds.Put (some e)).Get t = ds.Get t)
    ∧ ((∃ old, ds.Get e.Tag = .ok old) → (ds.Put (some e)).Size = ds.Size)
    ∧ ((¬ ∃ old, ds.Get e.Tag = .ok old) → (ds.Put (some e)).Size = ds.Size + 1)
    ∧ (∀ (es : List Element) (t : Nat), t ∉ es.map Element.Tag →
        ∃ err, (es.foldl (fun d x => d.Put (some x)) NewDataset).Get t = .error err
          ∧ dcmerr.code? err = some dcmerr.ErrNotFound)
    ∧ ds.Put none = ds := by
  refine ⟨?_, ?_, ?_, ?_, ?_, rfl⟩
  · unfold Dataset.Get Dataset.Put
    simp only [Dataset.elems, lookup_mapSet, if_pos]
  · intro t ht
    unfold Dataset.Get Dataset.Put
    simp only [Dataset.elems, lookup_mapSet, if_neg ht]
  · rintro ⟨old, hold⟩
    rw [Get_eq_ok_iff] at hold
    show (mapSet ds.elems e.Tag e).length = ds.elems.length
    rw [length_mapSet, hold]
    rfl
  · intro hno
    have hnone : ds.elems.lookup e.Tag = none := by
      rcases h : ds.elems.lookup e.Tag with _ | x
      · rfl
      · exact absurd ⟨x, (Get_eq_ok_iff ds e.Tag x).2 h⟩ hno
    show (mapSet ds.elems e.Tag e).length = ds.elems.length + 1
    rw [length_mapSet, hnone]
    rfl
  · intro es t ht
    rw [Get_putAll_of_not_mem es NewDataset t ht]
    exact ⟨_, rfl, rfl⟩

/-! ### The iterator -/

theorem keys_mapSet (m : List (Nat × Element)) (k : Nat) (v : Element) :
    (mapSet m k v).map (·.1)
      = if k ∈ m.map (·.1) then m.map (·.1) else m.map (·.1) ++ [k] := by
  induction m with
  | nil => simp [mapSet]
  | cons q m ih =>
    obtain ⟨k1, v1⟩ := q
    unfold mapSet
    by_cases hk : k1 = k
    · subst hk
      simp
    · have hk2 : ¬ k = k1 := fun h => hk h.symm
      rw [if_neg hk]
      simp only [List.map_cons, ih, List.mem_cons, hk2, false_or]
      split_ifs <;> simp

/-- The invariant of a Go map holding elements under their tags: no key twice,
every element under its own tag. -/
theorem mapSet_wf (m : List (Nat × Element)) (e : Element)
    (h : (m.map (·.1)).Nodup ∧ ∀ p ∈ m, p.2.Tag = p.1) :
    ((mapSet m e.Tag e).map (·.1)).Nodup ∧ ∀ p ∈ mapSet m e.Tag e, p.2.Tag = p.1 := by
  refine ⟨?_, ?_⟩
  · rw [keys_mapSet]
    split_ifs with hk
    · exact h.1
    · refine List.Nodup.append h.1 (List.nodup_singleton _) ?_
      intro a ha hb
      rw [List.mem_singleton.1 hb] at ha
      exact hk ha
  · intro p hp
    rcases mem_mapSet hp with hp | hp
    · exact h.2 p hp
    · rw [hp]

theorem Built_wf (ds : Dataset) (hb : Built ds) :
    (ds.elems.map (·.1)).Nodup ∧ ∀ p ∈ ds.elems, p.2.Tag = p.1 := by
  induction hb with
  | new => exact ⟨List.nodup_nil, fun p hp => absurd hp (List.not_mem_nil _)⟩
  | put ds elem _ ih =>
    cases elem with
    | none => exact ih
    | some e => exact mapSet_wf ds.elems e ih
  | putString ds tg vrStr str _ ih =>
    unfold Dataset.PutString
    split_ifs
    · exact ih
    · rcases hv : NewValue (.string str) with err | value
      · simp only []
        exact ih
      · simp only []
        exact mapSet_wf ds.elems (NewElement tg vrStr (str.length % 2 ^ 32) value) ih

theorem lookup_of_mem_keys (m : List (Nat × Element)) (k : Nat) (h : k ∈ m.map (·.1)) :
    ∃ e, m.lookup k = some e ∧ (k, e) ∈ m := by
  induction m with
  | nil => cases h
  | cons q m ih =>
    obtain ⟨k1, v1⟩ := q
    by_cases hk : k = k1
    · subst hk
      exact ⟨v1, by simp [List.lookup], List.mem_cons_self _ _⟩
    · have hb : (k == k1) = false := by simpa using hk
      simp only [List.map_cons, List.mem_cons, hk, false_or] at h
      obtain ⟨e, he, hm⟩ := ih h
      exact ⟨e, by simp only [List.lookup, hb]; exact he, List.mem_cons_of_mem _ hm⟩

theorem mem_keys_of_lookup (m : List (Nat × Element)) (k : Nat) (e : Element)
    (h : m.lookup k = some e) : k ∈ m.map (·.1) := by
  induction m with
  | nil => cases h
  | cons q m ih =>
    obtain ⟨k1, v1⟩ := q
    by_cases hk : k = k1
    · subst hk
      exact List.mem_cons_self _ _
    · have hb : (k == k1) = false := by simpa using hk
      simp only [List.lookup, hb] at h
      exact List.mem_cons_of_mem _ (ih h)

theorem lookup_all_aux (m : List (Nat × Element)) (hwf : ∀ p ∈ m, p.2.Tag = p.1)
    (ks : List Nat) (hk : ∀ k ∈ ks, k ∈ m.map (·.1)) :
    ∃ es : List Element, ks.map (fun k => m.lookup k) = es.map some
      ∧ es.map Element.Tag = ks ∧ ∀ e ∈ es, m.lookup e.Tag = some e := by
  induction ks with
  | nil => exact ⟨[], rfl, rfl, fun e he => absurd he (List.not_mem_nil _)⟩
  | cons k ks ih =>
    obtain ⟨es, h1, h2, h3⟩ := ih (fun x hx => hk x (List.mem_cons_of_mem _ hx))
    obtain ⟨e, he, hm⟩ := lookup_of_mem_keys m k (hk k (List.mem_cons_self _ _))
    have ht : e.Tag = k := hwf (k, e) hm
    refine ⟨e :: es, ?_, ?_, ?_⟩
    · simp only [List.map_cons, he, h1]
    · simp only [List.map_cons, ht, h2]
    · intro x hx
      rcases List.mem_cons.1 hx with h | h
      · rw [h, ht]; exact he
      · exact h3 x h

theorem iterate_loop_aux (ds : Dataset) (suf : List Nat) :
    ∀ (pre : List Nat) (acc : List (Option Element)) (fuel : Nat),
      (∀ k ∈ suf, k ∈ ds.elems.map (·.1)) → suf.length + 1 ≤ fuel →
      iterate fuel ⟨ds, pre ++ suf, (pre.length : Int) - 1, none⟩ acc
        = some (.returns (acc ++ suf.map (fun k => ds.elems.lookup k),
            ⟨ds, pre ++ suf, ((pre ++ suf).length : Int), none⟩)) := by
  induction suf with
  | nil =>
    intro pre acc fuel _ hf
    obtain ⟨f, rfl⟩ : ∃ f, fuel = f + 1 := ⟨fuel - 1, by omega⟩
    have hidx : (pre.length : Int) - 1 + 1 = pre.length := by omega
    simp [iterate, iterator.Next, hidx]
  | cons k suf ih =>
    intro pre acc fuel hk hf
    obtain ⟨f, rfl⟩ : ∃ f, fuel = f + 1 := ⟨fuel - 1, by omega⟩
    have hidx : (pre.length : Int) - 1 + 1 = pre.length := by omega
    obtain ⟨e, he, -⟩ := lookup_of_mem_keys ds.elems k (hk k (List.mem_cons_self _ _))
    have hnext : iterator.Next ⟨ds, pre ++ k :: suf, (pre.length : Int) - 1, none⟩
        = (true, ⟨ds, pre ++ k :: suf, (pre.length : Int), none⟩) := by
      simp [iterator.Next, hidx]
    have hval : iterator.Value ⟨ds, pre ++ k :: suf, (pre.length : Int), none⟩
        = .returns (some e, ⟨ds, pre ++ k :: suf, (pre.length : Int), none⟩) := by
      have h1 : ¬ ((pre.length : Int) ≥ ((pre ++ k :: suf).length : Int)) := by
        simp only [List.length_append, List.length_cons]; omega
      have h2 : ¬ ((pre.length : Int) < 0) := by omega
      have h3 : (pre ++ k :: suf)[(pre.length : Int).toNat]? = some k := by
        rw [Int.toNat_ofNat, List.getElem?_append_right (Nat.le_refl _)]
        simp
      unfold iterator.Value
      simp only [h1, h2, h3, he, if_false]
    rw [iterate, hnext]
    simp only [hval]
    have h := ih (pre ++ [k]) (acc ++ [some e]) f
      (fun x hx => hk x (List.mem_cons_of_mem _ hx))
      (by simp only [List.length_cons] at hf; omega)
    have hl : (((pre ++ [k]).length : Nat) : Int) - 1 = (pre.length : Int) := by
      simp only [List.length_append, List.length_singleton]; omega
    rw [hl, List.append_assoc, List.singleton_append] at h
    rw [h]
    simp only [List.map_cons, he, List.append_assoc, List.singleton_append]

theorem iterate_newIterator_aux (ds : Dataset) (fuel : Nat) (hf : ds.Size + 1 ≤ fuel) :
    iterate fuel (newIterator ds) []
      = some (.returns (((ds.elems.map (·.1)).insertionSort (· ≤ ·)).map
            (fun k => ds.elems.lookup k),
          ⟨ds, (ds.elems.map (·.1)).insertionSort (· ≤ ·),
            (((ds.elems.map (·.1)).insertionSort (· ≤ ·)).length : Int), none⟩)) := by
  have hperm := List.perm_insertionSort (· ≤ ·) (ds.elems.map (·.1))
  have h := iterate_loop_aux ds ((ds.elems.map (·.1)).insertionSort (· ≤ ·)) [] [] fuel
    (fun k hk => hperm.mem_iff.1 hk)
    (by rw [hperm.length_eq, List.length_map]; exact hf)
  simp only [List.nil_append, List.length_nil] at h
  exact h

theorem lookup_eq_of_Get_eq (ds ds2 : Dataset) (t : Nat) (h : ds2.Get t = ds.Get t) :
    ds2.elems.lookup t = ds.elems.lookup t := by
  apply Option.ext
  intro e
  show ds2.elems.lookup t = some e ↔ ds.elems.lookup t = some e
  rw [← Get_eq_ok_iff, ← Get_eq_ok_iff, h]

theorem mem_keys_iff_Get (ds : Dataset) (t : Nat) :
    t ∈ ds.elems.map (·.1) ↔ ∃ e, ds.Get t = .ok e := by
  constructor
  · intro h
    obtain ⟨e, he, -⟩ := lookup_of_mem_keys ds.elems t h
    exact ⟨e, (Get_eq_ok_iff ds t e).2 he⟩
  · rintro ⟨e, he⟩
    exact mem_keys_of_lookup ds.elems t e ((Get_eq_ok_iff ds t e).1 he)

/-- Claim C20: for a dataset built by calls of `Put` and `PutString`, the loop
`for iter.Next() { iter.Value() }` over a fresh iterator ends, given fuel for
`Size() + 1` rounds, having yielded the elements `es`: there are `Size()` of
them, their tags are strictly ascending, a tag occurs among them exactly when
`Get` finds it (and then once), each is the element `Get` returns for its tag,
and `Err()` is nil afterwards; every built dataset with the same results of
`Get`, in whatever order it was filled, yields the same sequence. -/
theorem iterate_ascending (ds : Dataset) (hb : Built ds) :
    ∃ es : List Element,
      (∀ fuel, ds.Size + 1 ≤ fuel →
        ∃ it, iterate fuel (newIterator ds) [] = some (.returns (es.map some, it))
          ∧ it.Err = none)
      ∧ es.length = ds.Size
      ∧ (es.map Element.Tag).Pairwise (· < ·)
      ∧ (∀ t, t ∈ es.map Element.Tag ↔ ∃ e, ds.Get t = .ok e)
      ∧ (es.map Element.Tag).Nodup
      ∧ (∀ e ∈ es, ds.Get e.Tag = .ok e)
      ∧ (∀ ds2, Built ds2 → (∀ t, ds2.Get t = ds.Get t) →
          ∀ fuel, ds2.Size + 1 ≤ fuel →
            ∃ it, iterate fuel (newIterator ds2) [] = some (.returns (es.map some, it))
              ∧ it.Err = none) := by
  obtain ⟨hnd, hwf⟩ := Built_wf ds hb
  have hperm := List.perm_insertionSort (· ≤ ·) (ds.elems.map (·.1))
  have hsorted := List.sorted_insertionSort (· ≤ ·) (ds.elems.map (·.1))
  obtain ⟨es, h1, h2, h3⟩ := lookup_all_aux ds.elems hwf
    ((ds.elems.map (·.1)).insertionSort (· ≤ ·)) (fun k hk => hperm.mem_iff.1 hk)
  have hnd2 : ((ds.elems.map (·.1)).insertionSort (· ≤ ·)).Nodup := hperm.nodup_iff.2 hnd
  refine ⟨es, ?_, ?_, ?_, ?_, ?_, ?_, ?_⟩
  · intro fuel hf
    rw [iterate_newIterator_aux ds fuel hf, h1]
    exact ⟨_, rfl, rfl⟩
  · have hl : (es.map Element.Tag).length = es.length := List.length_map _ _
    rw [← hl, h2, hperm.length_eq, List.length_map]
    rfl
  · rw [h2]
    exact hsorted.lt_of_le hnd2
  · intro t
    rw [h2, hperm.mem_iff]
    exact mem_keys_iff_Get ds t
  · rw [h2]
    exact hnd2
  · intro e he
    exact (Get_eq_ok_iff ds e.Tag e).2 (h3 e he)
  · intro ds2 hb2 hget fuel hf
    obtain ⟨hndb, -⟩ := Built_wf ds2 hb2
    have hperm2 := List.perm_insertionSort (· ≤ ·) (ds2.elems.map (·.1))
    have hsorted2 := List.sorted_insertionSort (· ≤ ·) (ds2.elems.map (·.1))
    have hkeys : (ds2.elems.map (·.1)).Perm (ds.elems.map (·.1)) := by
      refine (List.perm_ext_iff_of_nodup hndb hnd).2 (fun t => ?_)
      rw [mem_keys_iff_Get, mem_keys_iff_Get, hget]
    have hks : (ds2.elems.map (·.1)).insertionSort (· ≤ ·)
        = (ds.elems.map (·.1)).insertionSort (· ≤ ·) :=
      List.eq_of_perm_of_sorted ((hperm2.trans hkeys).trans hperm.symm) hsorted2 hsorted
    have hlook : (fun k => ds2.elems.lookup k) = (fun k => ds.elems.lookup k) :=
      funext (fun k => lookup_eq_of_Get_eq ds ds2 k (hget k))
    rw [iterate_newIterator_aux ds2 fuel hf, hks, hlook, h1]
    exact ⟨_, rfl, rfl⟩

/-- Claim C20 at the dataset into which `(0010,0010)` was put before
`(0008,0005)`. -/
theorem iterate_ascending_example :
    ∃ es : List Element,
      (∀ fuel, exampleDataset.Size + 1 ≤ fuel →
        ∃ it, iterate fuel (newIterator exampleDataset) [] = some (.returns (es.map some, it))
          ∧ it.Err = none)
      ∧ es.length = exampleDataset.Size
      ∧ (es.map Element.Tag).Pairwise (· < ·)
      ∧ (∀ t, t ∈ es.map Element.Tag ↔ ∃ e, exampleDataset.Get t = .ok e)
      ∧ (es.map Element.Tag).Nodup
      ∧ (∀ e ∈ es, exampleDataset.Get e.Tag = .ok e)
      ∧ (∀ ds2, Built ds2 → (∀ t, ds2.Get t = exampleDataset.Get t) →
          ∀ fuel, ds2.Size + 1 ≤ fuel →
            ∃ it, iterate fuel (newIterator ds2) [] = some (.returns (es.map some, it))
              ∧ it.Err = none) :=
  iterate_ascending exampleDataset (Built.put _ _ (Built.put _ _ Built.new))

/-! ### Errors of the dataset accessors -/

/-- Claim C21, evaluated on the code: `GetString` on the stored `US` element
`(0028,0010)` and on the stored byte blob `(7FE0,0010)` returns the error
`Cannot convert element ... to string` built with the code `ErrNotFound`, so
that `IsErrNotConvertible` is false and `IsErrNotFound` is true for it, exactly
as for the absent tag `(0010,0010)`. -/
theorem GetString_non_text_is_NotFound :
    (NewDataset.Put (some exampleUS)).GetString 0x00280010
        = .returns (.error (dcmerr.Errorf dcmerr.ErrNotFound
            (ascii "Cannot convert element 0x00280010 to string")))
    ∧ (NewDataset.Put (some exampleOB)).GetString 0x7FE00010
        = .returns (.error (dcmerr.Errorf dcmerr.ErrNotFound
            (ascii "Cannot convert element 0x7fe00010 to string")))
    ∧ dcmerr.IsErrNotConvertible (dcmerr.Errorf dcmerr.ErrNotFound
        (ascii "Cannot convert element 0x00280010 to string")) = false
    ∧ dcmerr.IsErrNotFound (dcmerr.Errorf dcmerr.ErrNotFound
        (ascii "Cannot convert element 0x00280010 to string")) = true
    ∧ (NewDataset.Put (some exampleUS)).GetString 0x00100010
        = .returns (.error (dcmerr.Errorf dcmerr.ErrNotFound
            (ascii "Element 0x00100010 not found"))) := by
  refine ⟨by decide!, by decide!, by decide!, by decide!, by decide!⟩

theorem PutString_aux (ds : Dataset) (tg : Nat) (vrStr s : GoString) :
    ds.PutString tg vrStr s
      = if vr.IsStringVR vrStr = true then
          (none, .mk (mapSet ds.elems tg
            (NewElement tg vrStr (s.length % 2 ^ 32) (.stringValue (nullStrip s)))))
        else
          (some (dcmerr.Errorf dcmerr.ErrNotConvertible
            (ascii "VR " ++ vrStr ++ ascii " is not a string VR")), ds) := by
  unfold Dataset.PutString
  by_cases h : vr.IsStringVR vrStr = true
  · rw [if_pos h]
    simp only [h, Bool.not_true, Bool.false_eq_true, if_false, NewValue]
    rfl
  · rw [if_neg h]
    have h2 : vr.IsStringVR vrStr = false := by simpa using h
    simp only [h2, Bool.not_false, if_true]

theorem PutString_Get_aux (ds : Dataset) (tg : Nat) (vrStr s : GoString)
    (h : vr.IsStringVR vrStr = true) :
    (ds.PutString tg vrStr s).2.Get tg
      = .ok (NewElement tg vrStr (s.length % 2 ^ 32) (.stringValue (nullStrip s))) := by
  rw [PutString_aux, if_pos h]
  show (match (mapSet ds.elems tg _).lookup tg with
    | none => _
    | some elem => Except.ok elem) = _
  rw [lookup_mapSet, if_pos rfl]

theorem PutString_VL_aux (ds : Dataset) (tg : Nat) (vrStr s : GoString)
    (h : vr.IsStringVR vrStr = true) :
    ∃ e, (ds.PutString tg vrStr s).2.Get tg = .ok e ∧ e.VL = s.length % 2 ^ 32 :=
  ⟨_, PutString_Get_aux ds tg vrStr s h, rfl⟩

/-- Claim C22, refuted on the code: `PutString` with the string VR `LO` and a
string of `2 ^ 32` bytes stores an element whose VL is 0, not the byte length
of the string. -/
theorem PutString_length_wraps :
    vr.IsStringVR (ascii "LO") = true
    ∧ (List.replicate 4294967296 65).length = 4294967296
    ∧ ∃ e, (NewDataset.PutString 0x00100020 (ascii "LO") (List.replicate 4294967296 65)).2.Get
          0x00100020 = .ok e
        ∧ e.VL = 0 ∧ e.VL ≠ (List.replicate 4294967296 65).length := by
  have hl : (List.replicate 4294967296 65).length = 4294967296 := List.length_replicate _ _
  obtain ⟨e, he, hvl⟩ := PutString_VL_aux NewDataset 0x00100020 (ascii "LO")
    (List.replicate 4294967296 65) (by decide)
  rw [hl] at hvl
  have h0 : e.VL = 0 := by rw [hvl]; norm_num
  refine ⟨by decide, hl, e, he, h0, ?_⟩
  rw [hl, h0]
  decide

/-- Claim C22 as amended: `PutString` returns nil exactly when `vr.IsStringVR`
accepts the VR; when it does not, the error has the kind NotConvertible and the
dataset is the one before (same `Size`, same `Get` for every tag); when it does,
`Get` of the tag afterwards returns an element with that tag and VR, a text
value holding the string (one trailing NUL stripped), and the VL `uint32(len(s))`,
the byte length modulo `2 ^ 32`, which is the byte length whenever that is
below `2 ^ 32`. -/
theorem PutString_string_VR (ds : Dataset) (tg : Nat) (vrStr s : GoString) :
    ((ds.PutString tg vrStr s).1 = none ↔ vr.IsStringVR vrStr = true)
    ∧ (vr.IsStringVR vrStr = false →
        (∃ err, (ds.PutString tg vrStr s).1 = some err
          ∧ dcmerr.code? err = some dcmerr.ErrNotConvertible)
        ∧ (ds.PutString tg vrStr s).2 = ds
        ∧ (ds.PutString tg vrStr s).2.Size = ds.Size
        ∧ ∀ t, (ds.PutString tg vrStr s).2.Get t = ds.Get t)
    ∧ (vr.IsStringVR vrStr = true →
        ∃ e, (ds.PutString tg vrStr s).2.Get tg = .ok e
          ∧ e.Tag = tg ∧ e.VR = vrStr ∧ e.Value = .stringValue (nullStrip s)
          ∧ e.VL = s.length % 2 ^ 32 ∧ (s.length < 2 ^ 32 → e.VL = s.length)) := by
  refine ⟨?_, ?_, ?_⟩
  · rw [PutString_aux]
    by_cases h : vr.IsStringVR vrStr = true
    · rw [if_pos h]; exact ⟨fun _ => h, fun _ => rfl⟩
    · rw [if_neg h]
      exact ⟨fun h2 => Option.noConfusion h2, fun h2 => absurd h2 h⟩
  · intro h
    have h2 : ¬ vr.IsStringVR vrStr = true := by rw [h]; decide
    rw [PutString_aux, if_neg h2]
    exact ⟨⟨_, rfl, rfl⟩, rfl, rfl, fun _ => rfl⟩
  · intro h
    refine ⟨_, PutString_Get_aux ds tg vrStr s h, rfl, rfl, rfl, rfl, ?_⟩
    intro hs
    exact Nat.mod_eq_of_lt hs

/-! ### Scalar reads and `Skip` -/

theorem readScalar_empty {α : Type} (dec : List Nat → α) (ex : Bool) (k size : Nat)
    (o : ByteOrder) (hs : size ≠ 0) :
    readScalar ⟨ex, [], k, o⟩ size dec = (.error dcmerr.NewErrEOF, ⟨ex, [], k, o⟩) := by
  simp [readScalar, ioReadFull, reader.Read, hs, scalarReadError]

theorem readScalar_short {α : Type} (dec : List Nat → α) (ex : Bool) (input : List Nat)
    (k size : Nat) (o : ByteOrder) (h0 : 0 < input.length) (h1 : input.length < size) :
    readScalar ⟨ex, input, k, o⟩ size dec
      = (.error (dcmerr.Errorf dcmerr.ErrUnexpectedEOF
            (dcmerr.nearByteMsg (k + input.length) (ascii "unexpected EOF"))),
          ⟨ex, [], k + input.length, o⟩) := by
  have hs : size ≠ 0 := by omega
  have hne : input ≠ [] := by
    intro h; rw [h] at h0; exact absurd h0 (by decide)
  have htake : input.take size = input := List.take_of_length_le (by omega)
  have hdrop : input.drop size = [] := List.drop_of_length_le (by omega)
  have hlen : ¬ input.length = size := by omega
  simp [readScalar, ioReadFull, reader.Read, hs, hne, htake, hdrop, hlen, scalarReadError,
    GoError.Error]

theorem ScalarReadSpec_of_readScalar {α : Type} (read : reader → Except GoError α × reader)
    (w : Nat) (dec : ByteOrder → List Nat → α) (hw : w ≠ 0)
    (hread : ∀ r, read r = readScalar r w (dec r.order)) :
    ScalarReadSpec read w (dec .LittleEndian) := by
  intro ex k
  refine ⟨?_, ?_, ?_⟩
  · rw [hread, readScalar_empty _ _ _ _ _ hw]
    exact ⟨_, _, rfl, rfl⟩
  · intro input h0 h1
    rw [hread, readScalar_short _ _ _ _ _ _ h0 h1]
    exact ⟨_, _, rfl, rfl⟩
  · intro bs rest hb
    rw [hread, readScalar_of_length _ _ _ _ _ _ _ hb]
    exact ⟨rfl, rfl⟩

/-- Claim C23: each of the six scalar reads, on a little-endian reader, fails
with the kind EOF when nothing is left, with the kind UnexpectedEOF when fewer
bytes are left than its width, and otherwise returns the little-endian value of
the next `w` bytes with `BytesRead` grown by exactly `w`. The value of the bytes
`b0 b1` is `b0 + 256 * b1`, that of `b0 b1 b2 b3` is
`b0 + 256 * b1 + 65536 * b2 + 16777216 * b3`; a signed read returns this number
when the top bit of the last byte is clear and this number less `2 ^ 16` (or
`2 ^ 32`) when it is set, which is the balanced residue `Int.bmod`: `FF FF`
reads as `-1`, `00 80` as `-32768`, `FF 7F` as `32767`. -/
theorem scalar_reads :
    ScalarReadSpec reader.ReadUint16 2 (Dicom.ByteOrder.LittleEndian.Uint16 ·)
    ∧ ScalarReadSpec reader.ReadUint16LE 2 (Dicom.ByteOrder.LittleEndian.Uint16 ·)
    ∧ ScalarReadSpec reader.ReadInt16 2
        (fun bs => toInt16 (Dicom.ByteOrder.LittleEndian.Uint16 bs))
    ∧ ScalarReadSpec reader.ReadUint32 4 (Dicom.ByteOrder.LittleEndian.Uint32 ·)
    ∧ ScalarReadSpec reader.ReadUint32LE 4 (Dicom.ByteOrder.LittleEndian.Uint32 ·)
    ∧ ScalarReadSpec reader.ReadInt32 4
        (fun bs => toInt32 (Dicom.ByteOrder.LittleEndian.Uint32 bs))
    ∧ (∀ b0 b1 : Nat, Dicom.ByteOrder.LittleEndian.Uint16 [b0, b1] = b0 + 256 * b1)
    ∧ (∀ b0 b1 b2 b3 : Nat, Dicom.ByteOrder.LittleEndian.Uint32 [b0, b1, b2, b3]
        = b0 + 256 * b1 + 65536 * b2 + 16777216 * b3)
    ∧ (∀ (ex : Bool) (k b0 b1 : Nat) (rest : List Nat), b0 < 256 → b1 < 256 →
        reader.ReadInt16 ⟨ex, b0 :: b1 :: rest, k, .LittleEndian⟩
          = (.ok (if b1 < 128 then (b0 : Int) + 256 * b1 else (b0 : Int) + 256 * b1 - 65536),
              ⟨ex, rest, k + 2, .LittleEndian⟩))
    ∧ (∀ (ex : Bool) (k b0 b1 b2 b3 : Nat) (rest : List Nat),
        b0 < 256 → b1 < 256 → b2 < 256 → b3 < 256 →
        reader.ReadInt32 ⟨ex, b0 :: b1 :: b2 :: b3 :: rest, k, .LittleEndian⟩
          = (.ok (if b3 < 128 then (b0 : Int) + 256 * b1 + 65536 * b2 + 16777216 * b3
                else (b0 : Int) + 256 * b1 + 65536 * b2 + 16777216 * b3 - 4294967296),
              ⟨ex, rest, k + 4, .LittleEndian⟩))
    ∧ (∀ u : Nat, u < 65536 → toInt16 u = Int.bmod u 65536)
    ∧ (∀ u : Nat, u < 4294967296 → toInt32 u = Int.bmod u 4294967296)
    ∧ reader.ReadInt16 ⟨true, [0xFF, 0xFF, 0x01], 10, .LittleEndian⟩
        = (.ok (-1), ⟨true, [0x01], 12, .LittleEndian⟩)
    ∧ reader.ReadInt16 ⟨true, [0x00, 0x80], 0, .LittleEndian⟩
        = (.ok (-32768), ⟨true, [], 2, .LittleEndian⟩)
    ∧ reader.ReadInt16 ⟨true, [0xFF, 0x7F], 0, .LittleEndian⟩
        = (.ok 32767, ⟨true, [], 2, .LittleEndian⟩)
    ∧ reader.ReadInt32 ⟨true, [0xFE, 0xFF, 0xFF, 0xFF, 0x01], 10, .LittleEndian⟩
        = (.ok (-2), ⟨true, [0x01], 14, .LittleEndian⟩)
    ∧ reader.ReadInt32 ⟨true, [0x00, 0x00, 0x00, 0x80], 0, .LittleEndian⟩
        = (.ok (-2147483648), ⟨true, [], 4, .LittleEndian⟩)
    ∧ reader.ReadInt32 ⟨true, [0xFF, 0xFF, 0xFF, 0x7F], 0, .LittleEndian⟩
        = (.ok 2147483647, ⟨true, [], 4, .LittleEndian⟩)
    ∧ reader.ReadUint16 ⟨true, [0x34, 0x12], 0, .LittleEndian⟩
        = (.ok 0x1234, ⟨true, [], 2, .LittleEndian⟩)
    ∧ reader.ReadUint32 ⟨true, [0x78, 0x56, 0x34, 0x12], 0, .LittleEndian⟩
        = (.ok 0x12345678, ⟨true, [], 4, .LittleEndian⟩) := by
  have h16 : ∀ (ex : Bool) (k : Nat) (bs rest : List Nat), bs.length = 2 →
      reader.ReadInt16 ⟨ex, bs ++ rest, k, .LittleEndian⟩
        = (.ok (toInt16 (Dicom.ByteOrder.LittleEndian.Uint16 bs)),
            ⟨ex, rest, k + 2, .LittleEndian⟩) := fun ex k bs rest hb =>
    readScalar_of_length _ ex bs rest k 2 .LittleEndian hb
  have h32 : ∀ (ex : Bool) (k : Nat) (bs rest : List Nat), bs.length = 4 →
      reader.ReadInt32 ⟨ex, bs ++ rest, k, .LittleEndian⟩
        = (.ok (toInt32 (Dicom.ByteOrder.LittleEndian.Uint32 bs)),
            ⟨ex, rest, k + 4, .LittleEndian⟩) := fun ex k bs rest hb =>
    readScalar_of_length _ ex bs rest k 4 .LittleEndian hb
  refine ⟨?_, ?_, ?_, ?_, ?_, ?_, ?_, ?_, ?_, ?_, ?_, ?_, by decide, by decide, by decide,
    by decide, by decide, by decide, by decide, by decide⟩
  · exact ScalarReadSpec_of_readScalar _ 2 (fun o bs => o.Uint16 bs) (by decide) (fun _ => rfl)
  · exact ScalarReadSpec_of_readScalar _ 2 (fun _ bs => Dicom.ByteOrder.LittleEndian.Uint16 bs)
      (by decide) (fun _ => rfl)
  · exact ScalarReadSpec_of_readScalar _ 2 (fun o bs => toInt16 (o.Uint16 bs)) (by decide)
      (fun _ => rfl)
  · exact ScalarReadSpec_of_readScalar _ 4 (fun o bs => o.Uint32 bs) (by decide) (fun _ => rfl)
  · exact ScalarReadSpec_of_readScalar _ 4 (fun _ bs => Dicom.ByteOrder.LittleEndian.Uint32 bs)
      (by decide) (fun _ => rfl)
  · exact ScalarReadSpec_of_readScalar _ 4 (fun o bs => toInt32 (o.Uint32 bs)) (by decide)
      (fun _ => rfl)
  · intro b0 b1
    show b0 + b1 * 256 = _
    omega
  · intro b0 b1 b2 b3
    show b0 + b1 * 256 + b2 * 65536 + b3 * 16777216 = _
    omega
  · intro ex k b0 b1 rest hb0 hb1
    have := h16 ex k [b0, b1] rest rfl
    rw [show [b0, b1] ++ rest = b0 :: b1 :: rest from rfl] at this
    rw [this]
    have hv : toInt16 (Dicom.ByteOrder.LittleEndian.Uint16 [b0, b1])
        = if b1 < 128 then (b0 : Int) + 256 * b1 else (b0 : Int) + 256 * b1 - 65536 := by
      show toInt16 (b0 + b1 * 256) = _
      unfold toInt16
      by_cases h : b1 < 128
      · rw [if_pos (by omega), if_pos h]
        push_cast
        ring
      · rw [if_neg (by omega), if_neg h]
        push_cast
        ring
    rw [hv]
  · intro ex k b0 b1 b2 b3 rest hb0 hb1 hb2 hb3
    have := h32 ex k [b0, b1, b2, b3] rest rfl
    rw [show [b0, b1, b2, b3] ++ rest = b0 :: b1 :: b2 :: b3 :: rest from rfl] at this
    rw [this]
    have hv : toInt32 (Dicom.ByteOrder.LittleEndian.Uint32 [b0, b1, b2, b3])
        = if b3 < 128 then (b0 : Int) + 256 * b1 + 65536 * b2 + 16777216 * b3
          else (b0 : Int) + 256 * b1 + 65536 * b2 + 16777216 * b3 - 4294967296 := by
      show toInt32 (b0 + b1 * 256 + b2 * 65536 + b3 * 16777216) = _
      unfold toInt32
      by_cases h : b3 < 128
      · rw [if_pos (by omega), if_pos h]
        push_cast
        ring
      · rw [if_neg (by omega), if_neg h]
        push_cast
        ring
    rw [hv]
  · intro u hu
    unfold toInt16 Int.bmod
    have h1 : ((u : Int) % ((65536 : Nat) : Int)) = u := Int.emod_eq_of_lt (by omega) (by omega)
    rw [h1]
    by_cases h : u < 32768
    · rw [if_pos h, if_pos (by omega)]
    · rw [if_neg h, if_neg (by omega)]
      rfl
  · intro u hu
    unfold toInt32 Int.bmod
    have h1 : ((u : Int) % ((4294967296 : Nat) : Int)) = u :=
      Int.emod_eq_of_lt (by omega) (by omega)
    rw [h1]
    by_cases h : u < 2147483648
    · rw [if_pos h, if_pos (by omega)]
    · rw [if_neg h, if_neg (by omega)]
      rfl

theorem Skip_min (r : reader) (n : Nat) :
    (r.Skip n).1 = none
    ∧ (r.Skip n).2.BytesRead = r.BytesRead + min n r.input.length
    ∧ (r.Skip n).2.input = r.input.drop n := by
  refine ⟨rfl, ?_, rfl⟩
  show r.nRead + (r.input.take n).length = r.nRead + min n r.input.length
  rw [List.length_take]

theorem readElement_marker_tag_only_aux (tagMap : tag.TagMap) (fuel : Nat) (ex : Bool)
    (t k : Nat) (o : ByteOrder) (ht : t = SQItem ∨ t = SQItemDelim ∨ t = SQDelim) :
    readElement tagMap (fuel + 1) ⟨ex, tagBytes t, k, o⟩
      = some (.ok (NewElement t [] UndefinedLength .emptyValue), ⟨ex, [], k + 4, o⟩) := by
  have ht32 : t < 2 ^ 32 := by
    rcases ht with h | h | h <;> rw [h] <;> decide
  have hsq : checkSQMarker t = .ok (some (NewElement t [] UndefinedLength .emptyValue)) := by
    rcases ht with h | h | h <;> rw [h] <;> rfl
  have hlt := readLETag_tagBytes ex t ht32 [] k o
  rw [List.append_nil] at hlt
  rw [readElement, hlt]
  simp only [hsq]
  rfl

/-- Claim C30: `Skip(n)` returns nil for every `n` and every reader, and
`BytesRead` grows by `min(n, m)` where `m` bytes were left, also when `m < n`;
and so `readElement` on a stream that holds the four bytes of an SQ marker tag
and nothing more returns the marker element, no error, with the four bytes
consumed. -/
theorem Skip_never_fails (r : reader) (n : Nat) :
    (r.Skip n).1 = none
    ∧ (r.Skip n).2.BytesRead = r.BytesRead + min n r.input.length
    ∧ (r.Skip n).2.input = r.input.drop n
    ∧ (∀ (tagMap : tag.TagMap) (fuel : Nat) (ex : Bool) (t k : Nat) (o : ByteOrder),
        t = SQItem ∨ t = SQItemDelim ∨ t = SQDelim →
        readElement tagMap (fuel + 1) ⟨ex, tagBytes t, k, o⟩
          = some (.ok (NewElement t [] UndefinedLength .emptyValue), ⟨ex, [], k + 4, o⟩)) := by
  obtain ⟨h1, h2, h3⟩ := Skip_min r n
  exact ⟨h1, h2, h3, fun tagMap fuel ex t k o ht =>
    readElement_marker_tag_only_aux tagMap fuel ex t k o ht⟩

/-! ### Rendering of elements -/

/-- Claim C24, refuted on the code: an `SQ` element with no item is rendered with
the length field `0` and the preview `[]`, not with `-1` and `[0 items]`. -/
theorem String_SQ_no_items :
    Element.String exampleTags examplePrinter
        (NewElement 0x00081140 (ascii "SQ") UndefinedLength (.sqValue []))
      = .returns (ascii "(00081140) SQ #0 [] ReferencedImageSequence") := by
  decide!

/-- Claim C24 as amended: for an element with VR `SQ` whose value is a sequence
of `n` datasets, `Element.String` writes the tag, `SQ #` and then `0 [] ` for
`n = 0`, `-1 [1 item] ` for `n = 1` and `-1 [n items] ` for `n ≥ 2`, followed by
the name of the tag; the value itself is not previewed. -/
theorem String_SQ (tagMap : tag.TagMap) (p : Printer) (t vl : Nat) (items : List Dataset) :
    Element.String tagMap p (NewElement t (ascii "SQ") vl (.sqValue items))
      = .returns (ascii "(" ++ fmt08x t ++ ascii ") SQ #"
          ++ (if items.length = 0 then ascii "0 [] "
              else if items.length = 1 then ascii "-1 [1 item] "
              else ascii "-1 [" ++ fmtV items.length ++ ascii " items] ")
          ++ tag.Name tagMap t) := by
  unfold Element.String
  simp only [NewElement, Element.VR, Element.Value, Element.Tag, if_true]
  rcases items with _ | ⟨d, _ | ⟨d2, rest⟩⟩
  · simp [ascii]
  · simp [ascii]
  · simp [ascii, List.append_assoc]

/-! ### The accessors of values -/

/-- Claim C26, evaluated on the code: the parser builds for the `UL` element of
length 0 the `u32` array without entries, which is the value `NewValue` makes of
the empty slice, and `Get` on it does not return: it panics (index 0 of an empty
slice), where the claim has it return without a crash. `GetAll` on the same
value returns the empty slice. -/
theorem Get_panics_on_empty_UL :
    readElement exampleTags 2 ⟨true, emptyULBytes, 0, .LittleEndian⟩
        = some (.ok (NewElement 0x00020000 (ascii "UL") 0 (.uint32Value [])),
            ⟨true, [], 8, .LittleEndian⟩)
    ∧ NewValue (.uint32s []) = .ok (.uint32Value [])
    ∧ Value.Get (.uint32Value []) = .panics
    ∧ Value.GetAll (.uint32Value []) = .uint32s [] := by
  refine ⟨by decide!, rfl, rfl, rfl⟩

/-- The extent of the panic of `Get`: every value is one that `NewValue`
constructs; `GetAll` hands out what is stored (for a text value the trimmed
string); `Get` panics exactly on the scalar arrays and the sequence with zero
entries, and returns on every other value: on byte blobs, on the empty value,
on text and on arrays and sequences with at least one entry, whose first entry
it returns. -/
theorem Get_returns_iff (v : Value) :
    (∃ raw, NewValue raw = .ok v)
    ∧ (v.Get = .panics ↔
        (v = .float32Value [] ∨ v = .float64Value [] ∨ v = .int16Value []
          ∨ v = .int32Value [] ∨ v = .sqValue [] ∨ v = .uint16Value []
          ∨ v = .uint32Value []))
    ∧ (v.Get ≠ .panics → ∃ a, v.Get = .returns a)
    ∧ (∀ x xs, Value.Get (.uint32Value (x :: xs)) = .returns (.uint32 x)
        ∧ Value.Get (.uint16Value (x :: xs)) = .returns (.uint16 x)
        ∧ Value.Get (.float32Value (x :: xs)) = .returns (.float32 x)
        ∧ Value.Get (.float64Value (x :: xs)) = .returns (.float64 x))
    ∧ (∀ x xs, Value.Get (.int32Value (x :: xs)) = .returns (.int32 x)
        ∧ Value.Get (.int16Value (x :: xs)) = .returns (.int16 x))
    ∧ (∀ d ds, Value.Get (.sqValue (d :: ds)) = .returns (.dataset d))
    ∧ (∀ b, Value.Get (.bytesValue b) = .returns (.bytes b))
    ∧ (∀ xs, Value.GetAll (.uint32Value xs) = .uint32s xs
        ∧ Value.GetAll (.sqValue []) = .datasets []) := by
  refine ⟨?_, ?_, ?_, fun _ _ => ⟨rfl, rfl, rfl, rfl⟩, fun _ _ => ⟨rfl, rfl⟩, fun _ _ => rfl,
    fun _ => rfl, fun _ => ⟨rfl, rfl⟩⟩
  · cases v with
    | bytesValue b => exact ⟨.bytes b, rfl⟩
    | emptyValue => exact ⟨.nil, rfl⟩
    | float32Value l => exact ⟨.float32s l, rfl⟩
    | float64Value l => exact ⟨.float64s l, rfl⟩
    | int16Value l => exact ⟨.int16s l, rfl⟩
    | int32Value l => exact ⟨.int32s l, rfl⟩
    | stringValue s =>
      cases s with
      | nil => exact ⟨.string [], rfl⟩
      | cons b s =>
        refine ⟨.string (b :: s ++ [0]), ?_⟩
        have : nullStrip (b :: s ++ [0]) = b :: s := by
          unfold nullStrip
          have h1 : ¬ (b :: s ++ [0]).length < 2 := by simp
          have h2 : (b :: s ++ [0]).length - 1 = (b :: s).length := by simp
          rw [if_neg h1, h2, List.drop_left, List.take_left, if_neg (by simp)]
        simp only [NewValue, this]
    | sqValue l => exact ⟨.datasets l, rfl⟩
    | uint16Value l => exact ⟨.uint16s l, rfl⟩
    | uint32Value l => exact ⟨.uint32s l, rfl⟩
  · cases v with
    | bytesValue b => simp [Value.Get]
    | emptyValue => simp [Value.Get]
    | stringValue s => simp [Value.Get]
    | float32Value l => cases l <;> simp [Value.Get, first]
    | float64Value l => cases l <;> simp [Value.Get, first]
    | int16Value l => cases l <;> simp [Value.Get, first]
    | int32Value l => cases l <;> simp [Value.Get, first]
    | sqValue l => cases l <;> simp [Value.Get, first]
    | uint16Value l => cases l <;> simp [Value.Get, first]
    | uint32Value l => cases l <;> simp [Value.Get, first]
  · intro h
    rcases hg : v.Get with a | _
    · exact ⟨a, rfl⟩
    · exact absurd hg h

/-! ### White space and `TrimSpace` -/

theorem isSpace1_iff (b : Nat) : isSpace1 b = true ↔ [b] ∈ whiteSpace := by
  simp [isSpace1, whiteSpace]
  omega

theorem isSpace2_iff (b0 b1 : Nat) : isSpace2 b0 b1 = true ↔ [b0, b1] ∈ whiteSpace := by
  simp [isSpace2, whiteSpace]
  omega

theorem isSpace3_iff (b0 b1 b2 : Nat) :
    isSpace3 b0 b1 b2 = true ↔ [b0, b1, b2] ∈ whiteSpace := by
  constructor
  · intro h
    simp only [isSpace3, Bool.or_eq_true, Bool.and_eq_true, beq_iff_eq,
      decide_eq_true_eq] at h
    rcases h with ((⟨⟨rfl, rfl⟩, rfl⟩ | ⟨⟨rfl, rfl⟩, ((⟨h1, h2⟩ | rfl) | rfl) | rfl⟩)
      | ⟨⟨rfl, rfl⟩, rfl⟩) | ⟨⟨rfl, rfl⟩, rfl⟩
    · decide
    · interval_cases b2 <;> decide
    · decide
    · decide
    · decide
    · decide
    · decide
  · intro h
    have hall : ∀ c ∈ whiteSpace, c.length = 3 →
        isSpace3 (c.getD 0 0) (c.getD 1 0) (c.getD 2 0) = true := by decide
    exact hall _ h rfl

theorem whiteSpace_length (c : GoString) (h : c ∈ whiteSpace) :
    1 ≤ c.length ∧ c.length ≤ 3 := by
  have hall : ∀ c ∈ whiteSpace, 1 ≤ c.length ∧ c.length ≤ 3 := by decide
  exact hall c h

theorem SpaceRun_nil : SpaceRun [] := ⟨[], fun _ h => absurd h (List.not_mem_nil _), rfl⟩

theorem SpaceRun_cons (c l : GoString) (hc : c ∈ whiteSpace) (hl : SpaceRun l) :
    SpaceRun (c ++ l) := by
  obtain ⟨cs, hcs, rfl⟩ := hl
  refine ⟨c :: cs, ?_, rfl⟩
  intro x hx
  rcases List.mem_cons.1 hx with h | h
  · exact h ▸ hc
  · exact hcs x h

theorem SpaceRun_snoc (c l : GoString) (hc : c ∈ whiteSpace) (hl : SpaceRun l) :
    SpaceRun (l ++ c) := by
  obtain ⟨cs, hcs, rfl⟩ := hl
  refine ⟨cs ++ [c], ?_, by simp⟩
  intro x hx
  rcases List.mem_append.1 hx with h | h
  · exact hcs x h
  · exact (List.mem_singleton.1 h) ▸ hc

/-- A string whose first one, two and three bytes are no white-space character
does not begin with one. -/
theorem not_StartsWithSpace_of (l : GoString)
    (h1 : ∀ b t, l = b :: t → isSpace1 b = false)
    (h2 : ∀ b0 b1 t, l = b0 :: b1 :: t → isSpace2 b0 b1 = false)
    (h3 : ∀ b0 b1 b2 t, l = b0 :: b1 :: b2 :: t → isSpace3 b0 b1 b2 = false) :
    ¬ StartsWithSpace l := by
  rintro ⟨c, hc, t, rfl⟩
  have hlen := whiteSpace_length c hc
  rcases c with _ | ⟨b0, _ | ⟨b1, _ | ⟨b2, _ | ⟨b3, c⟩⟩⟩⟩
  · simp at hlen
  · have := h1 b0 t rfl
    rw [(isSpace1_iff b0).2 hc] at this
    exact Bool.noConfusion this
  · have := h2 b0 b1 t rfl
    rw [(isSpace2_iff b0 b1).2 hc] at this
    exact Bool.noConfusion this
  · have := h3 b0 b1 b2 t rfl
    rw [(isSpace3_iff b0 b1 b2).2 hc] at this
    exact Bool.noConfusion this
  · simp at hlen

/-- A string whose last one, two and three bytes are no white-space character
does not end with one; the string is given reversed. -/
theorem not_EndsWithSpace_of (l : GoString)
    (h1 : ∀ b t, l = b :: t → isSpace1 b = false)
    (h2 : ∀ b0 b1 t, l = b0 :: b1 :: t → isSpace2 b1 b0 = false)
    (h3 : ∀ b0 b1 b2 t, l = b0 :: b1 :: b2 :: t → isSpace3 b2 b1 b0 = false) :
    ¬ EndsWithSpace l.reverse := by
  rintro ⟨c, hc, t, ht⟩
  have hl : l = c.reverse ++ t.reverse := by
    have := congrArg List.reverse ht
    rw [List.reverse_append, List.reverse_reverse] at this
    exact this.symm
  have hlen := whiteSpace_length c hc
  rcases c with _ | ⟨b0, _ | ⟨b1, _ | ⟨b2, _ | ⟨b3, c⟩⟩⟩⟩
  · simp at hlen
  · have := h1 b0 t.reverse (by simpa using hl)
    rw [(isSpace1_iff b0).2 hc] at this
    exact Bool.noConfusion this
  · have := h2 b1 b0 t.reverse (by simpa using hl)
    rw [(isSpace2_iff b0 b1).2 hc] at this
    exact Bool.noConfusion this
  · have := h3 b2 b1 b0 t.reverse (by simpa using hl)
    rw [(isSpace3_iff b0 b1 b2).2 hc] at this
    exact Bool.noConfusion this
  · simp at hlen

theorem trimLeftSpace_eqs (b0 b1 b2 : Nat) (t : GoString) :
    (isSpace1 b0 = true → trimLeftSpace (b0 :: t) = trimLeftSpace t)
    ∧ (isSpace1 b0 = false → trimLeftSpace [b0] = [b0])
    ∧ (isSpace1 b0 = false → isSpace2 b0 b1 = true → trimLeftSpace (b0 :: b1 :: t) = trimLeftSpace t)
    ∧ (isSpace1 b0 = false → isSpace2 b0 b1 = false → trimLeftSpace [b0, b1] = [b0, b1])
    ∧ (isSpace1 b0 = false → isSpace2 b0 b1 = false → isSpace3 b0 b1 b2 = true →
        trimLeftSpace (b0 :: b1 :: b2 :: t) = trimLeftSpace t)
    ∧ (isSpace1 b0 = false → isSpace2 b0 b1 = false → isSpace3 b0 b1 b2 = false →
        trimLeftSpace (b0 :: b1 :: b2 :: t) = b0 :: b1 :: b2 :: t) := by
  refine ⟨?_, ?_, ?_, ?_, ?_, ?_⟩
  · intro h
    rw [trimLeftSpace.eq_def]
    simp [h]
  · intro h
    rw [trimLeftSpace.eq_def]
    simp [h]
  · intro h h2
    rw [trimLeftSpace.eq_def]
    simp [h, h2]
  · intro h h2
    rw [trimLeftSpace.eq_def]
    simp [h, h2]
  · intro h h2 h3
    rw [trimLeftSpace.eq_def]
    simp [h, h2, h3]
  · intro h h2 h3
    rw [trimLeftSpace.eq_def]
    simp [h, h2, h3]

theorem trimLeftSpace_spec_aux : ∀ (n : Nat) (s : GoString), s.length ≤ n →
    ∃ pre, s = pre ++ trimLeftSpace s ∧ SpaceRun pre ∧ ¬ StartsWithSpace (trimLeftSpace s) := by
  intro n
  induction n using Nat.strong_induction_on with
  | _ n ih =>
    intro s hs
    rcases s with _ | ⟨b0, t⟩
    · refine ⟨[], rfl, SpaceRun_nil, ?_⟩
      exact not_StartsWithSpace_of _ (fun _ _ h => by cases h) (fun _ _ _ h => by cases h)
        (fun _ _ _ _ h => by cases h)
    rcases h : isSpace1 b0 with _ | _
    swap
    · obtain ⟨pre, hs2, hp, hn⟩ := ih t.length (by simp at hs; omega) t (Nat.le_refl _)
      rw [(trimLeftSpace_eqs b0 0 0 t).1 h]
      refine ⟨[b0] ++ pre, ?_, SpaceRun_cons _ _ ((isSpace1_iff b0).1 h) hp, hn⟩
      rw [List.append_assoc, ← hs2]
      rfl
    rcases t with _ | ⟨b1, t1⟩
    · rw [(trimLeftSpace_eqs b0 0 0 []).2.1 h]
      refine ⟨[], rfl, SpaceRun_nil, ?_⟩
      refine not_StartsWithSpace_of _ ?_ (fun _ _ _ h => by cases h) (fun _ _ _ _ h => by cases h)
      intro b t hb
      cases hb
      exact h
    rcases h2 : isSpace2 b0 b1 with _ | _
    swap
    · obtain ⟨pre, hs2, hp, hn⟩ := ih t1.length (by simp at hs; omega) t1 (Nat.le_refl _)
      rw [(trimLeftSpace_eqs b0 b1 0 t1).2.2.1 h h2]
      refine ⟨[b0, b1] ++ pre, ?_, SpaceRun_cons _ _ ((isSpace2_iff b0 b1).1 h2) hp, hn⟩
      rw [List.append_assoc, ← hs2]
      rfl
    rcases t1 with _ | ⟨b2, t2⟩
    · rw [(trimLeftSpace_eqs b0 b1 0 []).2.2.2.1 h h2]
      refine ⟨[], rfl, SpaceRun_nil, ?_⟩
      refine not_StartsWithSpace_of _ ?_ ?_ (fun _ _ _ _ h => by cases h)
      · intro b t hb
        cases hb
        exact h
      · intro c0 c1 t hb
        cases hb
        exact h2
    rcases h3 : isSpace3 b0 b1 b2 with _ | _
    swap
    · obtain ⟨pre, hs2, hp, hn⟩ := ih t2.length (by simp at hs; omega) t2 (Nat.le_refl _)
      rw [(trimLeftSpace_eqs b0 b1 b2 t2).2.2.2.2.1 h h2 h3]
      refine ⟨[b0, b1, b2] ++ pre, ?_, SpaceRun_cons _ _ ((isSpace3_iff b0 b1 b2).1 h3) hp, hn⟩
      rw [List.append_assoc, ← hs2]
      rfl
    · rw [(trimLeftSpace_eqs b0 b1 b2 t2).2.2.2.2.2 h h2 h3]
      refine ⟨[], rfl, SpaceRun_nil, ?_⟩
      refine not_StartsWithSpace_of _ ?_ ?_ ?_
      · intro b t hb
        cases hb
        exact h
      · intro c0 c1 t hb
        cases hb
        exact h2
      · intro c0 c1 c2 t hb
        cases hb
        exact h3

theorem trimRightSpaceRev_eqs (b0 b1 b2 : Nat) (t : GoString) :
    (isSpace1 b0 = true → trimRightSpaceRev (b0 :: t) = trimRightSpaceRev t)
    ∧ (isSpace1 b0 = false → trimRightSpaceRev [b0] = [b0])
    ∧ (isSpace1 b0 = false → isSpace2 b1 b0 = true → trimRightSpaceRev (b0 :: b1 :: t) = trimRightSpaceRev t)
    ∧ (isSpace1 b0 = false → isSpace2 b1 b0 = false → trimRightSpaceRev [b0, b1] = [b0, b1])
    ∧ (isSpace1 b0 = false → isSpace2 b1 b0 = false → isSpace3 b2 b1 b0 = true →
        trimRightSpaceRev (b0 :: b1 :: b2 :: t) = trimRightSpaceRev t)
    ∧ (isSpace1 b0 = false → isSpace2 b1 b0 = false → isSpace3 b2 b1 b0 = false →
        trimRightSpaceRev (b0 :: b1 :: b2 :: t) = b0 :: b1 :: b2 :: t) := by
  refine ⟨?_, ?_, ?_, ?_, ?_, ?_⟩
  · intro h
    rw [trimRightSpaceRev.eq_def]
    simp [h]
  · intro h
    rw [trimRightSpaceRev.eq_def]
    simp [h]
  · intro h h2
    rw [trimRightSpaceRev.eq_def]
    simp [h, h2]
  · intro h h2
    rw [trimRightSpaceRev.eq_def]
    simp [h, h2]
  · intro h h2 h3
    rw [trimRightSpaceRev.eq_def]
    simp [h, h2, h3]
  · intro h h2 h3
    rw [trimRightSpaceRev.eq_def]
    simp [h, h2, h3]

theorem trimRightSpaceRev_spec_aux : ∀ (n : Nat) (s : GoString), s.length ≤ n →
    ∃ post, s = post.reverse ++ trimRightSpaceRev s ∧ SpaceRun post
      ∧ ¬ EndsWithSpace (trimRightSpaceRev s).reverse := by
  intro n
  induction n using Nat.strong_induction_on with
  | _ n ih =>
    intro s hs
    rcases s with _ | ⟨b0, t⟩
    · refine ⟨[], rfl, SpaceRun_nil, ?_⟩
      exact not_EndsWithSpace_of _ (fun _ _ h => by cases h) (fun _ _ _ h => by cases h)
        (fun _ _ _ _ h => by cases h)
    rcases h : isSpace1 b0 with _ | _
    swap
    · obtain ⟨post, hs2, hp, hn⟩ := ih t.length (by simp at hs; omega) t (Nat.le_refl _)
      rw [(trimRightSpaceRev_eqs b0 0 0 t).1 h]
      refine ⟨post ++ [b0], ?_, SpaceRun_snoc _ _ ((isSpace1_iff b0).1 h) hp, hn⟩
      rw [List.reverse_append, List.append_assoc, ← hs2]
      rfl
    rcases t with _ | ⟨b1, t1⟩
    · rw [(trimRightSpaceRev_eqs b0 0 0 []).2.1 h]
      refine ⟨[], rfl, SpaceRun_nil, ?_⟩
      refine not_EndsWithSpace_of _ ?_ (fun _ _ _ h => by cases h) (fun _ _ _ _ h => by cases h)
      intro b t hb
      cases hb
      exact h
    rcases h2 : isSpace2 b1 b0 with _ | _
    swap
    · obtain ⟨post, hs2, hp, hn⟩ := ih t1.length (by simp at hs; omega) t1 (Nat.le_refl _)
      rw [(trimRightSpaceRev_eqs b0 b1 0 t1).2.2.1 h h2]
      refine ⟨post ++ [b1, b0], ?_, SpaceRun_snoc _ _ ((isSpace2_iff b1 b0).1 h2) hp, hn⟩
      rw [List.reverse_append, List.append_assoc, ← hs2]
      rfl
    rcases t1 with _ | ⟨b2, t2⟩
    · rw [(trimRightSpaceRev_eqs b0 b1 0 []).2.2.2.1 h h2]
      refine ⟨[], rfl, SpaceRun_nil, ?_⟩
      refine not_EndsWithSpace_of _ ?_ ?_ (fun _ _ _ _ h => by cases h)
      · intro b t hb
        cases hb
        exact h
      · intro c0 c1 t hb
        cases hb
        exact h2
    rcases h3 : isSpace3 b2 b1 b0 with _ | _
    swap
    · obtain ⟨post, hs2, hp, hn⟩ := ih t2.length (by simp at hs; omega) t2 (Nat.le_refl _)
      rw [(trimRightSpaceRev_eqs b0 b1 b2 t2).2.2.2.2.1 h h2 h3]
      refine ⟨post ++ [b2, b1, b0], ?_, SpaceRun_snoc _ _ ((isSpace3_iff b2 b1 b0).1 h3) hp, hn⟩
      rw [List.reverse_append, List.append_assoc, ← hs2]
      rfl
    · rw [(trimRightSpaceRev_eqs b0 b1 b2 t2).2.2.2.2.2 h h2 h3]
      refine ⟨[], rfl, SpaceRun_nil, ?_⟩
      refine not_EndsWithSpace_of _ ?_ ?_ ?_
      · intro b t hb
        cases hb
        exact h
      · intro c0 c1 t hb
        cases hb
        exact h2
      · intro c0 c1 c2 t hb
        cases hb
        exact h3

/-- The string `TrimSpace s` is `s` with leading and trailing white space
trimmed. -/
theorem TrimSpace_spec_aux (s : GoString) : IsTrimOf s (TrimSpace s) := by
  obtain ⟨pre, hs, hpre, hns⟩ := trimLeftSpace_spec_aux s.length s (Nat.le_refl _)
  obtain ⟨post, ht, hpost, hne⟩ := trimRightSpaceRev_spec_aux (trimLeftSpace s).reverse.length
    (trimLeftSpace s).reverse (Nat.le_refl _)
  have ht2 : trimLeftSpace s = TrimSpace s ++ post := by
    have := congrArg List.reverse ht
    rw [List.reverse_reverse, List.reverse_append, List.reverse_reverse] at this
    exact this
  refine ⟨pre, post, ?_, hpre, hpost, ?_, hne⟩
  · rw [List.append_assoc, ← ht2]
    exact hs
  · rintro ⟨c, hc, hpc⟩
    apply hns
    refine ⟨c, hc, ?_⟩
    obtain ⟨r, hr⟩ := hpc
    exact ⟨r ++ post, by rw [ht2, ← List.append_assoc, hr]⟩

theorem nullStrip_concat (L : GoString) (b : Nat) :
    nullStrip (L ++ [b]) = if 1 ≤ L.length ∧ b = 0 then L else L ++ [b] := by
  unfold nullStrip
  have h2 : (L ++ [b]).length - 1 = L.length := by simp
  by_cases hl : 1 ≤ L.length
  · have h1 : ¬ (L ++ [b]).length < 2 := by simp; omega
    rw [if_neg h1, h2, List.drop_left, List.take_left]
    by_cases hb : b = 0
    · subst hb
      rw [if_neg (by simp), if_pos ⟨hl, rfl⟩]
    · rw [if_pos (by simpa using hb), if_neg (fun h => hb h.2)]
  · have h1 : (L ++ [b]).length < 2 := by simp; omega
    rw [if_pos h1, if_neg (fun h => hl h.1)]

/-- Claim C27, refuted on the code: the one-byte string `"\x00"` ends in NUL and
`NewValue` stores it as it is, NUL included. -/
theorem NewValue_keeps_single_NUL :
    NewValue (.string [0]) = .ok (.stringValue [0])
    ∧ List.getLast? [0] = some 0
    ∧ NewValue (.string [0]) ≠ .ok (.stringValue []) := by
  refine ⟨rfl, rfl, ?_⟩
  decide

/-- Claim C27 as amended: `NewValue(s)` builds the text value that stores
`nullStrip s`, which is `s` without its last byte when `s` has at least two
bytes and ends in NUL, and `s` itself otherwise (so the one-byte string `"\x00"`
and a string ending in two NULs keep one NUL); `Get`, `GetAll` and `String`
return the stored string trimmed by `strings.TrimSpace`, that is one and the
same string `t` with: the stored string is `pre ++ t ++ post`, `pre` and `post`
are made of white-space characters only, and `t` neither begins nor ends with a
white-space character. So `" \tAB C\r\n\x00"` is stored as `" \tAB C\r\n"` and
read as `"AB C"`; U+00A0 and U+3000 are trimmed as well; a NUL is no white
space. -/
theorem NewValue_text (p : Printer) (s : GoString) :
    NewValue (.string s) = .ok (.stringValue (nullStrip s))
    ∧ (2 ≤ s.length → s.getLast? = some 0 → nullStrip s = s.dropLast)
    ∧ (¬ (2 ≤ s.length ∧ s.getLast? = some 0) → nullStrip s = s)
    ∧ Value.Get (.stringValue (nullStrip s)) = .returns (.string (TrimSpace (nullStrip s)))
    ∧ Value.GetAll (.stringValue (nullStrip s)) = .string (TrimSpace (nullStrip s))
    ∧ Value.String p (.stringValue (nullStrip s)) = TrimSpace (nullStrip s)
    ∧ (∃ t, IsTrimOf (nullStrip s) t
        ∧ Value.Get (.stringValue (nullStrip s)) = .returns (.string t)
        ∧ Value.GetAll (.stringValue (nullStrip s)) = .string t
        ∧ Value.String p (.stringValue (nullStrip s)) = t)
    ∧ NewValue (.string [32, 9, 65, 66, 32, 67, 13, 10, 0])
        = .ok (.stringValue [32, 9, 65, 66, 32, 67, 13, 10])
    ∧ Value.Get (.stringValue [32, 9, 65, 66, 32, 67, 13, 10]) = .returns (.string [65, 66, 32, 67])
    ∧ Value.GetAll (.stringValue [0xC2, 0xA0, 65, 0xE3, 0x80, 0x80]) = .string [65]
    ∧ Value.String p (.stringValue [10, 32, 65, 32, 11, 12]) = [65]
    ∧ Value.Get (.stringValue [65, 32, 0]) = .returns (.string [65, 32, 0])
    ∧ Value.Get (.stringValue [32, 32]) = .returns (.string []) := by
  refine ⟨rfl, ?_, ?_, rfl, rfl, rfl,
    ⟨TrimSpace (nullStrip s), TrimSpace_spec_aux _, rfl, rfl, rfl⟩, rfl, rfl, rfl, rfl, rfl, rfl⟩
  · intro hl hlast
    rcases List.eq_nil_or_concat s with h | ⟨L, b, h⟩
    · subst h; simp at hl
    · rw [List.concat_eq_append] at h
      subst h
      have hb : b = 0 := by simpa using hlast
      have hL : 1 ≤ L.length := by simp at hl; omega
      rw [nullStrip_concat, if_pos ⟨hL, hb⟩, List.dropLast_concat]
  · intro hn
    rcases List.eq_nil_or_concat s with h | ⟨L, b, h⟩
    · subst h; rfl
    · rw [List.concat_eq_append] at h
      subst h
      rw [nullStrip_concat, if_neg]
      intro ⟨hL, hb⟩
      apply hn
      refine ⟨by simp; omega, by simp [hb]⟩

/-! ### The item delimiter at top level, and peeking -/

theorem parseAll_at_itemDelim_bytes (tagMap : tag.TagMap) (ex : Bool) (d4 q : List Nat)
    (hd : d4.length = 4) :
    ∀ fuel, 2 ≤ fuel → ∀ ds k,
      parseAll tagMap fuel ds ⟨ex, tagBytes SQItemDelim ++ d4 ++ q, k, .LittleEndian⟩
        = some (none, ds, ⟨ex, q, k + 8, .LittleEndian⟩) := by
  intro fuel hf ds k
  obtain ⟨f, rfl⟩ : ∃ f, fuel = f + 2 := ⟨fuel - 2, by omega⟩
  rw [parseAll, readElement_itemDelim tagMap f ex d4 q k .LittleEndian hd]
  rfl

theorem Parse_body_aux (tagMap : tag.TagMap) (ex : Bool) (body : List (List Nat × Element))
    (hb : ∀ p ∈ body, DecodesTo tagMap ex p.1 p.2 ∧ p.2.Tag ≠ SQItemDelim) :
    Parse tagMap (bodyBytes body) ex = some (.ok (putAll NewDataset body)) := by
  have h := Parse_of_prefix tagMap ex body hb [] _ 2 (parseAll_at_end tagMap ex)
  rw [List.append_nil] at h
  unfold Parse
  simp only [h]

/-- Claim C28: on a stream made of complete top-level elements, none of them an
`SQ_ITEM_DELIM` marker, then the eight bytes of an `SQ_ITEM_DELIM` marker
(`FE FF 0D E0` and four bytes of length), then any bytes `q`, `Parse` returns
without error the dataset it returns on the elements alone: nothing of `q` is
decoded, and no entry of the dataset has the tag of the marker. -/
theorem Parse_stops_at_item_delim (tagMap : tag.TagMap) (ex : Bool)
    (body : List (List Nat × Element)) (d4 q : List Nat)
    (hb : ∀ p ∈ body, DecodesTo tagMap ex p.1 p.2 ∧ p.2.Tag ≠ SQItemDelim)
    (hd : d4.length = 4) :
    Parse tagMap (bodyBytes body ++ (tagBytes SQItemDelim ++ d4 ++ q)) ex
        = some (.ok (putAll NewDataset body))
    ∧ Parse tagMap (bodyBytes body ++ (tagBytes SQItemDelim ++ d4 ++ q)) ex
        = Parse tagMap (bodyBytes body) ex
    ∧ tagBytes SQItemDelim = [0xFE, 0xFF, 0x0D, 0xE0]
    ∧ (∀ entry ∈ (putAll NewDataset body).elems,
        entry.1 ≠ SQItemDelim ∧ entry.2.Tag ≠ SQItemDelim) := by
  have h1 : Parse tagMap (bodyBytes body ++ (tagBytes SQItemDelim ++ d4 ++ q)) ex
      = some (.ok (putAll NewDataset body)) := by
    have h := Parse_of_prefix tagMap ex body hb (tagBytes SQItemDelim ++ d4 ++ q)
      (fun ds k => (none, ds, ⟨ex, q, k + 8, .LittleEndian⟩)) 2
      (parseAll_at_itemDelim_bytes tagMap ex d4 q hd)
    unfold Parse
    simp only [h]
  refine ⟨h1, ?_, tagBytes_SQItemDelim, ?_⟩
  · rw [h1, Parse_body_aux tagMap ex body hb]
  · intro entry he
    rcases mem_putAll_key _ _ he with h | ⟨p, hp, h⟩
    · cases h
    · rw [h]
      exact ⟨(hb p hp).2, (hb p hp).2⟩

/-- Claim C28 at one `PN` element, the marker with a zero length, and two stray
bytes. -/
theorem Parse_stops_at_item_delim_example :
    Parse exampleTags (examplePNBytes ++ (tagBytes SQItemDelim ++ [0, 0, 0, 0] ++ [0xAA, 0xBB]))
        true
      = Parse exampleTags examplePNBytes true := by
  have h := (Parse_stops_at_item_delim exampleTags true [(examplePNBytes, examplePN)]
    [0, 0, 0, 0] [0xAA, 0xBB]
    (fun p hp => by
      have : p = (examplePNBytes, examplePN) := by simpa using hp
      subst this
      exact ⟨examplePN_decodes, by decide⟩) rfl).2.1
  have hb : bodyBytes [(examplePNBytes, examplePN)] = examplePNBytes := by
    simp [bodyBytes]
  rw [hb] at h
  exact h

theorem checkSQMarker_cases (t : Nat) :
    checkSQMarker t = .ok none
    ∨ checkSQMarker t = .ok (some (NewElement t [] UndefinedLength .emptyValue)) := by
  unfold checkSQMarker
  simp only [NewValue]
  split_ifs
  · exact Or.inr rfl
  · exact Or.inr rfl
  · exact Or.inr rfl
  · exact Or.inl rfl

theorem readElementPeek_eq_readElement_aux (tagMap : tag.TagMap) (fuel : Nat) (ex : Bool)
    (b0 b1 b2 b3 : Nat) (rest : List Nat) (k : Nat) (o : ByteOrder) (maxTag : Nat)
    (h0 : b0 < 256) (h1 : b1 < 256) (h2 : b2 < 256) (h3 : b3 < 256)
    (hle : readLETagBytes [b0, b1, b2, b3] ≤ maxTag) :
    readElementPeek tagMap fuel ⟨ex, b0 :: b1 :: b2 :: b3 :: rest, k, o⟩ maxTag
      = readElement tagMap (fuel + 1) ⟨ex, b0 :: b1 :: b2 :: b3 :: rest, k, o⟩ := by
  have htag := readLETagBytes_eq b0 b1 b2 b3 h0 h1 h2 h3
  rw [htag] at hle
  rcases checkSQMarker_cases ((((b0 + b1 * 256) <<< 16) % 2 ^ 32) ||| (b2 + b3 * 256))
    with hsq | hsq
  · rw [readElementPeek_nonmarker_aux tagMap fuel ex b0 b1 b2 b3 rest k o maxTag h0 h1 h2 h3 hsq,
      if_neg (Nat.not_lt.2 hle)]
  · have hpeek : reader.Peek ⟨ex, b0 :: b1 :: b2 :: b3 :: rest, k, o⟩ 4
        = ([b0, b1, b2, b3], none) := by
      simp [reader.Peek]
    have htake : List.take 4 [b0, b1, b2, b3] = [b0, b1, b2, b3] := rfl
    have hlt : readLETag ⟨ex, b0 :: b1 :: b2 :: b3 :: rest, k, o⟩
        = (.ok ((((b0 + b1 * 256) <<< 16) % 2 ^ 32) ||| (b2 + b3 * 256)),
            ⟨ex, rest, k + 2 + 2, o⟩) := by
      simp only [readLETag, ReadUint16LE_cons]
    have hskip : reader.Skip ⟨ex, b0 :: b1 :: b2 :: b3 :: rest, k, o⟩ 8
        = reader.Skip ⟨ex, rest, k + 2 + 2, o⟩ 4 := by
      simp only [reader.Skip, Prod.mk.injEq, reader.mk.injEq, true_and]
      refine ⟨rfl, ?_⟩
      have : List.take 8 (b0 :: b1 :: b2 :: b3 :: rest)
          = b0 :: b1 :: b2 :: b3 :: List.take 4 rest := rfl
      rw [this]
      simp only [List.length_cons, and_true]
      omega
    unfold readElementPeek
    rw [hpeek]
    simp only [htake, htag, if_neg (Nat.not_lt.2 hle), hsq, hskip]
    rw [readElement, hlt]
    simp only [hsq]
    rfl

/-- Claim C29: on a reader with at least four bytes left whose next four bytes
decode to a tag of at most `maxTag`, `readElementPeek` does what `readElement`
does: the same result (element or error) and the same reader afterwards, hence
the same bytes consumed, at an SQ marker as at an ordinary tag; and it returns
whenever the fuel exceeds the bytes left. The peeked tag is
`(b0 | b1<<8) << 16 | (b2 | b3<<8)`. -/
theorem readElementPeek_as_readElement (tagMap : tag.TagMap) (fuel : Nat) (r : reader)
    (maxTag : Nat) (h4 : 4 ≤ r.input.length) (hbytes : ∀ b ∈ r.input.take 4, b < 256)
    (hle : readLETagBytes (r.input.take 4) ≤ maxTag) :
    readElementPeek tagMap fuel r maxTag = readElement tagMap (fuel + 1) r
    ∧ (r.input.length + 1 ≤ fuel → (readElementPeek tagMap fuel r maxTag).isSome)
    ∧ (∀ b0 b1 b2 b3 : Nat, b0 < 256 → b1 < 256 → b2 < 256 → b3 < 256 →
        readLETagBytes [b0, b1, b2, b3] = (b0 + b1 * 256) * 65536 + (b2 + b3 * 256)) := by
  obtain ⟨ex, input, k, o⟩ := r
  rcases input with _ | ⟨b0, _ | ⟨b1, _ | ⟨b2, _ | ⟨b3, rest⟩⟩⟩⟩
  · simp at h4
  · simp at h4
  · simp at h4
  · simp at h4
  · have htake : List.take 4 (b0 :: b1 :: b2 :: b3 :: rest) = [b0, b1, b2, b3] := by
      simp
    simp only at hbytes hle
    rw [htake] at hbytes hle
    have heq := readElementPeek_eq_readElement_aux tagMap fuel ex b0 b1 b2 b3 rest k o maxTag
      (hbytes b0 (by simp)) (hbytes b1 (by simp)) (hbytes b2 (by simp)) (hbytes b3 (by simp)) hle
    refine ⟨heq, ?_, ?_⟩
    · intro hf
      rw [heq]
      exact (fuel_enough_aux tagMap (fuel + 1)).2.1 _ (by simp only at hf ⊢; omega)
    · intro c0 c1 c2 c3 hc0 hc1 hc2 hc3
      rw [readLETagBytes_eq c0 c1 c2 c3 hc0 hc1 hc2 hc3,
        tag_of_words _ _ (by omega) (by omega)]

/-- Claim C29 at the `PN` element `(0010,0010)` with `maxTag = (0010,0010)`, and
at an `SQ_ITEM` marker of which only six bytes are left. -/
theorem readElementPeek_as_readElement_example :
    readElementPeek exampleTags 2 ⟨true, examplePNBytes, 0, .LittleEndian⟩ 0x00100010
        = readElement exampleTags 3 ⟨true, examplePNBytes, 0, .LittleEndian⟩
    ∧ readElementPeek exampleTags 2 ⟨true, tagBytes SQItem ++ [0, 0], 0, .LittleEndian⟩
          0xFFFFFFFF
        = readElement exampleTags 3 ⟨true, tagBytes SQItem ++ [0, 0], 0, .LittleEndian⟩ :=
  ⟨(readElementPeek_as_readElement exampleTags 2 ⟨true, examplePNBytes, 0, .LittleEndian⟩
      0x00100010 (by decide) (by decide) (by decide)).1,
   (readElementPeek_as_readElement exampleTags 2
      ⟨true, tagBytes SQItem ++ [0, 0], 0, .LittleEndian⟩
      0xFFFFFFFF (by decide) (by decide) (by decide)).1⟩

/-! ### Undefined lengths in parsed datasets -/

theorem not_Stored_NewDataset (e : Element) : ¬ Stored e NewDataset := by
  intro h
  generalize hd : NewDataset = d at h
  cases h with
  | top _ k hk => subst hd; cases hk
  | nested _ k outer items item hk _ _ _ => subst hd; cases hk

theorem Stored_Put (ds : Dataset) (x e : Element) (h : Stored e (ds.Put (some x))) :
    Stored e ds ∨ e = x
      ∨ ∃ items item, x.Value = .sqValue items ∧ item ∈ items ∧ Stored e item := by
  generalize hd : ds.Put (some x) = d at h
  cases h with
  | top _ k hk =>
    subst hd
    rcases mem_mapSet hk with h | h
    · exact Or.inl (Stored.top ds k h)
    · exact Or.inr (Or.inl (congrArg Prod.snd h))
  | nested _ k outer items item hk hv hi hs =>
    subst hd
    rcases mem_mapSet hk with h | h
    · exact Or.inl (Stored.nested ds k outer items item h hv hi hs)
    · have ho : outer = x := congrArg Prod.snd h
      subst ho
      exact Or.inr (Or.inr ⟨items, item, hv, hi, hs⟩)

theorem checkSQMarker_some (t : Nat) (e : Element) (h : checkSQMarker t = .ok (some e)) :
    e = NewElement t [] UndefinedLength .emptyValue
      ∧ (t = SQItem ∨ t = SQItemDelim ∨ t = SQDelim) := by
  unfold checkSQMarker at h
  simp only [NewValue] at h
  split_ifs at h with h1 h2 h3
  · simp only [Except.ok.injEq, Option.some.injEq] at h
    exact ⟨h.symm, Or.inl h1⟩
  · simp only [Except.ok.injEq, Option.some.injEq] at h
    exact ⟨h.symm, Or.inr (Or.inl h2)⟩
  · simp only [Except.ok.injEq, Option.some.injEq] at h
    exact ⟨h.symm, Or.inr (Or.inr h3)⟩
  · simp at h

theorem GoodValue_of_not_sq (v : Value) (h : ∀ items, v ≠ .sqValue items) : GoodValue v :=
  fun items hv => absurd hv (h items)

/-- The values read for a defined length are no sequences. -/
theorem readers_not_sq (r r1 : reader) (vl : Nat) (items : List Dataset) :
    readStringValue r vl ≠ (.ok (.sqValue items), r1)
    ∧ readUint32Value r vl ≠ (.ok (.sqValue items), r1)
    ∧ readUint16Value r vl ≠ (.ok (.sqValue items), r1)
    ∧ readBytesValue r vl ≠ (.ok (.sqValue items), r1)
    ∧ readFloat32Value r vl ≠ (.ok (.sqValue items), r1)
    ∧ readFloat64Value r vl ≠ (.ok (.sqValue items), r1)
    ∧ readInt32Value r vl ≠ (.ok (.sqValue items), r1)
    ∧ readInt16Value r vl ≠ (.ok (.sqValue items), r1) := by
  refine ⟨?_, ?_, ?_, ?_, ?_, ?_, ?_, ?_⟩
  · unfold readStringValue
    rcases r.ReadString vl with ⟨_ | s, r2⟩ <;> simp [NewValue]
  · unfold readUint32Value
    rcases readN reader.ReadUint32 (vl / 4) r with ⟨_ | s, r2⟩ <;> simp [NewValue]
  · unfold readUint16Value
    rcases readN reader.ReadUint16 (vl / 2) r with ⟨_ | s, r2⟩ <;> simp [NewValue]
  · unfold readBytesValue
    rcases ioReadFull r vl with ⟨⟨bs, _ | err⟩, r2⟩ <;> simp only [NewValue]
    · simp
    · split_ifs <;> simp
  · unfold readFloat32Value
    rcases readN reader.ReadFloat32 (vl / 4) r with ⟨_ | s, r2⟩ <;> simp [NewValue]
  · unfold readFloat64Value
    rcases readN reader.ReadFloat64 (vl / 8) r with ⟨_ | s, r2⟩ <;> simp [NewValue]
  · unfold readInt32Value
    rcases readN reader.ReadInt32 (vl / 4) r with ⟨_ | s, r2⟩ <;> simp [NewValue]
  · unfold readInt16Value
    rcases readN reader.ReadInt16 (vl / 2) r with ⟨_ | s, r2⟩ <;> simp [NewValue]

theorem readValue_defined_not_sq (tagMap : tag.TagMap) (fuel : Nat) (r r1 : reader)
    (vr : GoString) (vl : Nat) (items : List Dataset) (hu : vl ≠ UndefinedLength) :
    readValue tagMap fuel r vr vl ≠ some (.ok (.sqValue items), r1) := by
  obtain ⟨h1, h2, h3, h4, h5, h6, h7, h8⟩ := readers_not_sq r r1 vl items
  cases fuel with
  | zero => simp [readValue]
  | succ f =>
    rw [readValue, if_neg hu]
    by_cases c1 : vr ∈ textVRs
    · rw [if_pos c1]; exact fun h => h1 (Option.some.inj h)
    rw [if_neg c1]
    by_cases c2 : vr = ascii "UL"
    · rw [if_pos c2]; exact fun h => h2 (Option.some.inj h)
    rw [if_neg c2]
    by_cases c3 : vr = ascii "US" ∨ vr = ascii "xs"
    · rw [if_pos c3]; exact fun h => h3 (Option.some.inj h)
    rw [if_neg c3]
    by_cases c4 : vr = ascii "OB" ∨ vr = ascii "UN" ∨ vr = ascii "ox" ∨ vr = ascii "px"
    · rw [if_pos c4]; exact fun h => h4 (Option.some.inj h)
    rw [if_neg c4]
    by_cases c5 : vr = ascii "FL"
    · rw [if_pos c5]; exact fun h => h5 (Option.some.inj h)
    rw [if_neg c5]
    by_cases c6 : vr = ascii "FD"
    · rw [if_pos c6]; exact fun h => h6 (Option.some.inj h)
    rw [if_neg c6]
    by_cases c7 : vr = ascii "SL"
    · rw [if_pos c7]; exact fun h => h7 (Option.some.inj h)
    rw [if_neg c7]
    by_cases c8 : vr = ascii "SS" ∨ vr = ascii "OW"
    · rw [if_pos c8]; exact fun h => h8 (Option.some.inj h)
    rw [if_neg c8]
    simp

/-- What the recursive descent returns is good: `parseAll` keeps a good dataset
good, a returned element has the VR `SQ` when its length is undefined unless it
is one of the three marker elements, and the items of a returned sequence are
good datasets. -/
theorem good_aux (tagMap : tag.TagMap) (n : Nat) :
    (∀ ds r x, parseAll tagMap n ds r = some x → GoodDataset ds → GoodDataset x.2.1)
    ∧ (∀ r e r1, readElement tagMap n r = some (.ok e, r1) →
        (e.VL = UndefinedLength → e.VR = ascii "SQ"
          ∨ (e.VR = [] ∧ e.Value = .emptyValue
              ∧ (e.Tag = SQItem ∨ e.Tag = SQItemDelim ∨ e.Tag = SQDelim)))
        ∧ GoodValue e.Value)
    ∧ (∀ items r v r1, readSequenceLoop tagMap n items r = some (.ok v, r1) →
        (∀ item ∈ items, GoodDataset item) → GoodValue v)
    ∧ (∀ r v r1, readSequence tagMap n r = some (.ok v, r1) → GoodValue v)
    ∧ (∀ r vr v r1, readUndefLenValue tagMap n r vr = some (.ok v, r1) →
        vr = ascii "SQ" ∧ GoodValue v)
    ∧ (∀ r vr vl v r1, readValue tagMap n r vr vl = some (.ok v, r1) →
        (vl = UndefinedLength → vr = ascii "SQ") ∧ GoodValue v) := by
  induction n with
  | zero =>
    refine ⟨?_, ?_, ?_, ?_, ?_, ?_⟩
    · intro ds r x h; simp [parseAll] at h
    · intro r e r1 h; simp [readElement] at h
    · intro items r v r1 h; simp [readSequenceLoop] at h
    · intro r v r1 h; simp [readSequence] at h
    · intro r vr v r1 h; simp [readUndefLenValue] at h
    · intro r vr vl v r1 h; simp [readValue] at h
  | succ n ih =>
    obtain ⟨ihPA, ihRE, ihSL, ihRS, ihRU, ihRV⟩ := ih
    refine ⟨?_, ?_, ?_, ?_, ?_, ?_⟩
    · intro ds r x h hds
      rw [parseAll] at h
      cases hre : readElement tagMap n r with
      | none => simp [hre] at h
      | some y =>
        rw [hre] at h
        rcases y with ⟨err | elem, r1⟩
        · simp only at h
          split_ifs at h <;> simp only [Option.some.injEq] at h <;> subst h <;> exact hds
        · simp only at h
          split_ifs at h with hdelim
          · simp only [Option.some.injEq] at h
            subst h
            exact hds
          · obtain ⟨hgood, hval⟩ := ihRE r elem r1 hre
            refine ihPA _ _ _ h ?_
            intro e he
            rcases Stored_Put ds elem e he with h1 | h1 | ⟨items, item, hv, hi, hs⟩
            · exact hds e h1
            · subst h1
              intro hvl
              rcases hgood hvl with h2 | ⟨h2, h3, h4⟩
              · exact Or.inl h2
              · refine Or.inr ⟨h2, h3, ?_⟩
                rcases h4 with h4 | h4 | h4
                · exact Or.inl h4
                · exact absurd h4 hdelim
                · exact Or.inr h4
            · exact hval items hv item hi e hs
    · intro r e r1 h
      obtain ⟨tg, r2, _, htag, hcase⟩ := readElement_ok_inv tagMap n r r1 e h
      rcases hcase with ⟨hsq, _, hvr⟩ | ⟨_, vr, r3, vl, r4, value, _, _, hv, he⟩
      · obtain ⟨hE, hT⟩ := checkSQMarker_some tg e hsq
        refine ⟨fun _ => Or.inr ⟨hvr, by rw [hE]; rfl, by rw [htag]; exact hT⟩, ?_⟩
        rw [hE]
        exact GoodValue_of_not_sq _ (fun items hc => by cases hc)
      · subst he
        obtain ⟨h1, h2⟩ := ihRV r4 vr vl value r1 hv
        exact ⟨fun hvl => Or.inl (h1 hvl), h2⟩
    · intro items r v r1 h hitems
      rw [readSequenceLoop] at h
      cases hri : readImpLEElement tagMap n r with
      | none => simp [hri] at h
      | some y =>
        rw [hri] at h
        rcases y with ⟨err | elem, r2⟩
        · simp at h
        · simp only at h
          split_ifs at h with hd hi
          · simp only [NewValue, Option.some.injEq, Prod.mk.injEq, Except.ok.injEq] at h
            intro items2 hv item hitem
            rw [← h.1] at hv
            cases hv
            exact hitems item hitem
          · simp at h
          · cases hpa : parseAll tagMap n NewDataset r2 with
            | none => simp [hpa] at h
            | some z =>
              rw [hpa] at h
              rcases z with ⟨_ | err, ds, r3⟩
              · simp only at h
                refine ihSL _ _ _ _ h ?_
                intro item hitem
                rcases List.mem_append.1 hitem with h1 | h1
                · exact hitems item h1
                · rw [List.mem_singleton.1 h1]
                  exact ihPA NewDataset r2 _ hpa
                    (fun e he => absurd he (not_Stored_NewDataset e))
              · simp at h
    · intro r v r1 h
      rw [readSequence] at h
      exact ihSL [] r v r1 h (fun item hi => absurd hi (List.not_mem_nil _))
    · intro r vr v r1 h
      rw [readUndefLenValue] at h
      split_ifs at h with hvr
      · exact ⟨hvr, ihRS r v r1 h⟩
      · simp at h
    · intro r vr vl v r1 h
      by_cases hu : vl = UndefinedLength
      · rw [readValue, if_pos hu] at h
        obtain ⟨h1, h2⟩ := ihRU r vr v r1 h
        exact ⟨fun _ => h1, h2⟩
      · refine ⟨fun hc => absurd hc hu, ?_⟩
        intro items hv
        subst hv
        exact absurd h (readValue_defined_not_sq tagMap (n + 1) r r1 vr vl items hu)

/-- Claim C25, refuted on the code: on the eight bytes of a stray `SQ_ITEM`
marker `Parse` succeeds and the dataset stores the marker element, whose length
is undefined and whose VR is the empty string. -/
theorem Parse_stores_stray_marker :
    Parse exampleTags (tagBytes SQItem ++ [0, 0, 0, 0]) true
        = some (.ok (.mk [(SQItem, NewElement SQItem [] UndefinedLength .emptyValue)]))
    ∧ Stored (NewElement SQItem [] UndefinedLength .emptyValue)
        (.mk [(SQItem, NewElement SQItem [] UndefinedLength .emptyValue)])
    ∧ (NewElement SQItem [] UndefinedLength .emptyValue).VL = UndefinedLength
    ∧ (NewElement SQItem [] UndefinedLength .emptyValue).VR ≠ ascii "SQ" := by
  refine ⟨by decide!, Stored.top _ SQItem (List.mem_singleton.2 rfl), rfl, by decide⟩

/-- Claim C25 as amended: when `Parse` succeeds, every element stored in the
returned dataset, at top level or in an item of a sequence at any depth, whose
VL is `0xFFFFFFFF` either has the VR `SQ` or is the synthetic element of a stray
`SQ_ITEM` or `SQ_DELIM` marker (empty VR, empty value). -/
theorem Parse_undefined_length (tagMap : tag.TagMap) (stream : List Nat) (ex : Bool)
    (ds : Dataset) (h : Parse tagMap stream ex = some (.ok ds)) :
    ∀ e, Stored e ds → e.VL = UndefinedLength →
      e.VR = ascii "SQ"
      ∨ (e.VR = [] ∧ e.Value = .emptyValue ∧ (e.Tag = SQItem ∨ e.Tag = SQDelim)) := by
  unfold Parse at h
  simp only at h
  cases hpa : parseAll tagMap (fuelFor stream) NewDataset
      (NewReader stream .LittleEndian ex) with
  | none => rw [hpa] at h; cases h
  | some x =>
    rw [hpa] at h
    have hgood := (good_aux tagMap (fuelFor stream)).1 _ _ x hpa
      (fun e he => absurd he (not_Stored_NewDataset e))
    rcases x with ⟨_ | err, ds1, r1⟩
    · simp only [Option.some.injEq, Except.ok.injEq] at h
      subst h
      exact hgood
    · simp at h

/-- Claim C25 as amended, at the sequence of two items with one `PN` element
each. -/
theorem Parse_undefined_length_example :
    Parse exampleTags exampleSequence true = some (.ok exampleSequenceDataset)
    ∧ ∀ e, Stored e exampleSequenceDataset → e.VL = UndefinedLength →
        e.VR = ascii "SQ"
        ∨ (e.VR = [] ∧ e.Value = .emptyValue ∧ (e.Tag = SQItem ∨ e.Tag = SQDelim)) :=
  ⟨by decide!, Parse_undefined_length exampleTags exampleSequence true exampleSequenceDataset
    (by decide!)⟩

/-! ### Termination -/

/-- Claim C32: `Parse` returns on every finite stream and either flag: the fuel
the embedding gives it, the length of the stream plus 3, is never used up, and
more fuel changes nothing. The reason is that the input never grows and that a
successful `readElement` consumes at least 4 bytes and a successful
`readImpLEElement` at least 8, so every nested `parseAll` starts with fewer
bytes left than the one that led to it. -/
theorem Parse_terminates (tagMap : tag.TagMap) (stream : List Nat) (ex : Bool) :
    (Parse tagMap stream ex).isSome
    ∧ (∀ fuel, fuelFor stream ≤ fuel →
        parseAll tagMap fuel NewDataset (NewReader stream .LittleEndian ex)
          = parseAll tagMap (fuelFor stream) NewDataset (NewReader stream .LittleEndian ex))
    ∧ (∀ n r e r1, readElement tagMap n r = some (.ok e, r1) →
        r1.input.length + 4 ≤ r.input.length)
    ∧ (∀ n r e r1, readImpLEElement tagMap n r = some (.ok e, r1) →
        r1.input.length + 8 ≤ r.input.length)
    ∧ (∀ n ds r x, parseAll tagMap n ds r = some x → x.2.2.input.length ≤ r.input.length)
    ∧ (∀ n r vr vl x, readValue tagMap n r vr vl = some x →
        x.2.input.length ≤ r.input.length)
    ∧ (∀ n r x, readSequence tagMap n r = some x → x.2.input.length ≤ r.input.length)
    ∧ (∀ n ds r, r.input.length + 3 ≤ n → (parseAll tagMap n ds r).isSome) := by
  obtain ⟨x, hx⟩ := parseAll_fuelFor tagMap stream NewDataset
    (NewReader stream .LittleEndian ex) (Nat.le_refl _)
  refine ⟨?_, ?_, ?_, ?_, ?_, ?_, ?_, ?_⟩
  · unfold Parse
    simp only [hx]
    rcases x with ⟨_ | err, ds1, r1⟩ <;> rfl
  · intro fuel hf
    rw [hx]
    exact parseAll_fuel_mono tagMap hf hx
  · intro n r e r1 h
    exact ((consumed_aux tagMap n).2.1 r _ h).2 e rfl
  · intro n r e r1 h
    exact ((consumed_aux tagMap n).2.2.1 r _ h).2 e rfl
  · intro n ds r x h
    exact (consumed_aux tagMap n).1 ds r x h
  · intro n r vr vl x h
    exact (consumed_aux tagMap n).2.2.2.2.2.2 r vr vl x h
  · intro n r x h
    exact (consumed_aux tagMap n).2.2.2.2.1 r x h
  · intro n ds r h
    exact (fuel_enough_aux tagMap n).1 ds r h

/-! ### The first element of the file meta group -/

/-- Claim C34, evaluated on the code: entered behind the prologue on a stream
whose first element is the text element `(0002,0010) UI "1.2"`, or the element
`(0002,0000) UL` of length 0, `parseFileMeta` panics (the type assertion
`.(uint32)` on a string, the index `value[0]` into an empty slice), and so does
`ParseFile` on the files made of the prologue and these streams. -/
theorem parseFileMeta_panics :
    parseFileMeta exampleTags (fuelFor metaUIBytes) NewDataset
        ⟨true, metaUIBytes, 132, .LittleEndian⟩ = some .panics
    ∧ parseFileMeta exampleTags (fuelFor emptyULBytes) NewDataset
        ⟨true, emptyULBytes, 132, .LittleEndian⟩ = some .panics
    ∧ ParseFile exampleTags (List.replicate 128 0 ++ ascii "DICM" ++ metaUIBytes)
        = some .panics
    ∧ ParseFile exampleTags (List.replicate 128 0 ++ ascii "DICM" ++ emptyULBytes)
        = some .panics := by
  refine ⟨by decide!, by decide!, by decide!, by decide!⟩

/-! ### Sequences that the stream leaves open -/

theorem readSequenceLoop_at_end (tagMap : tag.TagMap) (ex : Bool) (o : ByteOrder) :
    ∀ fuel, 2 ≤ fuel → ∀ (acc : List Dataset) (k : Nat),
      readSequenceLoop tagMap fuel acc ⟨ex, [], k, o⟩
        = some (.error dcmerr.NewErrEOF, ⟨ex, [], k, o⟩) := by
  intro fuel hf acc k
  obtain ⟨f, rfl⟩ : ∃ f, fuel = f + 2 := ⟨fuel - 2, by omega⟩
  rw [readSequenceLoop, readImpLEElement]
  rfl

/-- The loop of `readSequence` over complete items, whatever follows them. -/
theorem readSequenceLoop_items_prefix (tagMap : tag.TagMap) (ex : Bool) (items : List WireItem)
    (hw : ∀ it ∈ items, it.WellFormed tagMap ex) :
    ∃ fuel0, ∀ fuel, fuel0 ≤ fuel → ∀ (acc : List Dataset) (rest : List Nat) (k : Nat),
      readSequenceLoop tagMap (fuel + items.length) acc
          ⟨ex, itemsBytes items ++ rest, k, .LittleEndian⟩
        = readSequenceLoop tagMap fuel (acc ++ items.map WireItem.dataset)
            ⟨ex, rest, k + (itemsBytes items).length, .LittleEndian⟩ := by
  induction items with
  | nil =>
    refine ⟨0, fun fuel _ acc rest k => ?_⟩
    simp [itemsBytes]
  | cons it items ih =>
    obtain ⟨f2, ih⟩ := ih (fun q hq => hw q (List.mem_cons_of_mem _ hq))
    obtain ⟨f1, h1⟩ := readSequenceLoop_item_aux tagMap ex it (hw it (List.mem_cons_self _ _))
    refine ⟨max f1 f2, ?_⟩
    intro fuel hf acc rest k
    have hbytes : itemsBytes (it :: items) ++ rest = it.bytes ++ (itemsBytes items ++ rest) := by
      simp [itemsBytes, List.append_assoc]
    have hlen : fuel + (it :: items).length = (fuel + items.length) + 1 := by
      simp only [List.length_cons]; omega
    rw [hlen, hbytes, h1 (fuel + items.length) (by omega), ih fuel (by omega)]
    simp only [List.map_cons, List.append_assoc, List.singleton_append, itemsBytes,
      List.flatten_cons, List.length_append, Nat.add_assoc]

/-- An item that was opened and whose body of complete elements runs to the end
of the stream: the loop of `readSequence` fails with the EOF of the next tag. -/
theorem readSequenceLoop_open_item (tagMap : tag.TagMap) (ex : Bool) (l4 : List Nat)
    (body : List (List Nat × Element)) (hl : l4.length = 4)
    (hb : ∀ p ∈ body, DecodesTo tagMap ex p.1 p.2 ∧ p.2.Tag ≠ SQItemDelim) :
    ∃ fuel0, ∀ fuel, fuel0 ≤ fuel → ∀ (acc : List Dataset) (k : Nat),
      readSequenceLoop tagMap fuel acc
          ⟨ex, tagBytes SQItem ++ l4 ++ bodyBytes body, k, .LittleEndian⟩
        = some (.error dcmerr.NewErrEOF,
            ⟨ex, [], k + 8 + (bodyBytes body).length, .LittleEndian⟩) := by
  obtain ⟨f0, hpre⟩ := parseAll_prefix tagMap ex body hb
  refine ⟨max f0 2 + body.length + 1, ?_⟩
  intro fuel hf acc k
  obtain ⟨f, rfl⟩ : ∃ f, fuel = f + body.length + 1 := ⟨fuel - body.length - 1, by omega⟩
  have hpa : parseAll tagMap (f + body.length) NewDataset
      ⟨ex, bodyBytes body, k + 8, .LittleEndian⟩
      = some (none, putAll NewDataset body,
          ⟨ex, [], k + 8 + (bodyBytes body).length, .LittleEndian⟩) := by
    have h := hpre f (by omega) NewDataset [] (k + 8)
    rw [List.append_nil] at h
    rw [h, parseAll_at_end tagMap ex f (by omega)]
  obtain ⟨m, hm⟩ : ∃ m, f + body.length = m + 1 := ⟨f + body.length - 1, by omega⟩
  rw [readSequenceLoop]
  rw [hm] at hpa ⊢
  rw [readImpLEElement_marker tagMap m ex SQItem l4 _ k _ (Or.inl rfl) hl]
  show (if SQItem = SQDelim then _ else if SQItem ≠ SQItem then _ else _) = _
  rw [if_neg (by decide), if_neg (by decide), hpa]
  exact readSequenceLoop_at_end tagMap ex _ _ (by omega) _ _

/-- When the loop of `readSequence` fails behind the header of an SQ element of
undefined length, `parseAll` returns that error wrapped as an IO error. -/
theorem parseAll_at_unterminated (tagMap : tag.TagMap) (ex : Bool) (t : Nat)
    (reserved tail : List Nat) (k f1 : Nat) (err : GoError) (r4 : reader)
    (ht : t < 2 ^ 32) (h1 : t ≠ SQItem) (h2 : t ≠ SQItemDelim) (h3 : t ≠ SQDelim)
    (hres : reserved.length = 2) (hvr : ex = false → tag.VR tagMap t = ascii "SQ")
    (hseq : readSequenceLoop tagMap f1 []
        ⟨ex, tail, k + (sqHeader ex t reserved).length, .LittleEndian⟩ = some (.error err, r4)) :
    ∀ fuel, f1 + 5 ≤ fuel → ∀ ds,
      parseAll tagMap fuel ds ⟨ex, sqHeader ex t reserved ++ tail, k, .LittleEndian⟩
        = some (some (nearByteError r4 err), ds, r4) := by
  intro fuel hf ds
  obtain ⟨f, rfl⟩ : ∃ f, fuel = f + 5 := ⟨fuel - 5, by omega⟩
  have hloop := readSequenceLoop_fuel_mono tagMap (by omega : f1 ≤ f) hseq
  rw [parseAll, readElement_sqHeader tagMap f ex t reserved tail k ht h1 h2 h3 hres hvr, hloop]
  rfl

theorem Parse_unterminated_aux (tagMap : tag.TagMap) (ex : Bool)
    (body : List (List Nat × Element)) (t : Nat) (reserved tail : List Nat)
    (hb : ∀ p ∈ body, DecodesTo tagMap ex p.1 p.2 ∧ p.2.Tag ≠ SQItemDelim)
    (ht : t < 2 ^ 32) (h1 : t ≠ SQItem) (h2 : t ≠ SQItemDelim) (h3 : t ≠ SQDelim)
    (hres : reserved.length = 2) (hvr : ex = false → tag.VR tagMap t = ascii "SQ")
    (hseq : ∃ f1 err r4, readSequenceLoop tagMap f1 []
        ⟨ex, tail, (bodyBytes body).length + (sqHeader ex t reserved).length, .LittleEndian⟩
          = some (.error err, r4)) :
    ∃ err, Parse tagMap (bodyBytes body ++ (sqHeader ex t reserved ++ tail)) ex
        = some (.error err)
      ∧ dcmerr.code? err = some dcmerr.ErrIO := by
  obtain ⟨f1, err, r4, hseq⟩ := hseq
  obtain ⟨f0, hpre⟩ := parseAll_prefix tagMap ex body hb
  have hk : 0 + (bodyBytes body).length = (bodyBytes body).length := Nat.zero_add _
  have hT := parseAll_at_unterminated tagMap ex t reserved tail (0 + (bodyBytes body).length)
    f1 err r4 ht h1 h2 h3 hres hvr (by rw [hk]; exact hseq)
  have hrun : parseAll tagMap (max f0 (f1 + 5) + body.length) NewDataset
      (NewReader (bodyBytes body ++ (sqHeader ex t reserved ++ tail)) .LittleEndian ex)
      = some (some (nearByteError r4 err), putAll NewDataset body, r4) := by
    unfold NewReader
    rw [hpre (max f0 (f1 + 5)) (Nat.le_max_left _ _),
      hT (max f0 (f1 + 5)) (Nat.le_max_right _ _)]
  have h := parseAll_at_fuelFor tagMap (bodyBytes body ++ (sqHeader ex t reserved ++ tail))
    _ _ (Nat.le_refl _) _ _ hrun
  refine ⟨nearByteError r4 err, ?_, rfl⟩
  unfold Parse
  simp only [h]

/-- The loop of `readSequence` returns a value only behind an `SQ_DELIM` marker
that `readImpLEElement` has read. -/
theorem readSequenceLoop_ok_delim (tagMap : tag.TagMap) (n : Nat) :
    ∀ (items : List Dataset) (r : reader) (v : Value) (r1 : reader),
      readSequenceLoop tagMap n items r = some (.ok v, r1) →
      ∃ m r0 e, readImpLEElement tagMap m r0 = some (.ok e, r1) ∧ e.Tag = SQDelim := by
  induction n with
  | zero => intro items r v r1 h; simp [readSequenceLoop] at h
  | succ n ih =>
    intro items r v r1 h
    rw [readSequenceLoop] at h
    cases hri : readImpLEElement tagMap n r with
    | none => simp [hri] at h
    | some y =>
      rw [hri] at h
      rcases y with ⟨err | elem, r2⟩
      · simp at h
      · simp only at h
        split_ifs at h with hd hi
        · simp only [NewValue, Option.some.injEq, Prod.mk.injEq] at h
          rw [h.2] at hri
          exact ⟨n, r, elem, hri, hd⟩
        · simp at h
        · cases hpa : parseAll tagMap n NewDataset r2 with
          | none => simp [hpa] at h
          | some z =>
            rw [hpa] at h
            rcases z with ⟨_ | err, ds, r3⟩
            · exact ih _ _ _ _ h
            · simp at h

/-- Claim C31: behind complete top-level elements (none an `SQ_ITEM_DELIM`
marker) and the header of an SQ element of undefined length, whenever
`readSequence` fails on what is left of the stream, `Parse` fails with an error
of kind IO and returns no dataset. This is what happens when the stream ends
behind complete items, and when it ends inside an item behind complete elements
of its body: the items decoded so far are not returned. `readSequence` always
returns, and it returns a value only right behind an `SQ_DELIM` marker it has
read. -/
theorem Parse_unterminated_sequence (tagMap : tag.TagMap) (ex : Bool)
    (body : List (List Nat × Element)) (t : Nat) (reserved : List Nat)
    (hb : ∀ p ∈ body, DecodesTo tagMap ex p.1 p.2 ∧ p.2.Tag ≠ SQItemDelim)
    (ht : t < 2 ^ 32) (h1 : t ≠ SQItem) (h2 : t ≠ SQItemDelim) (h3 : t ≠ SQDelim)
    (hres : reserved.length = 2) (hvr : ex = false → tag.VR tagMap t = ascii "SQ") :
    (∀ tail : List Nat,
      (∃ fuel err r1, readSequence tagMap fuel
          ⟨ex, tail, (bodyBytes body).length + (sqHeader ex t reserved).length, .LittleEndian⟩
            = some (.error err, r1)) →
      ∃ err, Parse tagMap (bodyBytes body ++ (sqHeader ex t reserved ++ tail)) ex
          = some (.error err)
        ∧ dcmerr.code? err = some dcmerr.ErrIO)
    ∧ (∀ items : List WireItem, (∀ it ∈ items, it.WellFormed tagMap ex) →
      ∃ err, Parse tagMap (bodyBytes body ++ (sqHeader ex t reserved ++ itemsBytes items)) ex
          = some (.error err)
        ∧ dcmerr.code? err = some dcmerr.ErrIO)
    ∧ (∀ (items : List WireItem) (l4 : List Nat) (open_body : List (List Nat × Element)),
      (∀ it ∈ items, it.WellFormed tagMap ex) → l4.length = 4 →
      (∀ p ∈ open_body, DecodesTo tagMap ex p.1 p.2 ∧ p.2.Tag ≠ SQItemDelim) →
      ∃ err, Parse tagMap (bodyBytes body ++ (sqHeader ex t reserved
            ++ (itemsBytes items ++ (tagBytes SQItem ++ l4 ++ bodyBytes open_body)))) ex
          = some (.error err)
        ∧ dcmerr.code? err = some dcmerr.ErrIO)
    ∧ (∀ (fuel : Nat) (r r1 : reader) (v : Value),
      readSequence tagMap fuel r = some (.ok v, r1) →
      ∃ m r0 e, readImpLEElement tagMap m r0 = some (.ok e, r1) ∧ e.Tag = SQDelim)
    ∧ (∀ (fuel : Nat) (r : reader), r.input.length + 3 ≤ fuel →
      (readSequence tagMap fuel r).isSome) := by
  refine ⟨?_, ?_, ?_, ?_, fun fuel r hf => (fuel_enough_aux tagMap fuel).2.2.2.2.1 r hf⟩
  rotate_left 3
  · intro fuel r r1 v h
    cases fuel with
    | zero => simp [readSequence] at h
    | succ f =>
      rw [readSequence] at h
      exact readSequenceLoop_ok_delim tagMap f [] r v r1 h
  · rintro tail ⟨fuel, err, r1, hseq⟩
    cases fuel with
    | zero => simp [readSequence] at hseq
    | succ f =>
      rw [readSequence] at hseq
      exact Parse_unterminated_aux tagMap ex body t reserved tail hb ht h1 h2 h3 hres hvr
        ⟨f, err, r1, hseq⟩
  · intro items hw
    obtain ⟨f0, hitems⟩ := readSequenceLoop_items_prefix tagMap ex items hw
    have h := hitems (max f0 2) (Nat.le_max_left _ _) [] []
      ((bodyBytes body).length + (sqHeader ex t reserved).length)
    rw [List.append_nil,
      readSequenceLoop_at_end tagMap ex _ _ (Nat.le_max_right _ _) _ _] at h
    exact Parse_unterminated_aux tagMap ex body t reserved _ hb ht h1 h2 h3 hres hvr
      ⟨max f0 2 + items.length, _, _, h⟩
  · intro items l4 open_body hw hl hob
    obtain ⟨f0, hitems⟩ := readSequenceLoop_items_prefix tagMap ex items hw
    obtain ⟨f2, hopen⟩ := readSequenceLoop_open_item tagMap ex l4 open_body hl hob
    have h := hitems (max f0 f2) (Nat.le_max_left _ _) []
      (tagBytes SQItem ++ l4 ++ bodyBytes open_body)
      ((bodyBytes body).length + (sqHeader ex t reserved).length)
    rw [hopen _ (Nat.le_max_right _ _) _ _] at h
    exact Parse_unterminated_aux tagMap ex body t reserved _ hb ht h1 h2 h3 hres hvr
      ⟨max f0 f2 + items.length, _, _, h⟩

/-- Claim C31 at the header of the sequence `(0008,1140)` followed by one complete
item and the end of the stream. -/
theorem Parse_unterminated_sequence_example :
    ∃ err, Parse exampleTags
        ([0x08, 0x00, 0x40, 0x11, 0x53, 0x51, 0x00, 0x00, 0xFF, 0xFF, 0xFF, 0xFF]
          ++ ([0xFE, 0xFF, 0x00, 0xE0, 0xFF, 0xFF, 0xFF, 0xFF] ++ examplePNBytes
            ++ [0xFE, 0xFF, 0x0D, 0xE0, 0x00, 0x00, 0x00, 0x00])) true
        = some (.error err)
      ∧ dcmerr.code? err = some dcmerr.ErrIO := by
  have h := (Parse_unterminated_sequence exampleTags true [] 0x00081140 [0, 0]
    (fun p hp => absurd hp (List.not_mem_nil _)) (by decide) (by decide) (by decide)
    (by decide) rfl (fun h => absurd h (by decide))).2.1 [exampleItem]
    (fun it hit => by
      have : it = exampleItem := by simpa using hit
      subst this
      exact exampleItem_wellFormed)
  simpa [sqHeader, itemsBytes, WireItem.bytes, exampleItem, bodyBytes,
    tagBytes_SQItem, tagBytes_SQItemDelim, List.append_assoc,
    show tagBytes 0x00081140 = [0x08, 0x00, 0x40, 0x11] from by decide,
    show ascii "SQ" = [0x53, 0x51] from by decide] using h

/-! ### The dump of a dataset -/

theorem Next_at (ds : Dataset) (pre : List Nat) (k : Nat) (suf : List Nat) :
    iterator.Next ⟨ds, pre ++ k :: suf, (pre.length : Int) - 1, none⟩
      = (true, ⟨ds, pre ++ k :: suf, (pre.length : Int), none⟩) := by
  have hidx : (pre.length : Int) - 1 + 1 = pre.length := by omega
  simp [iterator.Next, hidx]

theorem Next_at_end (ds : Dataset) (pre : List Nat) :
    iterator.Next ⟨ds, pre ++ [], (pre.length : Int) - 1, none⟩
      = (false, ⟨ds, pre ++ [], (pre.length : Int), none⟩) := by
  have hidx : (pre.length : Int) - 1 + 1 = pre.length := by omega
  simp [iterator.Next, hidx]

theorem Value_at (ds : Dataset) (pre : List Nat) (k : Nat) (suf : List Nat) (e : Element)
    (he : ds.elems.lookup k = some e) :
    iterator.Value ⟨ds, pre ++ k :: suf, (pre.length : Int), none⟩
      = .returns (some e, ⟨ds, pre ++ k :: suf, (pre.length : Int), none⟩) := by
  have h1 : ¬ ((pre.length : Int) ≥ ((pre ++ k :: suf).length : Int)) := by
    simp only [List.length_append, List.length_cons]; omega
  have h2 : ¬ ((pre.length : Int) < 0) := by omega
  have h3 : (pre ++ k :: suf)[(pre.length : Int).toNat]? = some k := by
    rw [Int.toNat_ofNat, List.getElem?_append_right (Nat.le_refl _)]
    simp
  unfold iterator.Value
  simp only [h1, h2, h3, he, if_false]

/-- The loop of `string` over a dataset that stores no sequence: one line per
remaining key. -/
theorem stringLoop_lines_aux (tagMap : tag.TagMap) (p : DumpPrinter) (ds : Dataset)
    (indent : GoString)
    (hns : ∀ q ∈ ds.elems, ∀ items, q.2.Value ≠ .sqValue items) (suf : List Nat) :
    ∀ (pre : List Nat) (sb : GoString) (fuel : Nat),
      (∀ k ∈ suf, k ∈ ds.elems.map (·.1)) → suf.length + 1 ≤ fuel →
      stringLoop tagMap p fuel ⟨ds, pre ++ suf, (pre.length : Int) - 1, none⟩ indent sb
        = some (.returns (sb ++ (suf.map
            (fun k => dumpLine tagMap p indent (ds.elems.lookup k))).flatten)) := by
  induction suf with
  | nil =>
    intro pre sb fuel _ hf
    obtain ⟨f, rfl⟩ : ∃ f, fuel = f + 1 := ⟨fuel - 1, by omega⟩
    rw [stringLoop, Next_at_end]
    simp
  | cons k suf ih =>
    intro pre sb fuel hk hf
    obtain ⟨f, rfl⟩ : ∃ f, fuel = f + 1 := ⟨fuel - 1, by omega⟩
    obtain ⟨e, he, hmem⟩ := lookup_of_mem_keys ds.elems k (hk k (List.mem_cons_self _ _))
    have hv := hns (k, e) hmem
    have h := ih (pre ++ [k]) (sb ++ (indent ++ sprintElement tagMap p e ++ [10])) f
      (fun x hx => hk x (List.mem_cons_of_mem _ hx))
      (by simp only [List.length_cons] at hf; omega)
    have hl : (((pre ++ [k]).length : Nat) : Int) - 1 = (pre.length : Int) := by
      simp only [List.length_append, List.length_singleton]; omega
    rw [hl, List.append_assoc, List.singleton_append] at h
    rw [stringLoop, Next_at]
    simp only [Value_at ds pre k suf e he]
    rw [h]
    simp only [List.map_cons, List.flatten_cons, he, dumpLine, List.append_assoc]

theorem flatten_lines (c : Nat) (l : List GoString) (hl : l ≠ []) :
    (l.map (· ++ [c])).flatten = List.intercalate [c] l ++ [c] := by
  induction l with
  | nil => exact absurd rfl hl
  | cons a l ih =>
    cases l with
    | nil => simp [List.intercalate]
    | cons b l =>
      have := ih (List.cons_ne_nil _ _)
      simp only [List.map_cons, List.flatten_cons] at this ⊢
      rw [this]
      simp [List.intercalate, List.intersperse, List.append_assoc]

/-- The dump of a non-empty dataset, built by `Put` and `PutString`, that stores
no sequence: given fuel for `Size() + 2` rounds, `String()` returns the lines of
its elements, ascending by tag, separated by newlines, with no newline at the
end. -/
theorem String_lines_aux (tagMap : tag.TagMap) (p : DumpPrinter) (ds : Dataset)
    (hb : Built ds) (hne : ds.Size ≠ 0)
    (hns : ∀ q ∈ ds.elems, ∀ items, q.2.Value ≠ .sqValue items) :
    ∃ es : List Element,
      es.length = ds.Size
      ∧ (es.map Element.Tag).Pairwise (· < ·)
      ∧ (∀ e ∈ es, ds.Get e.Tag = .ok e)
      ∧ ∀ fuel, ds.Size + 2 ≤ fuel →
          Dataset.String tagMap p fuel ds
            = some (.returns (List.intercalate [10] (es.map (sprintElement tagMap p)))) := by
  obtain ⟨hnd, hwf⟩ := Built_wf ds hb
  have hperm := List.perm_insertionSort (· ≤ ·) (ds.elems.map (·.1))
  have hsorted := List.sorted_insertionSort (· ≤ ·) (ds.elems.map (·.1))
  obtain ⟨es, h1, h2, h3⟩ := lookup_all_aux ds.elems hwf
    ((ds.elems.map (·.1)).insertionSort (· ≤ ·)) (fun k hk => hperm.mem_iff.1 hk)
  have hnd2 : ((ds.elems.map (·.1)).insertionSort (· ≤ ·)).Nodup := hperm.nodup_iff.2 hnd
  have hlen : es.length = ds.Size := by
    have hl : (es.map Element.Tag).length = es.length := List.length_map _ _
    rw [← hl, h2, hperm.length_eq, List.length_map]
    rfl
  refine ⟨es, hlen, ?_, fun e he => (Get_eq_ok_iff ds e.Tag e).2 (h3 e he), ?_⟩
  · rw [h2]
    exact hsorted.lt_of_le hnd2
  · intro fuel hf
    obtain ⟨f, rfl⟩ : ∃ f, fuel = f + 1 := ⟨fuel - 1, by omega⟩
    have hloop := stringLoop_lines_aux tagMap p ds [] hns
      ((ds.elems.map (·.1)).insertionSort (· ≤ ·)) [] [] f
      (fun k hk => hperm.mem_iff.1 hk)
      (by rw [hperm.length_eq, List.length_map]; exact Nat.le_of_succ_le_succ hf)
    have hmap : ((ds.elems.map (·.1)).insertionSort (· ≤ ·)).map
          (fun k => dumpLine tagMap p [] (ds.elems.lookup k))
        = es.map (fun e => sprintElement tagMap p e ++ [10]) := by
      have : ((ds.elems.map (·.1)).insertionSort (· ≤ ·)).map
            (fun k => dumpLine tagMap p [] (ds.elems.lookup k))
          = (((ds.elems.map (·.1)).insertionSort (· ≤ ·)).map
              (fun k => ds.elems.lookup k)).map (dumpLine tagMap p []) := by
        rw [List.map_map]; rfl
      rw [this, h1, List.map_map]
      rfl
    have hes : es.map (sprintElement tagMap p) ≠ [] := by
      intro hnil
      have : es.length = 0 := by
        rw [← List.length_map es (sprintElement tagMap p), hnil]; rfl
      exact hne (hlen ▸ this)
    have hflat : (es.map (fun e => sprintElement tagMap p e ++ [10])).flatten
        = List.intercalate [10] (es.map (sprintElement tagMap p)) ++ [10] := by
      rw [← flatten_lines 10 _ hes, List.map_map]
      rfl
    have hstr : Dataset.string tagMap p (f + 1) ds []
        = some (.returns (List.intercalate [10] (es.map (sprintElement tagMap p)) ++ [10])) := by
      rw [Dataset.string]
      have hit : newIterator ds
          = ⟨ds, [] ++ (ds.elems.map (·.1)).insertionSort (· ≤ ·), (([] : List Nat).length : Int) - 1,
              none⟩ := rfl
      rw [hit, hloop, hmap, hflat]
      rfl
    unfold Dataset.String
    rw [hstr]
    have hl0 : ¬ (List.intercalate [10] (es.map (sprintElement tagMap p)) ++ [10]).length = 0 := by
      simp
    have hl1 : (List.intercalate [10] (es.map (sprintElement tagMap p)) ++ [10]).length - 1
        = (List.intercalate [10] (es.map (sprintElement tagMap p))).length := by
      simp
    simp only [hl0, if_false, hl1, List.drop_left, List.take_left, if_true]

/-- Claim C33, evaluated on the code: for the empty dataset `string("")` returns
the empty string and `String()` panics on the slice expression
`str[len(str)-1:]`, whatever the dictionary, the printer and the fuel (at least
2); the dataset holding `(0010,0010)` and `(0008,0005)` is dumped as two lines
in ascending tag order without a final newline. -/
theorem String_NewDataset_panics :
    (∀ (tagMap : tag.TagMap) (p : DumpPrinter) (fuel : Nat), 2 ≤ fuel →
      Dataset.string tagMap p fuel NewDataset [] = some (.returns [])
      ∧ Dataset.String tagMap p fuel NewDataset = some .panics)
    ∧ Dataset.String exampleTags exampleDumpPrinter 4 exampleDataset
        = some (.returns (ascii "(00080005) CS #10 [ISO_IR 100] UNKNOWN"
            ++ [10] ++ ascii "(00100010) PN #4 [AB^C] PatientName")) := by
  refine ⟨?_, by decide!⟩
  intro tagMap p fuel hf
  obtain ⟨f, rfl⟩ : ∃ f, fuel = f + 2 := ⟨fuel - 2, by omega⟩
  have h : Dataset.string tagMap p (f + 2) NewDataset [] = some (.returns []) := by
    rw [Dataset.string, stringLoop]
    rfl
  refine ⟨h, ?_⟩
  unfold Dataset.String
  rw [h]
  rfl

/-! ### Items whose body repeats a tag -/

theorem lookup_putAll (body : List (List Nat × Element)) (ds : Dataset) (t : Nat) :
    (putAll ds body).elems.lookup t
      = match lastWithTag t body with
        | some e => some e
        | none => ds.elems.lookup t := by
  induction body generalizing ds with
  | nil => rfl
  | cons p body ih =>
    have hput : putAll ds (p :: body) = putAll (ds.Put (some p.2)) body := rfl
    have hlast : lastWithTag t (p :: body)
        = match lastWithTag t body with
          | some e => some e
          | none => if p.2.Tag = t then some p.2 else none := by
      unfold lastWithTag
      simp only [List.map_cons, List.reverse_cons, List.find?_append]
      cases List.find? (fun e => e.Tag == t) (List.map (fun x => x.2) body).reverse with
      | some e => rfl
      | none =>
        by_cases h : p.2.Tag = t
        · simp [h]
        · simp [h]
    rw [hput, ih, hlast]
    cases lastWithTag t body with
    | some e => rfl
    | none =>
      show (mapSet ds.elems p.2.Tag p.2).lookup t = _
      rw [lookup_mapSet]
      by_cases h : p.2.Tag = t
      · rw [if_pos h.symm, if_pos h]
      · rw [if_neg (fun h2 => h h2.symm), if_neg h]

theorem Built_putAll (body : List (List Nat × Element)) (ds : Dataset) (h : Built ds) :
    Built (putAll ds body) := by
  induction body generalizing ds with
  | nil => exact h
  | cons p body ih => exact ih _ (Built.put ds (some p.2) h)

theorem mem_keys_putAll (body : List (List Nat × Element)) (t : Nat) :
    t ∈ (putAll NewDataset body).elems.map (·.1) ↔ t ∈ body.map (·.2.Tag) := by
  constructor
  · intro h
    obtain ⟨p, hp, hpt⟩ := List.mem_map.1 h
    rcases mem_putAll_key body NewDataset hp with h1 | ⟨q, hq, h1⟩
    · cases h1
    · rw [← hpt, h1]
      exact List.mem_map.2 ⟨q, hq, rfl⟩
  · intro h
    have hl := lookup_putAll body NewDataset t
    rcases hlast : lastWithTag t body with _ | e
    · exfalso
      obtain ⟨q, hq, hqt⟩ := List.mem_map.1 h
      unfold lastWithTag at hlast
      have := List.find?_eq_none.1 hlast q.2
        (List.mem_reverse.2 (List.mem_map.2 ⟨q, hq, rfl⟩))
      simp [hqt] at this
    · rw [hlast] at hl
      exact mem_keys_of_lookup _ t e hl

/-- The dataset of an item: what `Put` makes of its body. `Get` finds for a tag
the last element of the body with that tag; every entry is an element of the
body, stored under its tag; there are as many entries as different tags; and a
body without a repeated tag gives exactly its elements. -/
theorem WireItem_dataset_aux (it : WireItem) :
    (∀ tg, it.dataset.Get tg
        = match lastWithTag tg it.body with
          | some e => .ok e
          | none => .error (dcmerr.Errorf dcmerr.ErrNotFound (Dataset.notFoundMsg tg)))
    ∧ (∀ p ∈ it.dataset.elems, p.1 = p.2.Tag ∧ p.2 ∈ it.body.map (·.2))
    ∧ it.dataset.Size = ((it.body.map (·.2.Tag)).dedup).length
    ∧ ((it.body.map (·.2.Tag)).Nodup →
        it.dataset.elems = it.body.map (fun p => (p.2.Tag, p.2))) := by
  refine ⟨?_, ?_, ?_, ?_⟩
  · intro tg
    unfold Dataset.Get WireItem.dataset
    rw [lookup_putAll]
    cases lastWithTag tg it.body with
    | some e => rfl
    | none => rfl
  · intro p hp
    rcases mem_putAll_key it.body NewDataset hp with h | ⟨q, hq, h⟩
    · cases h
    · rw [h]
      exact ⟨rfl, List.mem_map.2 ⟨q, hq, rfl⟩⟩
  · have hnd := (Built_wf _ (Built_putAll it.body NewDataset Built.new)).1
    have hperm : ((putAll NewDataset it.body).elems.map (·.1)).Perm
        ((it.body.map (·.2.Tag)).dedup) := by
      refine (List.perm_ext_iff_of_nodup hnd (List.nodup_dedup _)).2 (fun t => ?_)
      rw [mem_keys_putAll, List.mem_dedup]
    have := hperm.length_eq
    rw [List.length_map] at this
    exact this
  · intro hnd
    have := putAll_of_nodup it.body NewDataset hnd (by intro p _; exact List.not_mem_nil _)
    simpa [WireItem.dataset, NewDataset, Dataset.elems] using this

/-- With enough fuel `readElement` turns an SQ header of undefined length, the
items and the `SQ_DELIM` marker into the sequence of the items' datasets. -/
theorem readElement_sequence_aux (tagMap : tag.TagMap) (ex : Bool) (t : Nat)
    (reserved d4 : List Nat) (items : List WireItem)
    (ht : t < 2 ^ 32) (h1 : t ≠ SQItem) (h2 : t ≠ SQItemDelim) (h3 : t ≠ SQDelim)
    (hres : reserved.length = 2) (hvr : ex = false → tag.VR tagMap t = ascii "SQ")
    (hw : ∀ it ∈ items, it.WellFormed tagMap ex) (hd : d4.length = 4) :
    ∃ fuel0, ∀ fuel, fuel0 ≤ fuel → ∀ (rest : List Nat) (k : Nat),
      readElement tagMap fuel
          ⟨ex, sqHeader ex t reserved ++ (itemsBytes items ++ tagBytes SQDelim ++ d4 ++ rest), k,
            .LittleEndian⟩
        = some (.ok (NewElement t (ascii "SQ") UndefinedLength
              (.sqValue (items.map WireItem.dataset))),
            ⟨ex, rest, k + (sqHeader ex t reserved).length + ((itemsBytes items).length + 8),
              .LittleEndian⟩) := by
  obtain ⟨f0, hloop⟩ := readSequenceLoop_items tagMap ex items hw
  refine ⟨f0 + 4, ?_⟩
  intro fuel hf rest k
  obtain ⟨f, rfl⟩ : ∃ f, fuel = f + 4 := ⟨fuel - 4, by omega⟩
  rw [readElement_sqHeader tagMap f ex t reserved _ k ht h1 h2 h3 hres hvr,
    hloop f (by omega) [] d4 rest _ hd]
  rfl

theorem examplePN2_decodes : DecodesTo exampleTags true examplePN2Bytes examplePN2 :=
  ⟨2, fun rest k => readElement_text_aux exampleTags 0 0x00100010 k (ascii "PN") (ascii "XY")
    rest (by decide) (by decide) (by decide) (by decide) (by decide) (by decide)⟩

theorem repeatedTagItem_wellFormed : repeatedTagItem.WellFormed exampleTags true := by
  refine ⟨rfl, rfl, ?_⟩
  intro p hp
  have hp2 : p = (examplePNBytes, examplePN) ∨ p = (examplePN2Bytes, examplePN2) := by
    simpa [repeatedTagItem] using hp
  rcases hp2 with h | h
  · subst h
    exact ⟨examplePN_decodes, by decide, by decide, by decide⟩
  · subst h
    exact ⟨examplePN2_decodes, by decide, by decide, by decide⟩

/-- Claim C2, refuted on the code where an item body repeats a tag. The stream
holds an SQ header of undefined length, one item framed by an `SQ_ITEM` and an
`SQ_ITEM_DELIM` marker whose body is the two complete non-marker elements
`(0010,0010) PN "AB^C"` and `(0010,0010) PN "XY"`, and an `SQ_DELIM` marker.
`readElement` returns the sequence of one dataset, and this dataset has size 1:
it holds `"XY"` only, the first element of the body is not in it. -/
theorem readElement_sequence_repeated_tag :
    repeatedTagItem.WellFormed exampleTags true
    ∧ repeatedTagItem.body.map (·.2) = [examplePN, examplePN2]
    ∧ (∃ fuel0, ∀ fuel, fuel0 ≤ fuel → ∀ (rest : List Nat) (k : Nat),
        readElement exampleTags fuel ⟨true, repeatedTagSequence ++ rest, k, .LittleEndian⟩
          = some (.ok (NewElement 0x00081140 (ascii "SQ") UndefinedLength
                (.sqValue [.mk [(0x00100010, examplePN2)]])),
              ⟨true, rest, k + 58, .LittleEndian⟩))
    ∧ Dataset.Size (.mk [(0x00100010, examplePN2)]) = 1
    ∧ examplePN ∉ (Dataset.elems (.mk [(0x00100010, examplePN2)])).map (·.2)
    ∧ Dataset.Get (.mk [(0x00100010, examplePN2)]) 0x00100010 = .ok examplePN2
    ∧ examplePN ≠ examplePN2 := by
  refine ⟨repeatedTagItem_wellFormed, rfl, ?_, rfl, by decide, by decide, by decide⟩
  obtain ⟨f0, h⟩ := readElement_sequence_aux exampleTags true 0x00081140 [0, 0] [0, 0, 0, 0]
    [repeatedTagItem] (by decide) (by decide) (by decide) (by decide) rfl
    (fun h => absurd h (by decide))
    (fun it hit => by
      have : it = repeatedTagItem := by simpa using hit
      subst this
      exact repeatedTagItem_wellFormed) rfl
  refine ⟨f0, fun fuel hf rest k => ?_⟩
  have := h fuel hf rest k
  have hds : repeatedTagItem.dataset = .mk [(0x00100010, examplePN2)] := by decide
  rw [List.map_cons, List.map_nil, hds] at this
  simpa [repeatedTagSequence, sqHeader, itemsBytes, WireItem.bytes, repeatedTagItem, bodyBytes,
    tagBytes_SQItem, tagBytes_SQItemDelim, tagBytes_SQDelim, List.append_assoc,
    show tagBytes 0x00081140 = [0x08, 0x00, 0x40, 0x11] from by decide,
    show ascii "SQ" = [0x53, 0x51] from by decide] using this

/-- Claim C2 as amended: an SQ element of undefined length with `k` items, each
an `SQ_ITEM` marker, a body of complete non-marker elements and an
`SQ_ITEM_DELIM` marker, closed by an `SQ_DELIM` marker. With enough fuel
`readElement` returns the element with VR `SQ`, VL `0xFFFFFFFF` and a sequence
value of exactly `k` datasets, and stops right behind the `SQ_DELIM` marker. The
`i`-th dataset is what putting the elements of the `i`-th body in order gives:
`Get` finds for every tag the last element of the body with that tag and fails
with `ErrNotFound` for a tag the body does not have; every entry is an element
of the body, stored under its own tag; the size is the number of different tags
of the body; and when no tag occurs twice in the body the entries are exactly
the elements of the body. -/
theorem readElement_sequence (tagMap : tag.TagMap) (ex : Bool) (t : Nat)
    (reserved d4 : List Nat) (items : List WireItem)
    (ht : t < 2 ^ 32) (h1 : t ≠ SQItem) (h2 : t ≠ SQItemDelim) (h3 : t ≠ SQDelim)
    (hres : reserved.length = 2) (hvr : ex = false → tag.VR tagMap t = ascii "SQ")
    (hw : ∀ it ∈ items, it.WellFormed tagMap ex) (hd : d4.length = 4) :
    (∃ fuel0, ∀ fuel, fuel0 ≤ fuel → ∀ (rest : List Nat) (k : Nat),
      readElement tagMap fuel
          ⟨ex, sqHeader ex t reserved ++ (itemsBytes items ++ tagBytes SQDelim ++ d4 ++ rest), k,
            .LittleEndian⟩
        = some (.ok (NewElement t (ascii "SQ") UndefinedLength
              (.sqValue (items.map WireItem.dataset))),
            ⟨ex, rest, k + (sqHeader ex t reserved).length + ((itemsBytes items).length + 8),
              .LittleEndian⟩))
    ∧ (items.map WireItem.dataset).length = items.length
    ∧ ∀ it ∈ items,
        (∀ tg, it.dataset.Get tg
            = match lastWithTag tg it.body with
              | some e => .ok e
              | none => .error (dcmerr.Errorf dcmerr.ErrNotFound (Dataset.notFoundMsg tg)))
        ∧ (∀ p ∈ it.dataset.elems, p.1 = p.2.Tag ∧ p.2 ∈ it.body.map (·.2))
        ∧ it.dataset.Size = ((it.body.map (·.2.Tag)).dedup).length
        ∧ ((it.body.map (·.2.Tag)).Nodup →
            it.dataset.elems = it.body.map (fun p => (p.2.Tag, p.2))) :=
  ⟨readElement_sequence_aux tagMap ex t reserved d4 items ht h1 h2 h3 hres hvr hw hd,
    List.length_map _ _, fun it _ => WireItem_dataset_aux it⟩

/-- Claim C2 as amended, at a sequence of two items with one `PN` element each:
the value is a sequence of two datasets, each of size 1 and holding the `PN`
element of its item. -/
theorem readElement_sequence_two_items :
    (∃ fuel0, ∀ fuel, fuel0 ≤ fuel → ∀ (rest : List Nat) (k : Nat),
      readElement exampleTags fuel ⟨true, exampleSequence ++ rest, k, .LittleEndian⟩
        = some (.ok (NewElement 0x00081140 (ascii "SQ") UndefinedLength
              (.sqValue [exampleItem.dataset, exampleItem.dataset])),
            ⟨true, rest, k + 76, .LittleEndian⟩))
    ∧ [exampleItem.dataset, exampleItem.dataset].map Dataset.Size = [1, 1]
    ∧ exampleItem.dataset.elems = [(0x00100010, examplePN)] := by
  have hall := readElement_sequence exampleTags true 0x00081140 [0, 0] [0, 0, 0, 0]
    [exampleItem, exampleItem] (by decide) (by decide) (by decide) (by decide) rfl
    (fun h => absurd h (by decide))
    (fun it hit => by
      have : it = exampleItem := by simpa using hit
      subst this
      exact exampleItem_wellFormed) rfl
  refine ⟨?_, rfl, (hall.2.2 exampleItem (by simp)).2.2.2 (by decide)⟩
  obtain ⟨f0, h⟩ := hall.1
  refine ⟨f0, fun fuel hf rest k => ?_⟩
  have := h fuel hf rest k
  simpa [exampleSequence, sqHeader, itemsBytes, WireItem.bytes, exampleItem, bodyBytes,
    tagBytes_SQItem, tagBytes_SQItemDelim, tagBytes_SQDelim, List.append_assoc,
    show tagBytes 0x00081140 = [0x08, 0x00, 0x40, 0x11] from by decide,
    show ascii "SQ" = [0x53, 0x51] from by decide] using this

/-- Claim C4 as amended: the length carried by an `SQ_ITEM` marker is not used.
For every item whose body of complete non-marker elements is followed by an
`SQ_ITEM_DELIM` marker, whatever its four length bytes, one turn of the loop of
`readSequence` (given enough fuel) appends the item's dataset to the items and
goes on reading right behind the delimiter. The dataset is what putting the
elements of the body in order gives: `Get` finds for every tag the last element
of the body with that tag and fails with `ErrNotFound` for a tag the body does
not have; every entry is an element of the body, stored under its own tag, and
none is an SQ marker; the size is the number of different tags of the body; and
when no tag occurs twice in the body the entries are exactly the elements of
the body. -/
theorem readSequenceLoop_item (tagMap : tag.TagMap) (ex : Bool) (it : WireItem)
    (hw : it.WellFormed tagMap ex) :
    (∃ fuel0, ∀ fuel, fuel0 ≤ fuel → ∀ (acc : List Dataset) (rest : List Nat) (k : Nat),
      readSequenceLoop tagMap (fuel + 1) acc ⟨ex, it.bytes ++ rest, k, .LittleEndian⟩
        = readSequenceLoop tagMap fuel (acc ++ [it.dataset])
            ⟨ex, rest, k + it.bytes.length, .LittleEndian⟩)
    ∧ (∀ tg, it.dataset.Get tg
        = match lastWithTag tg it.body with
          | some e => .ok e
          | none => .error (dcmerr.Errorf dcmerr.ErrNotFound (Dataset.notFoundMsg tg)))
    ∧ (∀ p ∈ it.dataset.elems, p.1 = p.2.Tag ∧ p.2 ∈ it.body.map (·.2) ∧ NonMarker p.2)
    ∧ it.dataset.Size = ((it.body.map (·.2.Tag)).dedup).length
    ∧ ((it.body.map (·.2.Tag)).Nodup →
        it.dataset.elems = it.body.map (fun p => (p.2.Tag, p.2))) := by
  obtain ⟨hget, hmem, hsize, hnd⟩ := WireItem_dataset_aux it
  refine ⟨readSequenceLoop_item_aux tagMap ex it hw, hget, ?_, hsize, hnd⟩
  intro p hp
  obtain ⟨hk, hin⟩ := hmem p hp
  refine ⟨hk, hin, ?_⟩
  obtain ⟨q, hq, hqe⟩ := List.mem_map.1 hin
  exact hqe ▸ (hw.2.2 q hq).2

/-- Claim C4 as amended, at an item that holds one `PN` element and declares the
length 12, and at an item that declares the length 22 and holds the tag
`(0010,0010)` twice, of which the dataset keeps the second element. -/
theorem readSequenceLoop_item_declared_length :
    (∃ fuel0, ∀ fuel, fuel0 ≤ fuel → ∀ (acc : List Dataset) (rest : List Nat) (k : Nat),
      readSequenceLoop exampleTags (fuel + 1) acc
          ⟨true, [0xFE, 0xFF, 0x00, 0xE0, 0x0C, 0x00, 0x00, 0x00] ++ examplePNBytes
            ++ [0xFE, 0xFF, 0x0D, 0xE0, 0x00, 0x00, 0x00, 0x00] ++ rest, k, .LittleEndian⟩
        = readSequenceLoop exampleTags fuel (acc ++ [exampleItem.dataset])
            ⟨true, rest, k + 28, .LittleEndian⟩)
    ∧ exampleItem.dataset.elems = [(0x00100010, examplePN)]
    ∧ (∃ fuel0, ∀ fuel, fuel0 ≤ fuel → ∀ (acc : List Dataset) (rest : List Nat) (k : Nat),
        readSequenceLoop exampleTags (fuel + 1) acc
            ⟨true, [0xFE, 0xFF, 0x00, 0xE0, 0x16, 0x00, 0x00, 0x00] ++ examplePNBytes
              ++ examplePN2Bytes ++ [0xFE, 0xFF, 0x0D, 0xE0, 0x00, 0x00, 0x00, 0x00] ++ rest, k,
              .LittleEndian⟩
          = readSequenceLoop exampleTags fuel (acc ++ [.mk [(0x00100010, examplePN2)]])
              ⟨true, rest, k + 38, .LittleEndian⟩)
    ∧ Dataset.Get (.mk [(0x00100010, examplePN2)]) 0x00100010 = .ok examplePN2 := by
  have hw : WireItem.WellFormed exampleTags true
      { exampleItem with lenField := [0x0C, 0x00, 0x00, 0x00] } :=
    ⟨rfl, rfl, exampleItem_wellFormed.2.2⟩
  have hw2 : WireItem.WellFormed exampleTags true
      { repeatedTagItem with lenField := [0x16, 0x00, 0x00, 0x00] } :=
    ⟨rfl, rfl, repeatedTagItem_wellFormed.2.2⟩
  obtain ⟨f0, h⟩ := (readSequenceLoop_item exampleTags true
    { exampleItem with lenField := [0x0C, 0x00, 0x00, 0x00] } hw).1
  obtain ⟨g0, g⟩ := (readSequenceLoop_item exampleTags true
    { repeatedTagItem with lenField := [0x16, 0x00, 0x00, 0x00] } hw2).1
  refine ⟨⟨f0, fun fuel hf acc rest k => ?_⟩, rfl, ⟨g0, fun fuel hf acc rest k => ?_⟩, by decide⟩
  · have := h fuel hf acc rest k
    simpa [WireItem.bytes, WireItem.dataset, exampleItem, bodyBytes, tagBytes_SQItem,
      tagBytes_SQItemDelim, List.append_assoc] using this
  · have := g fuel hf acc rest k
    have hds : WireItem.dataset { repeatedTagItem with lenField := [0x16, 0x00, 0x00, 0x00] }
        = .mk [(0x00100010, examplePN2)] := by decide
    rw [hds] at this
    simpa [WireItem.bytes, repeatedTagItem, bodyBytes, tagBytes_SQItem,
      tagBytes_SQItemDelim, List.append_assoc] using this

end Dicom
